import Mathlib

/-!
# File proxy of k8s-bootstrapper (`pkg/file-proxy`)

A shallow embedding of `proxy.go`: the HTTP handler of the artifact cache,
its checksum handling and the Go library functions it relies on.

A Go `string` (and a `[]byte`) is a sequence of bytes; it is modelled as a
`List Char`, one `Char` per byte.  `len s` is `List.length s`.
-/

set_option autoImplicit false

namespace Fileproxy

/-- Go strings and byte slices: sequences of bytes, one `Char` per byte. -/
abbrev GoString := List Char

/-! ## Package `strings` -/

namespace strings

/-- Go `strings.HasPrefix`. -/
def HasPrefix : GoString → GoString → Bool
  | _, [] => true
  | [], _ :: _ => false
  | c :: cs, d :: ds => decide (c = d) && HasPrefix cs ds

/-- Go `strings.HasSuffix`. -/
def HasSuffix (s suffix : GoString) : Bool :=
  HasPrefix s.reverse suffix.reverse

/-- Go `strings.Contains`: `substr` occurs somewhere in `s`. -/
def Contains : GoString → GoString → Bool
  | [], substr => HasPrefix [] substr
  | c :: cs, substr => HasPrefix (c :: cs) substr || Contains cs substr

/-- Go `strings.Split s sep` for a separator of one byte: the pieces between
the separators; a string without separator gives one piece. -/
def Split (sep : Char) : GoString → List GoString
  | [] => [[]]
  | c :: cs =>
    if c = sep then [] :: Split sep cs
    else
      match Split sep cs with
      | [] => [[c]]
      | piece :: rest => (c :: piece) :: rest

/-- The piece `strings.SplitN(s, sep, 2)[0]`, for a separator of one byte:
the text before the first separator, all of `s` when there is none. -/
def SplitN2Head (sep : Char) : GoString → GoString
  | [] => []
  | c :: cs => if c = sep then [] else c :: SplitN2Head sep cs

/-- Go `strings.Join` with the separator `/`. -/
def JoinSlash : List GoString → GoString
  | [] => []
  | [a] => a
  | a :: b :: rest => a ++ '/' :: JoinSlash (b :: rest)

end strings

/-! ## Packages `path` and `path/filepath` (Unix) -/

namespace path

/-- One step of `path.Clean` over the stack of kept elements (innermost
first): empty and `.` elements are dropped, `..` removes the element before
it, is kept at the start of a relative path and dropped at the root. -/
def cleanStep (rooted : Bool) (stack : List GoString) (elem : GoString) : List GoString :=
  if elem = [] ∨ elem = ['.'] then stack
  else if elem = ['.', '.'] then
    match stack with
    | [] => if rooted then [] else [elem]
    | top :: below => if top = ['.', '.'] then elem :: top :: below else below
  else elem :: stack

/-- Go `path.Clean`: the shortest path equivalent to the argument by purely
lexical processing.  The result ends in a slash only when it is the root,
and the empty path cleans to `.`. -/
def Clean (p : GoString) : GoString :=
  let rooted := strings.HasPrefix p ['/']
  let kept := ((strings.Split '/' p).foldl (cleanStep rooted) []).reverse
  if rooted then '/' :: strings.JoinSlash kept
  else if kept = [] then ['.'] else strings.JoinSlash kept

/-- Go `path.Join` (and `filepath.Join` on Unix): the non-empty elements
joined by slashes and cleaned; the empty string when all are empty. -/
def Join (elems : List GoString) : GoString :=
  match elems.filter (fun e => e ≠ []) with
  | [] => []
  | kept => Clean (strings.JoinSlash kept)

/-- The part of a path up to and including its last slash (Go `path.Split`,
first component). -/
def dirPart (p : GoString) : GoString :=
  (p.reverse.dropWhile (fun c => c ≠ '/')).reverse

/-- Go `filepath.Dir` on Unix: all but the last element of the path, cleaned. -/
def Dir (p : GoString) : GoString :=
  Clean (dirPart p)

/-- Go `filepath.Base` on Unix: the last element of the path, after removing
trailing slashes; `.` for the empty path and `/` for a path of slashes. -/
def Base (p : GoString) : GoString :=
  if p = [] then ['.']
  else
    let stripped := p.reverse.dropWhile (fun c => c = '/')
    let last := (stripped.takeWhile (fun c => c ≠ '/')).reverse
    if last = [] then ['/'] else last

end path

/-- The elements `path.Clean` keeps: not empty and without a slash. -/
def path.Segments (l : List GoString) : Prop := ∀ e ∈ l, e ≠ [] ∧ '/' ∉ e

/-- The length of a list of path elements when each is followed by a slash. -/
def path.weight (l : List GoString) : Nat := (l.map (fun e => e.length + 1)).sum

/-! ## Package `encoding/hex` -/

namespace hex

/-- The lower-case digit table of `encoding/hex`. -/
def hextable : GoString :=
  ['0', '1', '2', '3', '4', '5', '6', '7', '8', '9', 'a', 'b', 'c', 'd', 'e', 'f']

/-- The digit for a value below 16. -/
def digit (n : Nat) : Char := hextable.getD n '0'

/-- Go `hex.EncodeToString`: two lower-case digits per byte, high nibble first. -/
def EncodeToString : List UInt8 → GoString
  | [] => []
  | b :: bs => digit (b.toNat / 16) :: digit (b.toNat % 16) :: EncodeToString bs

end hex

/-! ## Package `strconv` -/

/-- The decimal rendering of a number, as `fmt.Sprintf("%d", n)` gives it. -/
def Itoa (n : Nat) : GoString := Nat.toDigits 10 n

/-! ## Errors -/

/-- The system error behind a failed file operation. -/
inductive Errno
  | ENOENT
  | EISDIR
  | ENOTDIR
  | EOTHER (text : GoString)
  deriving DecidableEq, Repr

/-- The text of a system error. -/
def Errno.Error : Errno → GoString
  | .ENOENT => "no such file or directory".toList
  | .EISDIR => "is a directory".toList
  | .ENOTDIR => "not a directory".toList
  | .EOTHER text => text

/-- The Go `error` values that reach the handler.  The first three are the
package's sentinel errors, `httpError` is the `*httpError` of `proxy.go`,
`pathError` is `*fs.PathError`, `wrap` is an error that wraps another
(`%w`), and `other` is any error known by its text only. -/
inductive Error
  | ErrIsNotRegularFile
  | ErrNotImplemented
  | ErrFileNotFound
  | httpError (status : Nat) (msg : GoString)
  | hashsumNotFound (filename : GoString)
  | emptyPath
  | pathError (op : GoString) (path : GoString) (errno : Errno)
  | wrap (text : GoString) (inner : Error)
  | other (text : GoString)
  deriving DecidableEq, Repr

namespace Error

/-- The method `Error()`; `quote` is the `%q` verb of `fmt`. -/
def Error (quote : GoString → GoString) : Error → GoString
  | .ErrIsNotRegularFile => "not a regular File".toList
  | .ErrNotImplemented => "not implemented".toList
  | .ErrFileNotFound => "file not found".toList
  | .httpError status msg => Itoa status ++ ": ".toList ++ msg
  | .hashsumNotFound filename =>
    "hashsum for File ".toList ++ quote filename ++ " not found".toList
  | .emptyPath => "empty path to File".toList
  | .pathError op path errno => op ++ " ".toList ++ path ++ ": ".toList ++ errno.Error
  | .wrap text _ => text
  | .other text => text

/-- Go `os.IsNotExist`: a path error whose system error is `ENOENT`. -/
def IsNotExist : Fileproxy.Error → Bool
  | .pathError _ _ .ENOENT => true
  | _ => false

/-- Go `errors.Is`: the error or one it wraps is equal to the target. -/
def Is : Fileproxy.Error → Fileproxy.Error → Bool
  | .wrap text inner, target => decide (Fileproxy.Error.wrap text inner = target) || Is inner target
  | err, target => decide (err = target)

/-- Go `errors.As` for the target type `*httpError`: the first `httpError`
in the chain of wrapped errors. -/
def AsHttpError : Fileproxy.Error → Option (Nat × GoString)
  | .httpError status msg => some (status, msg)
  | .wrap _ inner => AsHttpError inner
  | _ => none

end Error

/-! ## The environment of a request -/

/-- Maps keyed by Go strings, as association lists. -/
abbrev Map (β : Type) := List (GoString × β)

namespace Map

variable {β : Type}

/-- The value stored under a key. -/
def get : Map β → GoString → Option β
  | [], _ => none
  | (k, v) :: rest, key => if k = key then some v else get rest key

/-- The map without a key. -/
def del (m : Map β) (key : GoString) : Map β :=
  m.filter (fun e => e.1 ≠ key)

/-- The map with a key set to a value. -/
def set (m : Map β) (key : GoString) (v : β) : Map β :=
  (key, v) :: del m key

end Map

/-- What a path names in the file system. -/
inductive Node
  | file (content : GoString)
  | dir
  deriving DecidableEq, Repr

/-- `FileInfo.IsDir`. -/
def Node.IsDir : Node → Bool
  | .dir => true
  | .file _ => false

/-- `FileInfo.Size` of a regular file. -/
def Node.Size : Node → Nat
  | .dir => 0
  | .file content => content.length

/-- The file system: what each path names. -/
abbrev FS := Map Node

/-- The file operations of package `os` that the proxy performs. -/
inductive Op
  | Stat (name : GoString)
  | ReadFile (name : GoString)
  | MkdirAll (name : GoString)
  | OpenFile (name : GoString)
  | Open (name : GoString)
  | Read (name : GoString)
  | Write (name : GoString)
  | Remove (name : GoString)
  deriving DecidableEq, Repr

/-- An upstream HTTP response: its status code, the bytes its body
delivers, and the error that ends the body early, if any. -/
structure Upstream where
  StatusCode : Nat
  Body : GoString
  BodyErr : Option Error
  deriving DecidableEq, Repr

/-- What the code takes from outside the repository: the Go library
(`crypto/sha256`, `http.StatusText`, the `%q` verb), the network behind
`http.DefaultClient`, and the operating system's failures: `fault op` is the
system error with which `op` fails, which package `os` returns in a
`*fs.PathError`, and `short op` is the number of bytes a failing copy has
transferred before it fails. -/
structure Env where
  Sum256 : GoString → List UInt8
  StatusText : Nat → GoString
  quote : GoString → GoString
  get : GoString → Except Error Upstream
  fault : Op → Option Errno
  short : Op → Nat

/-- The interface `Endpoint`. -/
structure Endpoint where
  FileURL : GoString → GoString → Except Error GoString
  HashFileURL : GoString → GoString → Except Error GoString
  LastTag : Except Error GoString

/-- The calls a request makes on its collaborators, in order. -/
inductive Event
  | LastTag
  | HashFileURL (file : GoString) (tag : GoString)
  | FileURL (file : GoString) (tag : GoString)
  | get (url : GoString)
  | Acquire (key : GoString)
  | Release (key : GoString)
  deriving DecidableEq, Repr

/-- The state shared by requests: the file system, the keys held in the
`Semaphore` of the `Proxy`, and the log of calls made so far. -/
structure State where
  fs : FS
  sem : List GoString
  log : List Event
  deriving DecidableEq, Repr

/-- The struct `Proxy`; its semaphore lives in the `State`. -/
structure Proxy where
  dir : GoString
  deriving DecidableEq, Repr

/-! ## Package `os` -/

namespace os

/-- Go `os.Stat`: what the path names, or an error. -/
def Stat (env : Env) (fs : FS) (name : GoString) : Except Error Node :=
  match env.fault (.Stat name) with
  | some errno => .error (.pathError "stat".toList name errno)
  | none =>
    match fs.get name with
    | none => .error (.pathError "stat".toList name .ENOENT)
    | some node => .ok node

/-- Go `os.ReadFile`: the whole content of a regular file. -/
def ReadFile (env : Env) (fs : FS) (name : GoString) : Except Error GoString :=
  match env.fault (.ReadFile name) with
  | some errno => .error (.pathError "open".toList name errno)
  | none =>
    match fs.get name with
    | none => .error (.pathError "open".toList name .ENOENT)
    | some .dir => .error (.pathError "read".toList name .EISDIR)
    | some (.file content) => .ok content

/-- Go `os.MkdirAll`: the directory exists afterwards; a regular file in its
place is an error.  The directory is recorded under its own path. -/
def MkdirAll (env : Env) (fs : FS) (name : GoString) : Except Error FS :=
  match env.fault (.MkdirAll name) with
  | some errno => .error (.pathError "mkdir".toList name errno)
  | none =>
    match fs.get name with
    | none => .ok (fs.set name .dir)
    | some .dir => .ok fs
    | some (.file _) => .error (.pathError "mkdir".toList name .ENOTDIR)

/-- Go `os.OpenFile` with `O_CREATE|O_TRUNC`: the file exists and is empty
afterwards; a directory in its place is an error. -/
def OpenFile (env : Env) (fs : FS) (name : GoString) : Except Error FS :=
  match env.fault (.OpenFile name) with
  | some errno => .error (.pathError "open".toList name errno)
  | none =>
    match fs.get name with
    | some .dir => .error (.pathError "open".toList name .EISDIR)
    | _ => .ok (fs.set name (.file []))

/-- Writing `data` to the file just opened: all of it, or on a failure the
bytes transferred before the failure. -/
def Write (env : Env) (fs : FS) (name : GoString) (data : GoString) : Option Error × FS :=
  match env.fault (.Write name) with
  | some errno =>
    (some (.pathError "write".toList name errno),
      fs.set name (.file (data.take (env.short (.Write name)))))
  | none => (none, fs.set name (.file data))

/-- Go `os.WriteFile`: create or truncate the file and write `data`. -/
def WriteFile (env : Env) (fs : FS) (name : GoString) (data : GoString) : Option Error × FS :=
  match OpenFile env fs name with
  | .error e => (some e, fs)
  | .ok fs1 => Write env fs1 name data

/-- Go `os.Open`: the node opened for reading. -/
def Open (env : Env) (fs : FS) (name : GoString) : Except Error Node :=
  match env.fault (.Open name) with
  | some errno => .error (.pathError "open".toList name errno)
  | none =>
    match fs.get name with
    | none => .error (.pathError "open".toList name .ENOENT)
    | some node => .ok node

/-- Reading an open file to its end (`io.Copy` from it): the bytes read and
the error that ended the reading, if any. -/
def Read (env : Env) (name : GoString) (node : Node) : GoString × Option Error :=
  match node with
  | .dir => ([], some (.pathError "read".toList name .EISDIR))
  | .file content =>
    match env.fault (.Read name) with
    | some errno =>
      (content.take (env.short (.Read name)), some (.pathError "read".toList name errno))
    | none => (content, none)

/-- Go `os.Remove`: the path names nothing afterwards. -/
def Remove (env : Env) (fs : FS) (name : GoString) : Except Error FS :=
  match env.fault (.Remove name) with
  | some errno => .error (.pathError "remove".toList name errno)
  | none =>
    match fs.get name with
    | none => .error (.pathError "remove".toList name .ENOENT)
    | some _ => .ok (fs.del name)

end os

/-! ## The response -/

/-- The calls that write a response: `http.Error`, `http.Redirect` and the
bytes of a `Write`. -/
inductive Call
  | Error (msg : GoString) (code : Nat)
  | Redirect (url : GoString) (code : Nat)
  | Write (data : GoString)
  deriving DecidableEq, Repr

/-- An `http.ResponseWriter`: the headers the handler has set and the calls
that wrote the response, in order. -/
structure ResponseWriter where
  header : Map GoString
  calls : List Call
  deriving DecidableEq, Repr

namespace ResponseWriter

/-- A fresh response writer. -/
def new : ResponseWriter := ⟨[], []⟩

/-- The call `w.Header().Set(key, value)`. -/
def Set (w : ResponseWriter) (key value : GoString) : ResponseWriter :=
  ⟨w.header.set key value, w.calls⟩

/-- The call `w.Header().Del(key)`. -/
def Del (w : ResponseWriter) (key : GoString) : ResponseWriter :=
  ⟨w.header.del key, w.calls⟩

/-- Appends a call that writes the response. -/
def call (w : ResponseWriter) (c : Call) : ResponseWriter :=
  ⟨w.header, w.calls ++ [c]⟩

/-- The status code of the response: that of the first `http.Error` or
`http.Redirect`, and 200 when the handler wrote bytes or nothing at all. -/
def status (w : ResponseWriter) : Nat :=
  match w.calls with
  | .Error _ code :: _ => code
  | .Redirect _ code :: _ => code
  | _ => 200

/-- The bytes the handler itself wrote to the body. -/
def written (w : ResponseWriter) : GoString :=
  (w.calls.map (fun c => match c with | .Write data => data | _ => [])).flatten

end ResponseWriter

/-- The constant `hashFileSuffix`. -/
def hashFileSuffix : GoString := ['.', 's', 'h', 'a', '2', '5', '6']

/-- The text of `http.NotFound`. -/
def notFoundText : GoString := "404 page not found".toList

/-- Go `http.NotFound`: `http.Error` with status 404. -/
def NotFound (w : ResponseWriter) : ResponseWriter :=
  w.call (.Error notFoundText 404)

/-- How a call of the handler ends: it returns with a response written, it
panics (the server then drops the connection without a response), or it
never returns. -/
inductive Outcome
  | returned (w : ResponseWriter)
  | panicked
  | blocked
  deriving DecidableEq, Repr

/-- The status code the client receives, when the handler returns. -/
def Outcome.status : Outcome → Option Nat
  | .returned w => some w.status
  | _ => none

/-- Go `http.Error` with a status code that is not a constant of the handler:
it deletes the header `Content-Length` and writes the error; `WriteHeader`
panics for a code outside 100..999.  (Where the handler calls `http.Error`
with one of the constants 404, 405 and 500, the call is recorded as it is:
no `Content-Length` has been set there, except in `sendFile`.) -/
def http.Error (w : ResponseWriter) (msg : GoString) (code : Nat) : Outcome :=
  if 100 ≤ code ∧ code ≤ 999 then
    .returned ((w.Del "Content-Length".toList).call (.Error msg code))
  else .panicked

/-- The function `httpErrorWriter` of `proxy.go`: the status and the message
are chosen by the `switch`, then `http.Error` is called with them. -/
def httpErrorWriter (env : Env) (w : ResponseWriter) (err : Option Error) : Outcome :=
  match err with
  | none => http.Error w notFoundText 404
  | some e =>
    if e.Is .ErrIsNotRegularFile then http.Error w notFoundText 404
    else if e.Is .ErrNotImplemented then http.Error w (e.Error env.quote) 501
    else
      match e.AsHttpError with
      | some (status, msg) => http.Error w msg status
      | none => http.Error w (e.Error env.quote) 500

/-! ## `proxy.go` -/

/-- The state with one more logged call. -/
def State.record (s : State) (e : Event) : State :=
  ⟨s.fs, s.sem, s.log ++ [e]⟩

/-- The state with another file system. -/
def State.withFS (s : State) (fs : FS) : State :=
  ⟨fs, s.sem, s.log⟩

/-- The method `Proxy.download`: the upstream response, or an `httpError`
with the upstream status and body when the status is not 200. -/
def Proxy.download (env : Env) (url : GoString) (s : State) : Except Error Upstream × State :=
  let s1 := s.record (.get url)
  match env.get url with
  | .error e => (.error e, s1)
  | .ok resp =>
    if resp.StatusCode ≠ 200 then
      let msg := if resp.Body.length > 0 then resp.Body else env.StatusText resp.StatusCode
      (.error (.httpError resp.StatusCode msg), s1)
    else (.ok resp, s1)

/-- The method `Proxy.fetchHash`. -/
def Proxy.fetchHash (env : Env) (url filePath : GoString) (s : State) : Option Error × State :=
  match Proxy.download env url s with
  | (.error e, s1) => (some e, s1)
  | (.ok resp, s1) =>
    match resp.BodyErr with
    | some e => (some e, s1)
    | none =>
      let checksum := resp.Body
      match os.MkdirAll env s1.fs (path.Dir filePath) with
      | .error e => (some e, s1)
      | .ok fs2 =>
        if checksum.length = 64 then
          let r := os.WriteFile env fs2 filePath checksum
          (r.1, s1.withFS r.2)
        else
          let filename := path.Base filePath
          let lines := strings.Split '\n' checksum
          match lines.find? (fun line => strings.Contains line filename) with
          | some line =>
            let hash := strings.SplitN2Head ' ' line
            let r := os.WriteFile env fs2 filePath hash
            (r.1, s1.withFS r.2)
          | none => (some (.hashsumNotFound filename), s1.withFS fs2)

/-- The function `writeToFile` with `copyBuffer`: the bytes `src` delivers
are copied to `dst`; `srcErr` is the error that ends `src`, if any.  The
error of closing the file is assigned to a local variable only and never
returned. -/
def writeToFile (env : Env) (dst : GoString) (src : GoString) (srcErr : Option Error) (fs : FS) :
    Option Error × FS :=
  match os.MkdirAll env fs (path.Dir dst) with
  | .error e => (some e, fs)
  | .ok fs1 =>
    match os.OpenFile env fs1 dst with
    | .error e => (some e, fs1)
    | .ok fs2 =>
      match os.Write env fs2 dst src with
      | (some e, fs3) => (some e, fs3)
      | (none, fs3) => (srcErr, fs3)

/-- The method `Proxy.fetchFile`. -/
def Proxy.fetchFile (env : Env) (url filePath : GoString) (s : State) : Option Error × State :=
  match Proxy.download env url s with
  | (.error e, s1) => (some e, s1)
  | (.ok resp, s1) =>
    match os.MkdirAll env s1.fs (path.Dir filePath) with
    | .error e => (some e, s1)
    | .ok fs2 =>
      let r := writeToFile env filePath resp.Body resp.BodyErr fs2
      (r.1, s1.withFS r.2)

/-- The function `sha256Sum`: the digest of the file's content; no digest
and no error when the file does not exist. -/
def sha256Sum (env : Env) (fs : FS) (file : GoString) : List UInt8 × Option Error :=
  if file.length = 0 then ([], some .emptyPath)
  else
    match os.Open env fs file with
    | .error e => if e.IsNotExist then ([], none) else ([], some e)
    | .ok node =>
      match os.Read env file node with
      | (_, some e) => ([], some e)
      | (content, none) => (env.Sum256 content, none)

/-- The function `validateSha256Hash`. -/
def validateSha256Hash (env : Env) (fs : FS) (file hash : GoString) : Bool × Option Error :=
  if hash.length = 0 then (false, none)
  else
    let r := sha256Sum env fs file
    if r.2 ≠ none ∨ r.1.length = 0 then (false, r.2)
    else (decide (hex.EncodeToString r.1 = hash), none)

/-- The function `fileIsExist`. -/
def fileIsExist (env : Env) (fs : FS) (file : GoString) : Bool × Option Error :=
  match os.Stat env fs file with
  | .error e => if !e.IsNotExist then (false, some e) else (false, none)
  | .ok fi => if fi.IsDir then (false, some .ErrIsNotRegularFile) else (true, none)

/-- Bytes copied to the response; an empty copy makes no `Write` call. -/
def ResponseWriter.copy (w : ResponseWriter) (data : GoString) : ResponseWriter :=
  if data = [] then w else w.call (.Write data)

/-- The function `sendFile`.  When the copy fails, `http.Error` deletes the
header `Content-Length` that has just been set. -/
def sendFile (env : Env) (fs : FS) (w : ResponseWriter) (file : GoString) : ResponseWriter :=
  match os.Open env fs file with
  | .error e => w.call (.Error (e.Error env.quote) 500)
  | .ok f =>
    let w1 := w.Set "Content-Length".toList (Itoa f.Size)
    match os.Read env file f with
    | (data, some e) =>
      ((w1.copy data).Del "Content-Length".toList).call (.Error (e.Error env.quote) 500)
    | (data, none) => w1.copy data

/-- An incoming request: its method and `r.URL.Path`. -/
structure Request where
  Method : GoString
  Path : GoString
  deriving DecidableEq, Repr

/-- The constant `http.MethodGet`. -/
def MethodGet : GoString := ['G', 'E', 'T']

/-- The constant `http.MethodHead`. -/
def MethodHead : GoString := ['H', 'E', 'A', 'D']

/-- The method `Semaphore.Acquire` when no other caller runs: a free key is
added to the held set; for a held key the loop polls `in(key)` for ever
(`none`). -/
def Semaphore.Acquire (m : List GoString) (key : GoString) : Option (List GoString) :=
  if key ∉ m then some (key :: m) else none

/-- The method `Semaphore.Release`: the key is deleted from the held set. -/
def Semaphore.Release (m : List GoString) (key : GoString) : List GoString :=
  m.filter (fun k => k ≠ key)

/-- The body of the closure `download` of `Handler` between `Acquire` and
the deferred `Release`: the checksum file first, then the artifact. -/
def fill (env : Env) (endp : Endpoint) (filename version filePath hashFilePath : GoString)
    (s : State) : Option Error × State :=
  let s1 := s.record (.HashFileURL filename version)
  match endp.HashFileURL filename version with
  | .error e => (some e, s1)
  | .ok url =>
    match Proxy.fetchHash env url hashFilePath s1 with
    | (some e, s2) => (some e, s2)
    | (none, s2) =>
      let s3 := s2.record (.FileURL filename version)
      match endp.FileURL filename version with
      | .error e => (some e, s3)
      | .ok url2 => Proxy.fetchFile env url2 filePath s3

/-- The closure `download` of `Handler`: `fill` under the semaphore key
`reqPath`; `none` when `Acquire` never returns. -/
def download (env : Env) (endp : Endpoint) (reqPath filename version filePath hashFilePath : GoString)
    (s : State) : Option (Option Error × State) :=
  match Semaphore.Acquire s.sem reqPath with
  | none => none
  | some held =>
    let s1 : State := ⟨s.fs, held, s.log ++ [.Acquire reqPath]⟩
    let r := fill env endp filename version filePath hashFilePath s1
    some (r.1, ⟨r.2.fs, Semaphore.Release r.2.sem reqPath, r.2.log ++ [.Release reqPath]⟩)

/-- The normalized request path of `Handler`: `path.Clean` of the URL path
without its leading slash. -/
def normalize (urlPath : GoString) : GoString :=
  match path.Clean urlPath with
  | '/' :: rest => rest
  | reqPath => reqPath

/-- Where the routing part of `Handler` (method gate, path parse, version
resolution) leaves a request: answered, or on its way to the cache lookup
with the semaphore key `reqPath` and the segments `filename` and `version`. -/
inductive Route
  | done (out : Outcome)
  | slot (reqPath filename version : GoString)
  deriving DecidableEq, Repr

/-- The routing part of `Handler`: method gate, path parse and version
resolution. -/
def Handler.route (env : Env) (endp : Endpoint) (r : Request) (s : State) : Route × State :=
  let w := ResponseWriter.new
  if r.Method ≠ MethodGet ∧ r.Method ≠ MethodHead then
    (.done (.returned (w.call (.Error (env.StatusText 405) 405))), s)
  else
    let reqPath := normalize r.Path
    if reqPath.length = 0 ∨ reqPath.head? = some '.' ∨ strings.HasSuffix reqPath hashFileSuffix then
      (.done (.returned (NotFound w)), s)
    else
      match strings.Split '/' reqPath with
      | filename :: version :: rest =>
        let reqFileLen := (version :: rest).length
        if reqFileLen = 1 then
          let s1 := s.record .LastTag
          match endp.LastTag with
          | .error err => (.done (httpErrorWriter env w (some err)), s1)
          | .ok latestVersion =>
            let redirectPath := path.Join [filename, latestVersion]
            (.done (.returned (w.call (.Redirect redirectPath 307))), s1)
        else if reqFileLen > 2 then
          (.done (.returned (NotFound w)), s)
        else (.slot reqPath filename version, s)
      | _ => (.done .panicked, s)

/-- Where the cache lookup and fill of `Handler` leave a request: answered,
or on its way to the checksum step with the payload path, the checksum path
and `reqFileIsExist`. -/
inductive Stage
  | done (out : Outcome)
  | check (filePath hashFilePath : GoString) (reqFileIsExist : Bool)
  deriving DecidableEq, Repr

/-- The payload path of a slot: `filepath.Join(p.dir, filepath.Join(version, filename))`. -/
def Proxy.filePath (p : Proxy) (filename version : GoString) : GoString :=
  path.Join [p.dir, path.Join [version, filename]]

/-- The cache lookup and the fill on a miss of `Handler`. -/
def Handler.lookup (env : Env) (p : Proxy) (endp : Endpoint) (r : Request)
    (reqPath filename version : GoString) (s : State) : Stage × State :=
  let w := ResponseWriter.new
  let filePath := p.filePath filename version
  let hashFilePath := filePath ++ hashFileSuffix
  match fileIsExist env s.fs filePath with
  | (_, some err) => (.done (httpErrorWriter env w (some err)), s)
  | (reqFileIsExist, none) =>
    if !reqFileIsExist && decide (r.Method = MethodGet) then
      match download env endp reqPath filename version filePath hashFilePath s with
      | none => (.done .blocked, s)
      | some (some err, s1) => (.done (httpErrorWriter env w (some err)), s1)
      | some (none, s1) => (.check filePath hashFilePath true, s1)
    else (.check filePath hashFilePath reqFileIsExist, s)

/-- The checksum read of `Handler`: whether the checksum file exists, and
its content as the expected digest `hash` (empty without a checksum file). -/
def Handler.readHash (env : Env) (fs : FS) (hashFilePath : GoString) :
    Except Error (Bool × GoString) :=
  match fileIsExist env fs hashFilePath with
  | (_, some err) => .error err
  | (hashFileIsExist, none) =>
    if hashFileIsExist then
      match os.ReadFile env fs hashFilePath with
      | .error err => .error err
      | .ok b => .ok (hashFileIsExist, b)
    else .ok (hashFileIsExist, [])

/-- The validation and serving of `Handler`, with the expected digest
`hash` read from the checksum file (empty when there is none). -/
def Handler.serve (env : Env) (r : Request) (filePath hashFilePath : GoString)
    (reqFileIsExist hashFileIsExist : Bool) (hash : GoString) (s : State) : Outcome × State :=
  let w := ResponseWriter.new
  let w1 := if hash.length > 0 then w.Set "ETag".toList hash else w
  match (if hash.length > 0 then validateSha256Hash env s.fs filePath hash else (true, none)) with
  | (_, some err) => (.returned (w1.call (.Error (err.Error env.quote) 500)), s)
  | (fileIsValid, none) =>
    if r.Method = MethodHead then
      if fileIsValid && reqFileIsExist then
        match os.Stat env s.fs filePath with
        | .error _ => (.panicked, s)
        | .ok fi =>
          let w2 := w1.Set "Content-Length".toList (Itoa fi.Size)
          (.returned (w2.Set "Content-Type".toList "application/octet-stream".toList), s)
      else (.returned (w1.Set "Content-Type".toList "application/octet-stream".toList), s)
    else if !fileIsValid then
      match os.Remove env s.fs filePath with
      | .error err => (.returned (w1.call (.Error (err.Error env.quote) 500)), s)
      | .ok fs1 =>
        match (if hashFileIsExist then os.Remove env fs1 hashFilePath else .ok fs1) with
        | .error err => (.returned (w1.call (.Error (err.Error env.quote) 500)), s.withFS fs1)
        | .ok fs2 => (.returned (w1.call (.Redirect r.Path 307)), s.withFS fs2)
    else (.returned (sendFile env s.fs w1 filePath), s)

/-- The last part of `Handler`: checksum read, then validation and serving. -/
def Handler.back (env : Env) (r : Request) (filePath hashFilePath : GoString)
    (reqFileIsExist : Bool) (s : State) : Outcome × State :=
  match Handler.readHash env s.fs hashFilePath with
  | .error err => (httpErrorWriter env ResponseWriter.new (some err), s)
  | .ok (hashFileIsExist, hash) =>
    Handler.serve env r filePath hashFilePath reqFileIsExist hashFileIsExist hash s

/-- The first parts of `Handler` together: routing, then cache lookup and
fill. -/
def Handler.front (env : Env) (p : Proxy) (endp : Endpoint) (r : Request) (s : State) :
    Stage × State :=
  match Handler.route env endp r s with
  | (.done out, s1) => (.done out, s1)
  | (.slot reqPath filename version, s1) =>
    Handler.lookup env p endp r reqPath filename version s1

/-- The handler `Proxy.Handler(endp)` applied to one request: routing, cache
lookup and fill, then checksum read, validation and serving. -/
def Handler (env : Env) (p : Proxy) (endp : Endpoint) (r : Request) (s : State) :
    Outcome × State :=
  match Handler.front env p endp r s with
  | (.done out, s1) => (out, s1)
  | (.check filePath hashFilePath reqFileIsExist, s1) =>
    Handler.back env r filePath hashFilePath reqFileIsExist s1

/-- What the specification expects of a fill: the error of the first step
that fails, and the calls made, in the order `HashFileURL`, checksum fetch,
`FileURL`, payload fetch, none of them after a step that failed. -/
def fillSpec (env : Env) (endp : Endpoint) (filename version filePath hashFilePath : GoString)
    (s : State) : Option Error × List Event :=
  match endp.HashFileURL filename version with
  | .error e => (some e, [.HashFileURL filename version])
  | .ok hurl =>
    match Proxy.fetchHash env hurl hashFilePath (s.record (.HashFileURL filename version)) with
    | (some e, _) => (some e, [.HashFileURL filename version, .get hurl])
    | (none, s2) =>
      match endp.FileURL filename version with
      | .error e =>
        (some e, [.HashFileURL filename version, .get hurl, .FileURL filename version])
      | .ok furl =>
        ((Proxy.fetchFile env furl filePath (s2.record (.FileURL filename version))).1,
          [.HashFileURL filename version, .get hurl, .FileURL filename version, .get furl])

/-! ## `kube.go` -/

/-- The constant `k8sUrlPattern` with its two `%s` verbs filled in:
`fmt.Sprintf(k8sUrlPattern, tag, file)`. -/
def k8sUrlPattern (tag file : GoString) : GoString :=
  "https://dl.k8s.io/".toList ++ tag ++ "/bin/linux/amd64/".toList ++ file

/-- The method `kube.FileURL`. -/
def kube.FileURL (file tag : GoString) : Except Error GoString :=
  .ok (k8sUrlPattern tag file)

/-- The method `kube.HashFileURL`. -/
def kube.HashFileURL (file tag : GoString) : Except Error GoString :=
  kube.FileURL (file ++ hashFileSuffix) tag

/-! ## `github.go`

The client library `go-github` is outside the repository: a call of it gives
a release, or fails with an error and, possibly, a response.  The pointers
`asset.Name` and `asset.BrowserDownloadURL` of an asset and `rel.TagName` of a
release are taken to be set, as the library sets them for what the API
returns. -/

/-- An asset of a release: `Name` and `BrowserDownloadURL`. -/
structure github.ReleaseAsset where
  Name : GoString
  BrowserDownloadURL : GoString
  deriving DecidableEq, Repr

/-- A release: `TagName` and `Assets`. -/
structure github.RepositoryRelease where
  TagName : GoString
  Assets : List github.ReleaseAsset
  deriving DecidableEq, Repr

/-- A failed call of the client: the error and, when there is one, the text
of the response (`%s` of `*github.Response`). -/
structure github.Failure where
  resp : Option GoString
  err : Error
  deriving DecidableEq, Repr

/-- The calls of `cl.Repositories` that `github.go` makes, by owner,
repository and tag. -/
structure github.Client where
  GetReleaseByTag : GoString → GoString → GoString →
    Except github.Failure github.RepositoryRelease
  GetLatestRelease : GoString → GoString → Except github.Failure github.RepositoryRelease

/-- The function `wrapper`: an error that comes with a response is replaced
by an error with the text `failed to fetch release: <resp>: <err>`, made with
`%s`, which does not wrap the original error. -/
def wrapper (quote : GoString → GoString)
    (res : Except github.Failure github.RepositoryRelease) :
    Except Error github.RepositoryRelease :=
  match res with
  | .error ⟨some resp, err⟩ =>
    .error (.other ("failed to fetch release: ".toList ++ resp ++ ": ".toList ++ err.Error quote))
  | .error ⟨none, err⟩ => .error err
  | .ok rel => .ok rel

/-- The type `Github`.  The functions `File` and `HashFile` are taken to
return for every tag. -/
structure Github where
  Owner : GoString
  Repo : GoString
  File : GoString → GoString
  HashFile : GoString → GoString

/-- The loop of `getUrl` over the assets of the release. -/
def Github.scan (filename : GoString) : List github.ReleaseAsset → Except Error GoString
  | [] => .error .ErrFileNotFound
  | asset :: rest =>
    if asset.Name = filename then .ok asset.BrowserDownloadURL else Github.scan filename rest

/-- The method `Github.getUrl`. -/
def Github.getUrl (quote : GoString → GoString) (cl : github.Client) (gh : Github)
    (tag filename : GoString) : Except Error GoString :=
  match wrapper quote (cl.GetReleaseByTag gh.Owner gh.Repo tag) with
  | .error err => .error err
  | .ok rel => Github.scan filename rel.Assets

/-- The method `Github.FileURL`; its first argument is not used. -/
def Github.FileURL (quote : GoString → GoString) (cl : github.Client) (gh : Github)
    (_file tag : GoString) : Except Error GoString :=
  gh.getUrl quote cl tag (gh.File tag)

/-- The method `Github.HashFileURL`; its first argument is not used. -/
def Github.HashFileURL (quote : GoString → GoString) (cl : github.Client) (gh : Github)
    (_file tag : GoString) : Except Error GoString :=
  gh.getUrl quote cl tag (gh.HashFile tag)

/-- The method `Github.LastTag`. -/
def Github.LastTag (quote : GoString → GoString) (cl : github.Client) (gh : Github) :
    Except Error GoString :=
  match wrapper quote (cl.GetLatestRelease gh.Owner gh.Repo) with
  | .error err => .error err
  | .ok rel => .ok rel.TagName

/-- A `Github` value as the `Endpoint` that `Handler` is given. -/
def Github.toEndpoint (quote : GoString → GoString) (cl : github.Client) (gh : Github) :
    Endpoint :=
  ⟨gh.FileURL quote cl, gh.HashFileURL quote cl, gh.LastTag quote cl⟩

/-! ## `cmd/proxy.go`: the resolvers of `proxyCmd` -/

/-- The `File` function of the etcd resolver. -/
def cmd.etcdFile (v : GoString) : GoString :=
  "etcd-".toList ++ v ++ "-linux-amd64.tar.gz".toList

/-- The `HashFile` function of the etcd resolver. -/
def cmd.etcdHashFile (_v : GoString) : GoString := "SHA256SUMS".toList

/-- The etcd resolver. -/
def cmd.etcd : Github := ⟨"etcd-io".toList, "etcd".toList, cmd.etcdFile, cmd.etcdHashFile⟩

/-- The `File` function of the coredns resolver; it reads `v[0]`, which
panics for the empty tag (`none`). -/
def cmd.corednsFile (v : GoString) : Option GoString :=
  match v with
  | [] => none
  | c :: rest =>
    some ("coredns_".toList ++ (if c = 'v' then rest else c :: rest) ++ "_linux_amd64.tgz".toList)

/-- The `HashFile` function of the coredns resolver; it reads `v[0]`, which
panics for the empty tag (`none`). -/
def cmd.corednsHashFile (v : GoString) : Option GoString :=
  match v with
  | [] => none
  | c :: rest =>
    some ("coredns_".toList ++ (if c = 'v' then rest else c :: rest) ++
      "_linux_amd64.tgz.sha256".toList)

/-! ## Package `fetch` -/

/-- The errors `fetch.WithContext` returns: its own `*HttpError`, or any
other error, of the client or of the sink. -/
inductive fetch.Error
  | HttpError (status : Nat) (msg : GoString)
  | other (err : Fileproxy.Error)
  deriving DecidableEq, Repr

/-- The function `fetch.WithContext`.  The sink `dst` (a `fetch.Writer`)
reads the response and acts on a state of its own. -/
def fetch.WithContext {σ : Type} (env : Env)
    (dst : Upstream → σ → Option fetch.Error × σ) (url : GoString) (st : σ) :
    Option fetch.Error × σ :=
  match env.get url with
  | .error e => (some (.other e), st)
  | .ok resp =>
    if resp.StatusCode ≠ 200 then
      let msg := if resp.Body.length > 0 then resp.Body else env.StatusText resp.StatusCode
      (some (.HttpError resp.StatusCode msg), st)
    else dst resp st

/-- A path element that names an entry below a directory: not empty,
neither `.` nor `..`, and without a slash. -/
def path.Normal (e : GoString) : Prop :=
  e ≠ [] ∧ e ≠ ['.'] ∧ e ≠ ['.', '.'] ∧ '/' ∉ e

/-! ## The semaphore under concurrent callers

`semaphore.go` guards its map with a lock only inside `add`, `in` and
`Release`; `Acquire` reads `s.m[key]` without the lock and calls `add`
afterwards.  The atomic steps of a caller are therefore: the read at the
head of `Acquire`, the call of `add`, each call of `in` in the polling loop,
and `Release`.  An interleaving is a schedule: the list of the callers that
take the next step. -/

/-- The method `Semaphore.add`: the key is in the set afterwards. -/
def Semaphore.add (m : List GoString) (key : GoString) : List GoString :=
  if key ∈ m then m else key :: m

/-- The method `Semaphore.in`: whether the key is in the set. -/
def Semaphore.isIn (m : List GoString) (key : GoString) : Bool :=
  decide (key ∈ m)

/-- Where a caller of `Acquire(key)` and then `Release(key)` stands:
about to read `s.m[key]` at the head of `Acquire`; about to call `add`,
having found the key free; about to call `in` in the loop, having found the
key held; between the return of `Acquire` and the call of `Release`; and
after `Release`. -/
inductive Semaphore.Pc
  | acquire
  | add
  | poll
  | critical
  | released
  deriving DecidableEq, Repr

/-- A caller of the semaphore: its key and where it stands. -/
structure Semaphore.Caller where
  key : GoString
  pc : Semaphore.Pc
  deriving DecidableEq, Repr

/-- One atomic step of a caller on the held set `m`. -/
def Semaphore.Caller.step (c : Semaphore.Caller) (m : List GoString) :
    Semaphore.Caller × List GoString :=
  match c.pc with
  | .acquire => if c.key ∈ m then (⟨c.key, .poll⟩, m) else (⟨c.key, .add⟩, m)
  | .add => (⟨c.key, .critical⟩, Semaphore.add m c.key)
  | .poll => if Semaphore.isIn m c.key then (c, m) else (⟨c.key, .critical⟩, m)
  | .critical => (⟨c.key, .released⟩, Semaphore.Release m c.key)
  | .released => (c, m)

/-- The semaphore with its callers: the held set and where each caller
stands. -/
structure Semaphore.System where
  m : List GoString
  callers : List Semaphore.Caller
  deriving DecidableEq, Repr

/-- The step of caller `i`; a number that names no caller changes nothing. -/
def Semaphore.System.step (sys : Semaphore.System) (i : Nat) : Semaphore.System :=
  match sys.callers[i]? with
  | none => sys
  | some c => ⟨(c.step sys.m).2, sys.callers.set i (c.step sys.m).1⟩

/-- The state after the steps of a schedule. -/
def Semaphore.System.run (sys : Semaphore.System) (schedule : List Nat) : Semaphore.System :=
  schedule.foldl Semaphore.System.step sys

/-- The callers that are between the return of `Acquire(key)` and their
`Release(key)`. -/
def Semaphore.System.holders (sys : Semaphore.System) (key : GoString) :
    List Semaphore.Caller :=
  sys.callers.filter (fun c => decide (c.key = key) && decide (c.pc = .critical))


/-! ## The handler under concurrent requests

Each request runs `Handler` in its own goroutine on the shared cache
directory and semaphore.  A request advances in steps: routing, the cache
lookup, the three steps of `Acquire`, the four steps of the fill
(`HashFileURL`, `fetchHash`, `FileURL`, `fetchFile`, the last one in two
parts: creating and truncating the payload file, then copying the body into
it), the deferred `Release`, and the checksum read with validation and
serving.  An interleaving is a schedule: the list of the requests that take
the next step. -/

/-- The first part of `fetchFile`: the download, the directories and the
opening of the payload file, which truncates it. -/
def Proxy.fetchFileOpen (env : Env) (url filePath : GoString) (s : State) :
    Except Error Upstream × State :=
  match Proxy.download env url s with
  | (.error e, s1) => (.error e, s1)
  | (.ok resp, s1) =>
    match os.MkdirAll env s1.fs (path.Dir filePath) with
    | .error e => (.error e, s1)
    | .ok fs2 =>
      match os.MkdirAll env fs2 (path.Dir filePath) with
      | .error e => (.error e, s1.withFS fs2)
      | .ok fs3 =>
        match os.OpenFile env fs3 filePath with
        | .error e => (.error e, s1.withFS fs3)
        | .ok fs4 => (.ok resp, s1.withFS fs4)

/-- The second part of `fetchFile`: `copyBuffer` from the response body into
the opened payload file. -/
def Proxy.fetchFileCopy (env : Env) (filePath : GoString) (resp : Upstream) (s : State) :
    Option Error × State :=
  match os.Write env s.fs filePath resp.Body with
  | (some e, fs1) => (some e, s.withFS fs1)
  | (none, fs1) => (resp.BodyErr, s.withFS fs1)

/-- The slot a request was routed to: the semaphore key `reqPath` and the
segments `filename` and `version`. -/
structure Slot where
  reqPath : GoString
  filename : GoString
  version : GoString
  deriving DecidableEq, Repr

/-- Where a request stands in `Handler`. -/
inductive Thread.Pc
  | route
  | lookup (k : Slot)
  | acquire (k : Slot)
  | add (k : Slot)
  | poll (k : Slot)
  | hashFileURL (k : Slot)
  | fetchHash (k : Slot) (url : GoString)
  | fileURL (k : Slot)
  | fetchFile (k : Slot) (url : GoString)
  | copy (k : Slot) (resp : Upstream)
  | release (k : Slot) (err : Option Error)
  | check (k : Slot) (reqFileIsExist : Bool)
  | done (out : Outcome)
  deriving DecidableEq, Repr

/-- One atomic step of a request on the shared state. -/
def Thread.step (env : Env) (p : Proxy) (endp : Endpoint) (r : Request) (pc : Thread.Pc)
    (s : State) : Thread.Pc × State :=
  match pc with
  | .route =>
    match Handler.route env endp r s with
    | (.done out, s1) => (.done out, s1)
    | (.slot reqPath filename version, s1) => (.lookup ⟨reqPath, filename, version⟩, s1)
  | .lookup k =>
    match fileIsExist env s.fs (p.filePath k.filename k.version) with
    | (_, some err) => (.done (httpErrorWriter env ResponseWriter.new (some err)), s)
    | (reqFileIsExist, none) =>
      if !reqFileIsExist && decide (r.Method = MethodGet) then (.acquire k, s)
      else (.check k reqFileIsExist, s)
  | .acquire k => if k.reqPath ∈ s.sem then (.poll k, s) else (.add k, s)
  | .add k =>
    (.hashFileURL k, ⟨s.fs, Semaphore.add s.sem k.reqPath, s.log ++ [.Acquire k.reqPath]⟩)
  | .poll k =>
    if Semaphore.isIn s.sem k.reqPath then (.poll k, s)
    else (.hashFileURL k, ⟨s.fs, s.sem, s.log ++ [.Acquire k.reqPath]⟩)
  | .hashFileURL k =>
    match endp.HashFileURL k.filename k.version with
    | .error e => (.release k (some e), s.record (.HashFileURL k.filename k.version))
    | .ok url => (.fetchHash k url, s.record (.HashFileURL k.filename k.version))
  | .fetchHash k url =>
    match Proxy.fetchHash env url (p.filePath k.filename k.version ++ hashFileSuffix) s with
    | (some e, s1) => (.release k (some e), s1)
    | (none, s1) => (.fileURL k, s1)
  | .fileURL k =>
    match endp.FileURL k.filename k.version with
    | .error e => (.release k (some e), s.record (.FileURL k.filename k.version))
    | .ok url => (.fetchFile k url, s.record (.FileURL k.filename k.version))
  | .fetchFile k url =>
    match Proxy.fetchFileOpen env url (p.filePath k.filename k.version) s with
    | (.error e, s1) => (.release k (some e), s1)
    | (.ok resp, s1) => (.copy k resp, s1)
  | .copy k resp =>
    ((.release k (Proxy.fetchFileCopy env (p.filePath k.filename k.version) resp s).1),
      (Proxy.fetchFileCopy env (p.filePath k.filename k.version) resp s).2)
  | .release k err =>
    match err with
    | some e =>
      (.done (httpErrorWriter env ResponseWriter.new (some e)),
        ⟨s.fs, Semaphore.Release s.sem k.reqPath, s.log ++ [.Release k.reqPath]⟩)
    | none => (.check k true, ⟨s.fs, Semaphore.Release s.sem k.reqPath, s.log ++ [.Release k.reqPath]⟩)
  | .check k reqFileIsExist =>
    ((.done (Handler.back env r (p.filePath k.filename k.version)
        (p.filePath k.filename k.version ++ hashFileSuffix) reqFileIsExist s).1),
      (Handler.back env r (p.filePath k.filename k.version)
        (p.filePath k.filename k.version ++ hashFileSuffix) reqFileIsExist s).2)
  | .done out => (.done out, s)

/-- A request in flight: the request and where it stands. -/
structure Thread where
  r : Request
  pc : Thread.Pc
  deriving DecidableEq, Repr

/-- The proxy with its requests in flight: the shared state and the
requests. -/
structure System where
  shared : State
  threads : List Thread
  deriving DecidableEq, Repr

/-- The step of request `i`; a number that names no request changes
nothing. -/
def System.step (env : Env) (p : Proxy) (endp : Endpoint) (sys : System) (i : Nat) : System :=
  match sys.threads[i]? with
  | none => sys
  | some t =>
    ⟨(Thread.step env p endp t.r t.pc sys.shared).2,
      sys.threads.set i ⟨t.r, (Thread.step env p endp t.r t.pc sys.shared).1⟩⟩

/-- The state after the steps of a schedule. -/
def System.run (env : Env) (p : Proxy) (endp : Endpoint) (sys : System) (schedule : List Nat) :
    System :=
  schedule.foldl (System.step env p endp) sys

/-- The requests `rs` arriving on the state `s`, none of them started. -/
def System.start (s : State) (rs : List Request) : System :=
  ⟨s, rs.map (fun r => ⟨r, .route⟩)⟩

/-- The number of `FileURL` calls in a log. -/
def countFileURL (log : List Event) : Nat :=
  log.countP (fun e => match e with | .FileURL _ _ => true | _ => false)

/-- The number of `HashFileURL` calls in a log. -/
def countHashFileURL (log : List Event) : Nat :=
  log.countP (fun e => match e with | .HashFileURL _ _ => true | _ => false)

/-- The outcome of request `i`, once it has finished. -/
def System.outcome (sys : System) (i : Nat) : Option Outcome :=
  match sys.threads[i]? with
  | some ⟨_, .done out⟩ => some out
  | _ => none

/-- The number of `HashFileURL` calls a request that stands at `pc` can still
make: one until the call is made, none afterwards. -/
def Thread.Pc.budgetHashFileURL : Thread.Pc → Nat
  | .route => 1
  | .lookup _ => 1
  | .acquire _ => 1
  | .add _ => 1
  | .poll _ => 1
  | .hashFileURL _ => 1
  | _ => 0

/-- The number of `FileURL` calls a request that stands at `pc` can still
make: one until the call is made, none afterwards. -/
def Thread.Pc.budgetFileURL : Thread.Pc → Nat
  | .route => 1
  | .lookup _ => 1
  | .acquire _ => 1
  | .add _ => 1
  | .poll _ => 1
  | .hashFileURL _ => 1
  | .fetchHash _ _ => 1
  | .fileURL _ => 1
  | _ => 0

/-- The `HashFileURL` calls the requests in flight can still make. -/
def System.budgetHashFileURL (sys : System) : Nat :=
  (sys.threads.map (fun t => t.pc.budgetHashFileURL)).sum

/-- The `FileURL` calls the requests in flight can still make. -/
def System.budgetFileURL (sys : System) : Nat :=
  (sys.threads.map (fun t => t.pc.budgetFileURL)).sum

/-! ## Sample data for the examples -/

namespace Sample

/-- A stand-in for SHA-256 in the examples: 32 bytes, of which the last two
are the length of the content and the sum of its bytes. -/
def Sum256 (content : GoString) : List UInt8 :=
  List.replicate 30 0 ++ [UInt8.ofNat content.length, UInt8.ofNat (content.map Char.toNat).sum]

/-- The status texts the examples use. -/
def StatusText (code : Nat) : GoString :=
  if code = 404 then "Not Found".toList
  else if code = 405 then "Method Not Allowed".toList
  else []

/-- The `%q` verb on the plain names of the examples: the text in double
quotes. -/
def quote (text : GoString) : GoString := Char.ofNat 34 :: text ++ [Char.ofNat 34]

/-- An operating system without failures. -/
def noFault : Op → Option Errno := fun _ => none

/-- The environment of the examples, for a given network and given failures. -/
def env (get : GoString → Except Error Upstream) (fault : Op → Option Errno) : Env :=
  ⟨Sum256, StatusText, quote, get, fault, fun _ => 0⟩

/-- The proxy of the examples, with the cache directory `/srv`. -/
def proxy : Proxy := ⟨"/srv".toList⟩

/-- A stub endpoint: it resolves every file and tag to `up/<tag>/<file>`, the
checksum to the same URL with `.sha256` appended, and the latest tag to
`v3.5.16`. -/
def endp : Endpoint :=
  ⟨fun file tag => .ok ("up/".toList ++ tag ++ '/' :: file),
   fun file tag => .ok ("up/".toList ++ tag ++ '/' :: file ++ hashFileSuffix),
   .ok "v3.5.16".toList⟩

/-- The payload of the examples. -/
def payload : GoString := "etcd binary".toList

/-- The digest of the payload, in lower-case hexadecimal: 64 bytes. -/
def digest : GoString := hex.EncodeToString (Sum256 payload)

/-- An upstream that serves the payload and its bare digest. -/
def getBare (url : GoString) : Except Error Upstream :=
  if url = "up/v3.5.16/etcd.sha256".toList then .ok ⟨200, digest, none⟩
  else if url = "up/v3.5.16/etcd".toList then .ok ⟨200, payload, none⟩
  else .error (.other "no route to host".toList)

/-- An upstream whose checksum file is a manifest without a line for `etcd`. -/
def getOther (url : GoString) : Except Error Upstream :=
  if url = "up/v3.5.16/etcd.sha256".toList then .ok ⟨200, "aa  kubectl".toList, none⟩
  else if url = "up/v3.5.16/etcd".toList then .ok ⟨200, payload, none⟩
  else .error (.other "no route to host".toList)

/-- The manifest of the specification's example, with short digests. -/
def manifest : GoString :=
  "aa  etcd-v3.5.16-linux-amd64.tar.gz\nbb  etcdctl-v3.5.16-linux-amd64.tar.gz".toList

/-- An upstream that serves the manifest as the checksum file. -/
def getManifest (url : GoString) : Except Error Upstream :=
  if url = "up/SHA256SUMS".toList then .ok ⟨200, manifest, none⟩
  else .error (.other "no route to host".toList)

/-- The payload path of the slot (`etcd`, `v3.5.16`). -/
def filePath : GoString := "/srv/v3.5.16/etcd".toList

/-- The checksum path of the slot (`etcd`, `v3.5.16`). -/
def hashFilePath : GoString := "/srv/v3.5.16/etcd.sha256".toList

/-- The empty cache, with no key held and nothing logged. -/
def empty : State := ⟨[], [], []⟩

/-- A cache whose slot (`etcd`, `v3.5.16`) is valid: the payload and its digest. -/
def cached : State :=
  ⟨[(filePath, .file payload), (hashFilePath, .file digest), ("/srv/v3.5.16".toList, .dir)], [], []⟩

/-- A cache whose slot (`etcd`, `v3.5.16`) is corrupt: the checksum file holds
the digest of the payload, the payload file holds other bytes. -/
def corrupt : State :=
  ⟨[(filePath, .file "damaged".toList), (hashFilePath, .file digest),
    ("/srv/v3.5.16".toList, .dir)], [], []⟩

/-- An operating system on which removing the checksum file fails. -/
def removeFails : Op → Option Errno := fun op =>
  if op = .Remove hashFilePath then some (.EOTHER "operation not permitted".toList)
  else none

/-- The request `GET /etcd/v3.5.16/x`, which is routed to the slot
(`etcd`, `v3.5.16`). -/
def req : Request := ⟨MethodGet, "/etcd/v3.5.16/x".toList⟩

/-- The semaphore key of the request `req`. -/
def key : GoString := "etcd/v3.5.16/x".toList

/-- Two callers of `Acquire(key)` on a semaphore that holds nothing. -/
def twoCallers : Semaphore.System := ⟨[], [⟨key, .acquire⟩, ⟨key, .acquire⟩]⟩

/-- Three callers of `Acquire(key)` on a semaphore that holds nothing. -/
def threeCallers : Semaphore.System :=
  ⟨[], [⟨key, .acquire⟩, ⟨key, .acquire⟩, ⟨key, .acquire⟩]⟩

/-- Both callers read `s.m[key]` before either calls `add`. -/
def bothFree : List Nat := [0, 1, 0, 1]

/-- Caller 0 acquires the key, callers 1 and 2 find it held and wait, caller
0 releases it, and each of the two waiting callers polls once. -/
def twoWaiters : List Nat := [0, 0, 1, 2, 0, 1, 2]

/-- Caller 0 acquires the key, caller 1 finds it held and waits, caller 0
releases it, and caller 1 polls once. -/
def oneWaiter : List Nat := [0, 0, 1, 0, 1]

/-- Two requests `req`: both miss the cache, request 0 acquires the key and
request 1 finds it held; request 0 fills the slot, releases the key and is
served; request 1 then leaves `Acquire` and runs to its end. -/
def waitThenFill : List Nat :=
  [0, 0, 1, 1, 0, 0, 1, 0, 0, 0, 0, 0, 0, 0, 1, 1, 1, 1, 1, 1, 1, 1]

/-- Two requests `req`, as in `waitThenFill` until request 0 has released the
key; request 1 then leaves `Acquire` and runs until it has opened the payload
file; then request 0 validates and serves. -/
def truncated : List Nat :=
  [0, 0, 1, 1, 0, 0, 1, 0, 0, 0, 0, 0, 0, 1, 1, 1, 1, 1, 0]

/-- An upstream without the checksum file: it answers 404 with an empty body. -/
def getMissing (url : GoString) : Except Error Upstream :=
  if url = "up/v3.5.16/etcd.sha256".toList then .ok ⟨404, [], none⟩
  else if url = "up/v3.5.16/etcd".toList then .ok ⟨200, payload, none⟩
  else .error (.other "no route to host".toList)

/-- An upstream that answers the checksum fetch with the status line
`HTTP/1.1 099 odd`: three digits, so the client of Go takes it, with the
status code 99. -/
def getInvalid (url : GoString) : Except Error Upstream :=
  if url = "up/v3.5.16/etcd.sha256".toList then .ok ⟨99, "odd".toList, none⟩
  else if url = "up/v3.5.16/etcd".toList then .ok ⟨200, payload, none⟩
  else .error (.other "no route to host".toList)

/-- An upstream that serves the bare digest and answers 503 with a body for
the payload. -/
def getBusy (url : GoString) : Except Error Upstream :=
  if url = "up/v3.5.16/etcd.sha256".toList then .ok ⟨200, digest, none⟩
  else if url = "up/v3.5.16/etcd".toList then .ok ⟨503, "try later".toList, none⟩
  else .error (.other "no route to host".toList)

/-- A cache in which the payload path of the slot (`etcd`, `v3.5.16`) is a
directory. -/
def dirSlot : State := ⟨[(filePath, .dir), ("/srv/v3.5.16".toList, .dir)], [], []⟩

/-- The release `v3.5.16` of etcd, with a signature, the archive and the
manifest of checksums. -/
def release : github.RepositoryRelease :=
  ⟨"v3.5.16".toList,
    [⟨"etcd-v3.5.16-linux-amd64.tar.gz.asc".toList, "gh/1".toList⟩,
     ⟨"etcd-v3.5.16-linux-amd64.tar.gz".toList, "gh/2".toList⟩,
     ⟨"SHA256SUMS".toList, "gh/3".toList⟩,
     ⟨"etcd-v3.5.16-linux-amd64.tar.gz".toList, "gh/4".toList⟩]⟩

/-- The release `v3.5.17` of etcd, with the archive for another platform only. -/
def bareRelease : github.RepositoryRelease :=
  ⟨"v3.5.17".toList, [⟨"etcd-v3.5.17-darwin-amd64.zip".toList, "gh/5".toList⟩]⟩

/-- A GitHub client that knows the two releases of `etcd-io/etcd`. -/
def client : github.Client :=
  ⟨fun owner repo tag =>
      if owner = "etcd-io".toList ∧ repo = "etcd".toList ∧ tag = "v3.5.16".toList then .ok release
      else if owner = "etcd-io".toList ∧ repo = "etcd".toList ∧ tag = "v3.5.17".toList then
        .ok bareRelease
      else .error ⟨some "404 Not Found".toList, .other "release not found".toList⟩,
   fun owner repo =>
      if owner = "etcd-io".toList ∧ repo = "etcd".toList then .ok bareRelease
      else .error ⟨none, .other "no route to host".toList⟩⟩

end Sample

/-! ## Lemmas on maps -/

theorem Map.get_del_self {β : Type} (m : Map β) (key : GoString) : (m.del key).get key = none := by
  induction m with
  | nil => rfl
  | cons e rest ih =>
    obtain ⟨k, v⟩ := e
    by_cases h : k = key
    · simpa [Map.del, List.filter_cons, h] using ih
    · simpa [Map.del, List.filter_cons, h, Map.get] using ih

theorem Map.get_del_of_ne {β : Type} (m : Map β) (key q : GoString) (hne : key ≠ q) :
    (m.del key).get q = m.get q := by
  induction m with
  | nil => rfl
  | cons e rest ih =>
    obtain ⟨k, v⟩ := e
    by_cases h : k = key
    · subst h
      simpa [Map.del, List.filter_cons, Map.get, hne] using ih
    · by_cases hq : k = q
      · subst hq
        simp [Map.del, List.filter_cons, h, Map.get]
      · simpa [Map.del, List.filter_cons, h, Map.get, hq] using ih

theorem Map.get_set_self {β : Type} (m : Map β) (key : GoString) (v : β) :
    (m.set key v).get key = some v := by
  simp [Map.set, Map.get]

theorem Map.get_set_of_ne {β : Type} (m : Map β) (key q : GoString) (v : β) (hne : key ≠ q) :
    (m.set key v).get q = m.get q := by
  simp [Map.set, Map.get, hne, Map.get_del_of_ne m key q hne]

/-! ## Lemmas on the hexadecimal encoding -/

theorem hex.digit_mem (n : Nat) : hex.digit n ∈ hex.hextable := by
  unfold hex.digit hex.hextable
  rcases Nat.lt_or_ge n 16 with h | h
  · interval_cases n <;> simp [List.getD]
  · rw [List.getD_eq_default _ _ (by simpa using h)]
    simp

theorem hex.EncodeToString_mem (b : List UInt8) (c : Char) (hc : c ∈ hex.EncodeToString b) :
    c ∈ hex.hextable := by
  induction b with
  | nil => simp [hex.EncodeToString] at hc
  | cons x xs ih =>
    simp only [hex.EncodeToString, List.mem_cons] at hc
    rcases hc with h | h | h
    · exact h ▸ hex.digit_mem _
    · exact h ▸ hex.digit_mem _
    · exact ih h

/-! ## Lemmas on paths -/

theorem strings.Split_ne_nil (sep : Char) (s : GoString) : strings.Split sep s ≠ [] := by
  induction s with
  | nil => simp [strings.Split]
  | cons c cs ih =>
    unfold strings.Split
    split
    · simp
    · split <;> simp

theorem strings.Split_not_mem (sep : Char) (s : GoString) :
    ∀ piece ∈ strings.Split sep s, sep ∉ piece := by
  induction s with
  | nil => simp [strings.Split]
  | cons c cs ih =>
    unfold strings.Split
    split
    · intro piece hp
      rcases List.mem_cons.mp hp with h | h
      · simp [h]
      · exact ih piece h
    · rename_i hc
      split
      · intro piece hp
        simp only [List.mem_singleton] at hp
        simpa [hp] using Ne.symm hc
      · rename_i first rest heq
        intro piece hp
        rw [heq] at ih
        rcases List.mem_cons.mp hp with h | h
        · subst h
          have := ih first (List.mem_cons_self _ _)
          simp [this, Ne.symm hc]
        · exact ih piece (List.mem_cons_of_mem _ h)

theorem strings.Split_head_nil (sep : Char) (s : GoString) (second : GoString)
    (rest : List GoString) (h : strings.Split sep s = [] :: second :: rest) :
    s.head? = some sep := by
  cases s with
  | nil => simp [strings.Split] at h
  | cons c cs =>
    unfold strings.Split at h
    split at h
    · rename_i hc
      simp [hc]
    · split at h <;> simp at h

theorem path.cleanStep_segments (rooted : Bool) (stack : List GoString) (elem : GoString)
    (hs : path.Segments stack) (he : '/' ∉ elem) :
    path.Segments (path.cleanStep rooted stack elem) := by
  unfold path.cleanStep
  split
  · exact hs
  · rename_i hne
    have hne1 : elem ≠ [] := fun h => hne (Or.inl h)
    split
    · split
      · split
        · intro e h; simp at h
        · intro e h
          simp only [List.mem_singleton] at h
          exact h ▸ ⟨hne1, he⟩
      · rename_i top below
        split
        · intro e h
          rcases List.mem_cons.mp h with h1 | h1
          · exact h1 ▸ ⟨hne1, he⟩
          · exact hs e h1
        · intro e h
          exact hs e (List.mem_cons_of_mem _ h)
    · intro e h
      rcases List.mem_cons.mp h with h1 | h1
      · exact h1 ▸ ⟨hne1, he⟩
      · exact hs e h1

theorem path.foldl_cleanStep_segments (rooted : Bool) (elems stack : List GoString)
    (hs : path.Segments stack) (he : ∀ e ∈ elems, '/' ∉ e) :
    path.Segments (elems.foldl (path.cleanStep rooted) stack) := by
  induction elems generalizing stack with
  | nil => exact hs
  | cons x xs ih =>
    simp only [List.foldl_cons]
    exact ih _ (path.cleanStep_segments rooted stack x hs (he x (List.mem_cons_self _ _)))
      (fun e h => he e (List.mem_cons_of_mem _ h))

theorem path.kept_segments (p : GoString) (rooted : Bool) :
    path.Segments ((strings.Split '/' p).foldl (path.cleanStep rooted) []).reverse := by
  intro e h
  exact path.foldl_cleanStep_segments rooted _ [] (fun e h => by simp at h)
    (strings.Split_not_mem '/' p) e (List.mem_reverse.mp h)

theorem strings.JoinSlash_head (l : List GoString) (hl : l ≠ []) (hs : path.Segments l) :
    ∃ c rest, strings.JoinSlash l = c :: rest ∧ c ≠ '/' := by
  cases l with
  | nil => exact absurd rfl hl
  | cons a t =>
    obtain ⟨hne, hno⟩ := hs a (List.mem_cons_self _ _)
    cases a with
    | nil => exact absurd rfl hne
    | cons c cs =>
      have hc : c ≠ '/' := fun h => hno (by simp [h])
      cases t with
      | nil => exact ⟨c, cs, rfl, hc⟩
      | cons b t2 => exact ⟨c, _, rfl, hc⟩

theorem path.Clean_ne_nil (p : GoString) : path.Clean p ≠ [] := by
  unfold path.Clean
  simp only
  split
  · simp
  · split
    · simp
    · rename_i hk
      obtain ⟨c, rest, h, -⟩ := strings.JoinSlash_head _ hk (path.kept_segments p _)
      rw [h]; simp

theorem path.Clean_cases (p : GoString) :
    (∃ q, path.Clean p = '/' :: q ∧ q.head? ≠ some '/') ∨
      (∃ c rest, path.Clean p = c :: rest ∧ c ≠ '/') := by
  unfold path.Clean
  simp only
  split
  · left
    refine ⟨_, rfl, ?_⟩
    by_cases hk : ((strings.Split '/' p).foldl
        (path.cleanStep (strings.HasPrefix p ['/'])) []).reverse = []
    · rw [hk]; simp [strings.JoinSlash]
    · obtain ⟨c, r2, h, hc⟩ := strings.JoinSlash_head _ hk (path.kept_segments p _)
      rw [h]
      simpa using hc
  · right
    split
    · exact ⟨'.', [], rfl, by decide⟩
    · rename_i hk
      obtain ⟨c, r2, h, hc⟩ := strings.JoinSlash_head _ hk (path.kept_segments p _)
      exact ⟨c, r2, h, hc⟩

theorem normalize_head (urlPath : GoString) : (normalize urlPath).head? ≠ some '/' := by
  unfold normalize
  rcases path.Clean_cases urlPath with ⟨q, h, hq⟩ | ⟨c, rest, h, hc⟩
  · rw [h]
    exact hq
  · rw [h]
    split
    · rename_i heq
      simp only [List.cons.injEq] at heq
      exact absurd heq.1 hc
    · simpa using hc

theorem path.Join_ne_nil (elems : List GoString) (h : ∃ e ∈ elems, e ≠ []) :
    path.Join elems ≠ [] := by
  unfold path.Join
  split
  · rename_i heq
    obtain ⟨e, he, hne⟩ := h
    have : e ∈ elems.filter (fun e => e ≠ []) := by simp [he, hne]
    rw [heq] at this
    simp at this
  · exact path.Clean_ne_nil _

theorem Proxy.filePath_ne_nil (p : Proxy) (filename version : GoString) (h : filename ≠ []) :
    p.filePath filename version ≠ [] := by
  unfold Proxy.filePath
  apply path.Join_ne_nil
  refine ⟨path.Join [version, filename], by simp, ?_⟩
  exact path.Join_ne_nil _ ⟨filename, by simp, h⟩

theorem strings.Split_weight (sep : Char) (s : GoString) :
    path.weight (strings.Split sep s) = s.length + 1 := by
  induction s with
  | nil => simp [strings.Split, path.weight]
  | cons c cs ih =>
    unfold strings.Split
    split
    · simp only [path.weight, List.map_cons, List.sum_cons, List.length_nil, List.length_cons] at ih ⊢
      omega
    · split
      · rename_i heq
        exact absurd heq (strings.Split_ne_nil sep cs)
      · rename_i piece rest heq
        rw [heq] at ih
        simp only [path.weight, List.map_cons, List.sum_cons, List.length_cons] at ih ⊢
        omega

theorem path.cleanStep_weight (rooted : Bool) (stack : List GoString) (elem : GoString) :
    path.weight (path.cleanStep rooted stack elem) ≤ path.weight stack + (elem.length + 1) := by
  unfold path.cleanStep
  split
  · omega
  · split
    · split
      · split <;> simp [path.weight]
      · split
        · simp only [path.weight, List.map_cons, List.sum_cons]
          omega
        · simp only [path.weight, List.map_cons, List.sum_cons]
          omega
    · simp only [path.weight, List.map_cons, List.sum_cons]
      omega

theorem path.foldl_cleanStep_weight (rooted : Bool) (elems stack : List GoString) :
    path.weight (elems.foldl (path.cleanStep rooted) stack) ≤ path.weight stack + path.weight elems := by
  induction elems generalizing stack with
  | nil => simp [path.weight]
  | cons x xs ih =>
    simp only [List.foldl_cons]
    have h1 := ih (path.cleanStep rooted stack x)
    have h2 := path.cleanStep_weight rooted stack x
    simp only [path.weight, List.map_cons, List.sum_cons] at h1 h2 ⊢
    omega

theorem strings.JoinSlash_length (l : List GoString) (hl : l ≠ []) :
    (strings.JoinSlash l).length + 1 = path.weight l := by
  induction l with
  | nil => exact absurd rfl hl
  | cons a t ih =>
    cases t with
    | nil => simp [strings.JoinSlash, path.weight]
    | cons b t2 =>
      have := ih (by simp)
      simp only [strings.JoinSlash, path.weight, List.map_cons, List.sum_cons, List.length_append,
        List.length_cons] at this ⊢
      omega

theorem path.weight_reverse (l : List GoString) : path.weight l.reverse = path.weight l := by
  simp [path.weight, List.sum_reverse]

theorem path.Clean_length (p : GoString) : (path.Clean p).length ≤ max 1 p.length := by
  unfold path.Clean
  simp only
  split
  · rename_i hroot
    cases p with
    | nil => simp [strings.HasPrefix] at hroot
    | cons c q =>
      have hc : c = '/' := by simpa [strings.HasPrefix] using hroot
      subst hc
      have hsplit : strings.Split '/' ('/' :: q) = [] :: strings.Split '/' q := by
        simp [strings.Split]
      rw [hsplit]
      simp only [List.foldl_cons]
      have hstep : path.cleanStep (strings.HasPrefix ('/' :: q) ['/']) [] [] = [] := by
        simp [path.cleanStep]
      rw [hstep]
      have hw := path.foldl_cleanStep_weight (strings.HasPrefix ('/' :: q) ['/'])
        (strings.Split '/' q) []
      rw [strings.Split_weight] at hw
      by_cases hk : ((strings.Split '/' q).foldl
          (path.cleanStep (strings.HasPrefix ('/' :: q) ['/'])) []).reverse = []
      · rw [hk]; simp [strings.JoinSlash]
      · have hj := strings.JoinSlash_length _ hk
        rw [path.weight_reverse] at hj
        simp only [path.weight, List.map_nil, List.sum_nil, List.length_cons] at hw hj ⊢
        omega
  · split
    · simp
    · rename_i hk
      have hw := path.foldl_cleanStep_weight (strings.HasPrefix p ['/']) (strings.Split '/' p) []
      rw [strings.Split_weight] at hw
      have hj := strings.JoinSlash_length _ hk
      rw [path.weight_reverse] at hj
      simp only [path.weight, List.map_nil, List.sum_nil] at hw hj ⊢
      omega

theorem path.Dir_hashFilePath_ne (fp : GoString) :
    path.Dir (fp ++ hashFileSuffix) ≠ fp ++ hashFileSuffix := by
  intro h
  have hlen := path.Clean_length (path.dirPart (fp ++ hashFileSuffix))
  have hd : (path.dirPart (fp ++ hashFileSuffix)).length ≤ fp.length + 6 := by
    unfold path.dirPart hashFileSuffix
    simp only [List.reverse_append, List.reverse_cons, List.reverse_nil, List.nil_append,
      List.cons_append, List.length_reverse]
    rw [List.dropWhile_cons_of_pos (by decide)]
    have := (List.dropWhile_sublist (fun c => decide (c ≠ '/'))
      (l := ['5', '2', 'a', 'h', 's', '.'] ++ fp.reverse)).length_le
    simpa using this
  have hs : hashFileSuffix.length = 7 := rfl
  have heq := congrArg List.length h
  unfold path.Dir at heq
  rw [List.length_append, hs] at heq
  omega

theorem strings.Split_cons_sep (sep : Char) (cs : GoString) :
    strings.Split sep (sep :: cs) = [] :: strings.Split sep cs := by
  simp [strings.Split]

theorem strings.Split_cons_ne (sep c : Char) (cs piece : GoString) (rest : List GoString)
    (hc : c ≠ sep) (hs : strings.Split sep cs = piece :: rest) :
    strings.Split sep (c :: cs) = (c :: piece) :: rest := by
  simp [strings.Split, hc, hs]

theorem strings.Split_append (sep : Char) (a b : GoString) :
    strings.Split sep (a ++ sep :: b) = strings.Split sep a ++ strings.Split sep b := by
  induction a with
  | nil => simp [strings.Split]
  | cons c cs ih =>
    simp only [List.cons_append]
    by_cases hc : c = sep
    · subst hc
      rw [strings.Split_cons_sep, strings.Split_cons_sep, ih]
      rfl
    · cases hs : strings.Split sep cs with
      | nil => exact absurd hs (strings.Split_ne_nil sep cs)
      | cons piece rest =>
        rw [strings.Split_cons_ne sep c cs piece rest hc hs,
          strings.Split_cons_ne sep c _ piece (rest ++ strings.Split sep b) hc (by rw [ih, hs]; rfl)]
        rfl

theorem strings.Split_of_not_mem (sep : Char) (s : GoString) (h : sep ∉ s) :
    strings.Split sep s = [s] := by
  induction s with
  | nil => rfl
  | cons c cs ih =>
    have hc : c ≠ sep := fun heq => h (by simp [heq])
    have hcs : sep ∉ cs := fun hmem => h (List.mem_cons_of_mem _ hmem)
    exact strings.Split_cons_ne sep c cs cs [] hc (ih hcs)

theorem strings.Split_head (sep : Char) (s first : GoString) (rest : List GoString)
    (h : strings.Split sep s = first :: rest) (hne : first ≠ []) : s.head? = first.head? := by
  cases s with
  | nil =>
    simp only [strings.Split, List.cons.injEq] at h
    exact absurd h.1.symm hne
  | cons c cs =>
    unfold strings.Split at h
    split at h
    · simp only [List.cons.injEq] at h
      exact absurd h.1.symm hne
    · split at h
      · simp only [List.cons.injEq] at h
        rw [← h.1]; rfl
      · simp only [List.cons.injEq] at h
        rw [← h.1]; rfl

theorem strings.JoinSlash_append_singleton (l : List GoString) (seg : GoString) :
    strings.JoinSlash (l ++ [seg]) = seg ∨
      ∃ a, strings.JoinSlash (l ++ [seg]) = (a ++ ['/']) ++ seg := by
  induction l with
  | nil => left; rfl
  | cons x xs ih =>
    right
    cases xs with
    | nil => exact ⟨x, by simp [strings.JoinSlash]⟩
    | cons y ys =>
      have e : strings.JoinSlash ((x :: y :: ys) ++ [seg]) =
          x ++ '/' :: strings.JoinSlash ((y :: ys) ++ [seg]) := rfl
      rcases ih with h | ⟨a, h⟩
      · exact ⟨x, by rw [e, h]; simp⟩
      · exact ⟨x ++ '/' :: a, by rw [e, h]; simp⟩

theorem path.cleanStep_normal (rooted : Bool) (stack : List GoString) (seg : GoString)
    (hne : seg ≠ []) (hdot : seg.head? ≠ some '.') :
    path.cleanStep rooted stack seg = seg :: stack := by
  have h1 : seg ≠ ['.'] := fun h => hdot (by simp [h])
  have h2 : seg ≠ ['.', '.'] := fun h => hdot (by simp [h])
  simp [path.cleanStep, hne, h1, h2]

/-- A cleaned path whose last element is an ordinary name ends in that name,
preceded by nothing or by a slash. -/
theorem path.Clean_last (a seg : GoString) (hne : seg ≠ []) (hslash : '/' ∉ seg)
    (hdot : seg.head? ≠ some '.') :
    (path.Clean (a ++ '/' :: seg) = seg ∨ ∃ pre, path.Clean (a ++ '/' :: seg) = (pre ++ ['/']) ++ seg) ∧
    (path.Clean seg = seg) := by
  constructor
  · unfold path.Clean
    simp only
    rw [strings.Split_append, strings.Split_of_not_mem '/' seg hslash, List.foldl_append]
    simp only [List.foldl_cons, List.foldl_nil]
    rw [path.cleanStep_normal _ _ seg hne hdot, List.reverse_cons]
    split
    · right
      rcases strings.JoinSlash_append_singleton
        ((strings.Split '/' a).foldl (path.cleanStep (strings.HasPrefix (a ++ '/' :: seg) ['/'])) []).reverse
        seg with h | ⟨x, h⟩
      · exact ⟨[], by rw [h]; rfl⟩
      · exact ⟨'/' :: x, by rw [h]; simp⟩
    · rw [if_neg (by simp)]
      rcases strings.JoinSlash_append_singleton
        ((strings.Split '/' a).foldl (path.cleanStep (strings.HasPrefix (a ++ '/' :: seg) ['/'])) []).reverse
        seg with h | ⟨x, h⟩
      · left; exact h
      · right; exact ⟨x, h⟩
  · have hroot : strings.HasPrefix seg ['/'] = false := by
      cases seg with
      | nil => exact absurd rfl hne
      | cons c cs =>
        have : c ≠ '/' := fun h => hslash (by simp [h])
        simp [strings.HasPrefix, this]
    unfold path.Clean
    simp only
    rw [strings.Split_of_not_mem '/' seg hslash]
    simp only [List.foldl_cons, List.foldl_nil]
    rw [path.cleanStep_normal _ _ seg hne hdot]
    simp [hroot, strings.JoinSlash]

theorem path.Join_pair (x y : GoString) (hx : x ≠ []) (hy : y ≠ []) :
    path.Join [x, y] = path.Clean (x ++ '/' :: y) := by
  simp [path.Join, List.filter_cons, hx, hy, strings.JoinSlash]

theorem path.Join_pair_nil (y : GoString) (hy : y ≠ []) :
    path.Join [[], y] = path.Clean y := by
  simp [path.Join, List.filter_cons, hy, strings.JoinSlash]

theorem path.Join_last (x seg : GoString) (hne : seg ≠ []) (hslash : '/' ∉ seg)
    (hdot : seg.head? ≠ some '.') :
    path.Join [x, seg] = seg ∨ ∃ pre, path.Join [x, seg] = (pre ++ ['/']) ++ seg := by
  by_cases hx : x = []
  · left
    subst hx
    rw [path.Join_pair_nil seg hne]
    exact (path.Clean_last [] seg hne hslash hdot).2
  · rw [path.Join_pair x seg hx hne]
    exact (path.Clean_last x seg hne hslash hdot).1

theorem Proxy.filePath_last (p : Proxy) (filename version : GoString) (hne : filename ≠ [])
    (hslash : '/' ∉ filename) (hdot : filename.head? ≠ some '.') :
    p.filePath filename version = filename ∨
      ∃ pre, p.filePath filename version = (pre ++ ['/']) ++ filename := by
  unfold Proxy.filePath
  have hinner := path.Join_last version filename hne hslash hdot
  have hinner_ne : path.Join [version, filename] ≠ [] := path.Join_ne_nil _ ⟨filename, by simp, hne⟩
  generalize path.Join [version, filename] = inner at hinner hinner_ne
  by_cases hd : p.dir = []
  · rw [hd, path.Join_pair_nil inner hinner_ne]
    rcases hinner with h | ⟨pre, h⟩
    · left
      rw [h]
      exact (path.Clean_last [] filename hne hslash hdot).2
    · rw [h]
      have : pre ++ ['/'] ++ filename = pre ++ '/' :: filename := by simp
      rw [this]
      exact (path.Clean_last pre filename hne hslash hdot).1
  · rw [path.Join_pair p.dir inner hd hinner_ne]
    rcases hinner with h | ⟨pre, h⟩
    · rw [h]
      exact (path.Clean_last p.dir filename hne hslash hdot).1
    · rw [h]
      have : p.dir ++ '/' :: (pre ++ ['/'] ++ filename) = (p.dir ++ '/' :: pre) ++ '/' :: filename := by
        simp
      rw [this]
      exact (path.Clean_last _ filename hne hslash hdot).1

theorem takeWhile_append_stop {α : Type} (q : α → Bool) (l r : List α)
    (hl : ∀ x ∈ l, q x = true) (hr : ∀ y ∈ r.head?, q y = false) :
    (l ++ r).takeWhile q = l := by
  induction l with
  | nil =>
    cases r with
    | nil => rfl
    | cons y ys => simp [List.takeWhile, hr y (by simp)]
  | cons x xs ih =>
    have h2 := ih (fun z hz => hl z (List.mem_cons_of_mem _ hz))
    simp [List.takeWhile_cons, hl x (List.mem_cons_self _ _), h2]

theorem path.Base_last (front seg : GoString) (hne : seg ≠ [])
    (hslash : '/' ∉ seg) (hfront : front = [] ∨ ∃ pre, front = pre ++ ['/']) :
    path.Base (front ++ seg) = seg := by
  have hp : front ++ seg ≠ [] := by simp [hne]
  have hrev : seg.reverse ≠ [] := by simpa using hne
  obtain ⟨d, ds, hd⟩ := List.exists_cons_of_ne_nil hrev
  have hdmem : d ∈ seg := by
    have : d ∈ seg.reverse := by rw [hd]; exact List.mem_cons_self _ _
    exact List.mem_reverse.mp this
  have hdne : d ≠ '/' := fun h => hslash (h ▸ hdmem)
  have hdrop : ((front ++ seg).reverse.dropWhile (fun c => decide (c = '/'))) =
      seg.reverse ++ front.reverse := by
    rw [List.reverse_append, hd]
    simp [List.dropWhile, hdne]
  have htake : (seg.reverse ++ front.reverse).takeWhile (fun c => decide (c ≠ '/')) = seg.reverse := by
    apply takeWhile_append_stop
    · intro x hx
      have : x ≠ '/' := fun h => hslash (h ▸ List.mem_reverse.mp hx)
      simpa using this
    · intro y hy
      rcases hfront with h | ⟨pre, h⟩
      · subst h; simp at hy
      · subst h
        simp only [List.reverse_append, List.reverse_cons, List.reverse_nil, List.nil_append,
          List.singleton_append, List.head?_cons, Option.mem_def, Option.some.injEq] at hy
        simp [← hy]
  unfold path.Base
  simp only [hp, if_false, hdrop, htake, List.reverse_reverse, hne]

theorem strings.HasPrefix_append (s a b : GoString) (h : strings.HasPrefix s (a ++ b) = true) :
    strings.HasPrefix s a = true := by
  induction a generalizing s with
  | nil => cases s <;> rfl
  | cons x xs ih =>
    cases s with
    | nil => simp [strings.HasPrefix] at h
    | cons c cs =>
      simp only [List.cons_append, strings.HasPrefix, Bool.and_eq_true, decide_eq_true_eq] at h ⊢
      exact ⟨h.1, ih cs h.2⟩

theorem strings.Contains_append (s a b : GoString) (h : strings.Contains s (a ++ b) = true) :
    strings.Contains s a = true := by
  induction s with
  | nil =>
    simp only [strings.Contains] at h ⊢
    exact strings.HasPrefix_append _ _ _ h
  | cons c cs ih =>
    simp only [strings.Contains, Bool.or_eq_true] at h ⊢
    rcases h with h | h
    · exact Or.inl (strings.HasPrefix_append _ _ _ h)
    · exact Or.inr (ih h)


/-! ## Lemmas on `http.Error` and `httpErrorWriter` -/

theorem http.Error_in_range (w : ResponseWriter) (msg : GoString) (code : Nat)
    (hlo : 100 ≤ code) (hhi : code ≤ 999) :
    http.Error w msg code = .returned ((w.Del "Content-Length".toList).call (.Error msg code)) := by
  simp [http.Error, hlo, hhi]

theorem http.Error_out_of_range (w : ResponseWriter) (msg : GoString) (code : Nat)
    (h : code < 100 ∨ 999 < code) : http.Error w msg code = .panicked := by
  have : ¬(100 ≤ code ∧ code ≤ 999) := by omega
  simp [http.Error, this]

theorem http.Error_new (msg : GoString) (code : Nat) (hlo : 100 ≤ code) (hhi : code ≤ 999) :
    http.Error ResponseWriter.new msg code = .returned ⟨[], [.Error msg code]⟩ := by
  rw [http.Error_in_range _ _ _ hlo hhi]
  rfl

/-- On the new writer, `http.Error` gives the response of that one call for a
status code in 100..999 and panics for any other. -/
theorem http.Error_eq_new (msg : GoString) (code : Nat) :
    http.Error ResponseWriter.new msg code =
      if 100 ≤ code ∧ code ≤ 999 then .returned ⟨[], [.Error msg code]⟩ else .panicked := by
  unfold http.Error
  split <;> rfl

theorem http.Error_ne_blocked (w : ResponseWriter) (msg : GoString) (code : Nat) :
    http.Error w msg code ≠ .blocked := by
  unfold http.Error
  split <;> simp

theorem http.Error_returned (w w2 : ResponseWriter) (msg : GoString) (code : Nat)
    (h : http.Error w msg code = .returned w2) :
    w2 = (w.Del "Content-Length".toList).call (.Error msg code) ∧ 100 ≤ code ∧ code ≤ 999 := by
  unfold http.Error at h
  split at h
  · rename_i hc
    simp only [Outcome.returned.injEq] at h
    exact ⟨h.symm, hc.1, hc.2⟩
  · simp at h

theorem httpErrorWriter_ne_blocked (env : Env) (w : ResponseWriter) (err : Option Error) :
    httpErrorWriter env w err ≠ .blocked := by
  unfold httpErrorWriter
  split
  · exact http.Error_ne_blocked _ _ _
  · split
    · exact http.Error_ne_blocked _ _ _
    · split
      · exact http.Error_ne_blocked _ _ _
      · split <;> exact http.Error_ne_blocked _ _ _

/-- A response of `httpErrorWriter` is one `http.Error` call, with a status
code in 100..999. -/
theorem httpErrorWriter_returned (env : Env) (w w2 : ResponseWriter) (err : Option Error)
    (h : httpErrorWriter env w err = .returned w2) :
    ∃ msg code, w2 = (w.Del "Content-Length".toList).call (.Error msg code) ∧
      100 ≤ code ∧ code ≤ 999 := by
  unfold httpErrorWriter at h
  split at h
  · exact ⟨_, _, http.Error_returned _ _ _ _ h⟩
  · split at h
    · exact ⟨_, _, http.Error_returned _ _ _ _ h⟩
    · split at h
      · exact ⟨_, _, http.Error_returned _ _ _ _ h⟩
      · split at h <;> exact ⟨_, _, http.Error_returned _ _ _ _ h⟩

/-- An error without an `httpError` in its chain is answered: the status is
one of the constants 404, 501 and 500. -/
theorem httpErrorWriter_plain (env : Env) (e : Error) (h : e.AsHttpError = none) :
    ∃ msg code, httpErrorWriter env ResponseWriter.new (some e) =
      .returned ⟨[], [.Error msg code]⟩ := by
  unfold httpErrorWriter
  simp only [h]
  split
  · exact ⟨_, _, http.Error_new _ _ (by decide) (by decide)⟩
  · split
    · exact ⟨_, _, http.Error_new _ _ (by decide) (by decide)⟩
    · exact ⟨_, _, http.Error_new _ _ (by decide) (by decide)⟩

/-- The error of a failed file operation is answered 500 with its text. -/
theorem httpErrorWriter_pathError (env : Env) (op name : GoString) (errno : Errno) :
    httpErrorWriter env ResponseWriter.new (some (.pathError op name errno)) =
      .returned ⟨[], [.Error ((Error.pathError op name errno).Error env.quote) 500]⟩ := by
  simp [httpErrorWriter, Error.Is, Error.AsHttpError, http.Error_new]

theorem httpErrorWriter_notRegular (env : Env) :
    httpErrorWriter env ResponseWriter.new (some .ErrIsNotRegularFile) =
      .returned ⟨[], [.Error notFoundText 404]⟩ := by
  simp [httpErrorWriter, Error.Is, http.Error_new]

/-- The two outcomes of `httpErrorWriter` on an error: a response of one
`http.Error` call with a status code in 100..999, or the panic of
`WriteHeader` on the status code of an `httpError` outside 100..999. -/
theorem httpErrorWriter_outcome (env : Env) (e : Error) :
    (∃ msg code, 100 ≤ code ∧ code ≤ 999 ∧
      httpErrorWriter env ResponseWriter.new (some e) = .returned ⟨[], [.Error msg code]⟩) ∨
    (∃ status msg, e.Is .ErrIsNotRegularFile = false ∧ e.Is .ErrNotImplemented = false ∧
      e.AsHttpError = some (status, msg) ∧ ¬(100 ≤ status ∧ status ≤ 999) ∧
      httpErrorWriter env ResponseWriter.new (some e) = .panicked) := by
  cases h1 : e.Is .ErrIsNotRegularFile with
  | true =>
    left
    exact ⟨notFoundText, 404, by decide, by decide,
      by simp [httpErrorWriter, h1, http.Error_new]⟩
  | false =>
    cases h2 : e.Is .ErrNotImplemented with
    | true =>
      left
      exact ⟨e.Error env.quote, 501, by decide, by decide,
        by simp [httpErrorWriter, h1, h2, http.Error_new]⟩
    | false =>
      cases h3 : e.AsHttpError with
      | none =>
        left
        exact ⟨e.Error env.quote, 500, by decide, by decide,
          by simp [httpErrorWriter, h1, h2, h3, http.Error_new]⟩
      | some pr =>
        obtain ⟨status, msg⟩ := pr
        by_cases hr : 100 ≤ status ∧ status ≤ 999
        · left
          exact ⟨msg, status, hr.1, hr.2,
            by simp [httpErrorWriter, h1, h2, h3, http.Error_new _ _ hr.1 hr.2]⟩
        · right
          exact ⟨status, msg, rfl, rfl, rfl, hr,
            by simp [httpErrorWriter, h1, h2, h3,
              http.Error_out_of_range ResponseWriter.new msg status (by omega)]⟩

/-- The errors of `fileIsExist`: the error of `os.Stat`, or
`ErrIsNotRegularFile`. -/
theorem fileIsExist_error (env : Env) (fs : FS) (file : GoString) (b : Bool) (e : Error)
    (h : fileIsExist env fs file = (b, some e)) :
    (∃ errno, e = .pathError "stat".toList file errno) ∨ e = .ErrIsNotRegularFile := by
  unfold fileIsExist os.Stat at h
  split at h
  · rename_i e2 hst
    split at hst
    · rename_i errno _
      simp only [Except.error.injEq] at hst
      split at h
      · simp only [Prod.mk.injEq, Option.some.injEq] at h
        exact Or.inl ⟨errno, by rw [← h.2, ← hst]⟩
      · simp at h
    · split at hst
      · simp only [Except.error.injEq] at hst
        split at h
        · simp only [Prod.mk.injEq, Option.some.injEq] at h
          exact Or.inl ⟨.ENOENT, by rw [← h.2, ← hst]⟩
        · simp at h
      · simp at hst
  · split at h
    · simp only [Prod.mk.injEq, Option.some.injEq] at h
      exact Or.inr h.2.symm
    · simp at h

theorem fileIsExist_answered (env : Env) (fs : FS) (file : GoString) (b : Bool) (e : Error)
    (h : fileIsExist env fs file = (b, some e)) :
    ∃ msg code, httpErrorWriter env ResponseWriter.new (some e) =
      .returned ⟨[], [.Error msg code]⟩ := by
  rcases fileIsExist_error env fs file b e h with ⟨errno, he⟩ | he
  · rw [he]
    exact ⟨_, _, httpErrorWriter_pathError env _ _ _⟩
  · rw [he]
    exact ⟨_, _, httpErrorWriter_notRegular env⟩

/-! ## Lemmas on validation and the stages of the handler -/

theorem sha256Sum_file (env : Env) (fs : FS) (file content : GoString) (hfile : file ≠ [])
    (hopen : env.fault (.Open file) = none) (hread : env.fault (.Read file) = none)
    (hget : fs.get file = some (.file content)) :
    sha256Sum env fs file = (env.Sum256 content, none) := by
  simp [sha256Sum, os.Open, os.Read, hfile, hopen, hread, hget]

theorem hashFilePath_ne (fp : GoString) : fp ++ hashFileSuffix ≠ fp := by
  intro h
  have := congrArg List.length h
  simp [hashFileSuffix] at this

theorem Handler.lookup_check (env : Env) (p : Proxy) (endp : Endpoint) (r : Request)
    (reqPath filename version fp hp : GoString) (ex : Bool) (s s1 : State)
    (h : Handler.lookup env p endp r reqPath filename version s = (.check fp hp ex, s1)) :
    fp = p.filePath filename version ∧ hp = fp ++ hashFileSuffix := by
  unfold Handler.lookup at h
  simp only at h
  split at h
  · simp at h
  · split at h
    · split at h
      · simp at h
      · simp at h
      · simp only [Prod.mk.injEq, Stage.check.injEq] at h
        obtain ⟨⟨h1, h2, -⟩, -⟩ := h
        exact ⟨h1.symm, by rw [← h2, ← h1]⟩
    · simp only [Prod.mk.injEq, Stage.check.injEq] at h
      obtain ⟨⟨h1, h2, -⟩, -⟩ := h
      exact ⟨h1.symm, by rw [← h2, ← h1]⟩

theorem Handler.front_check (env : Env) (p : Proxy) (endp : Endpoint) (r : Request)
    (fp hp : GoString) (ex : Bool) (s s1 : State)
    (h : Handler.front env p endp r s = (.check fp hp ex, s1)) :
    hp = fp ++ hashFileSuffix := by
  unfold Handler.front at h
  split at h
  · simp at h
  · exact (Handler.lookup_check _ _ _ _ _ _ _ _ _ _ _ _ h).2

theorem fileIsExist_file (env : Env) (fs : FS) (file content : GoString)
    (hstat : env.fault (.Stat file) = none) (hget : fs.get file = some (.file content)) :
    fileIsExist env fs file = (true, none) := by
  simp [fileIsExist, os.Stat, hstat, hget, Node.IsDir]

theorem Handler.readHash_file (env : Env) (fs : FS) (hp h : GoString)
    (hstat : env.fault (.Stat hp) = none) (hread : env.fault (.ReadFile hp) = none)
    (hget : fs.get hp = some (.file h)) :
    Handler.readHash env fs hp = .ok (true, h) := by
  simp [Handler.readHash, fileIsExist_file env fs hp h hstat hget, os.ReadFile, hread, hget]

theorem validateSha256Hash_mismatch (env : Env) (fs : FS) (file hash content : GoString)
    (hfile : file ≠ [])
    (hopen : env.fault (.Open file) = none) (hread : env.fault (.Read file) = none)
    (hget : fs.get file = some (.file content)) (hh : hash ≠ [])
    (hne : hash ≠ hex.EncodeToString (env.Sum256 content)) :
    validateSha256Hash env fs file hash = (false, none) := by
  simp only [validateSha256Hash, sha256Sum_file env fs file content hfile hopen hread hget]
  by_cases hlen : (env.Sum256 content).length = 0
  · simp [hh, hlen]
  · simp [hh, hlen, Ne.symm hne]

theorem Handler.route_slot (env : Env) (endp : Endpoint) (r : Request) (s s0 : State)
    (reqPath filename version : GoString)
    (h : Handler.route env endp r s = (.slot reqPath filename version, s0)) :
    s0 = s ∧ reqPath = normalize r.Path ∧ (r.Method = MethodGet ∨ r.Method = MethodHead) ∧
      filename ≠ [] ∧ ∃ extra, strings.Split '/' reqPath = [filename, version, extra] := by
  unfold Handler.route at h
  simp only at h
  split at h
  · simp at h
  · rename_i hm
    split at h
    · simp at h
    · split at h
      · rename_i fn v rest hsplit
        split at h
        · split at h <;> simp at h
        · rename_i hlen1
          split at h
          · simp at h
          · rename_i hlen2
            simp only [Prod.mk.injEq, Route.slot.injEq] at h
            obtain ⟨⟨h1, h2, h3⟩, h4⟩ := h
            subst h2 h3 h4
            refine ⟨rfl, h1.symm, ?_, ?_, ?_⟩
            · by_cases hg : r.Method = MethodGet
              · exact Or.inl hg
              · right
                by_contra hh
                exact hm ⟨hg, hh⟩
            · intro hnil
              subst hnil
              match rest, hlen1, hlen2, hsplit with
              | [x], _, _, hsplit =>
                exact normalize_head r.Path (strings.Split_head_nil '/' _ _ _ hsplit)
              | [], hlen1, _, _ => simp at hlen1
              | _ :: _ :: _, _, hlen2, _ => simp at hlen2
            · match rest, hlen1, hlen2, hsplit with
              | [x], _, _, hsplit => exact ⟨x, h1 ▸ hsplit⟩
              | [], hlen1, _, _ => simp at hlen1
              | _ :: _ :: _, _, hlen2, _ => simp at hlen2
      · simp at h

theorem Handler.front_check_file (env : Env) (p : Proxy) (endp : Endpoint) (r : Request)
    (fp hp : GoString) (ex : Bool) (s s1 : State)
    (h : Handler.front env p endp r s = (.check fp hp ex, s1)) :
    fp ≠ [] ∧ hp = fp ++ hashFileSuffix ∧ (r.Method = MethodGet ∨ r.Method = MethodHead) := by
  have hp2 := Handler.front_check env p endp r fp hp ex s s1 h
  unfold Handler.front at h
  split at h
  · simp at h
  · rename_i reqPath filename version s0 hroute
    obtain ⟨-, -, hm, hfn, -⟩ := Handler.route_slot env endp r s s0 reqPath filename version hroute
    obtain ⟨h1, -⟩ := Handler.lookup_check _ _ _ _ _ _ _ _ _ _ _ _ h
    exact ⟨h1 ▸ Proxy.filePath_ne_nil p filename version hfn, hp2, hm⟩

theorem MethodGet_ne_MethodHead : MethodGet ≠ MethodHead := by decide


theorem os.MkdirAll_ok (env : Env) (fs : FS) (name : GoString)
    (hfault : env.fault (.MkdirAll name) = none) (hfree : ∀ c, fs.get name ≠ some (.file c)) :
    ∃ fs2, os.MkdirAll env fs name = .ok fs2 ∧ ∀ q, q ≠ name → fs2.get q = fs.get q := by
  unfold os.MkdirAll
  rw [hfault]
  cases hget : fs.get name with
  | none => exact ⟨_, rfl, fun q hq => Map.get_set_of_ne _ _ _ _ (Ne.symm hq)⟩
  | some node =>
    cases node with
    | dir => exact ⟨_, rfl, fun q _ => rfl⟩
    | file c => exact absurd hget (hfree c)

theorem os.WriteFile_ok (env : Env) (fs : FS) (name data : GoString)
    (hopen : env.fault (.OpenFile name) = none) (hwrite : env.fault (.Write name) = none)
    (hfree : fs.get name ≠ some .dir) :
    ∃ fs2, os.WriteFile env fs name data = (none, fs2) ∧ fs2.get name = some (.file data) ∧
      ∀ q, q ≠ name → fs2.get q = fs.get q := by
  have hopened : os.OpenFile env fs name = .ok (fs.set name (.file [])) := by
    unfold os.OpenFile
    rw [hopen]
    cases hget : fs.get name with
    | none => rfl
    | some node =>
      cases node with
      | dir => exact absurd hget hfree
      | file c => rfl
  refine ⟨(fs.set name (.file [])).set name (.file data), ?_, Map.get_set_self _ _ _, ?_⟩
  · simp [os.WriteFile, hopened, os.Write, hwrite]
  · intro q hq
    rw [Map.get_set_of_ne _ _ _ _ (Ne.symm hq), Map.get_set_of_ne _ _ _ _ (Ne.symm hq)]

theorem Proxy.download_ok (env : Env) (url : GoString) (s : State) (resp : Upstream)
    (hget : env.get url = .ok resp) (h200 : resp.StatusCode = 200) :
    Proxy.download env url s = (.ok resp, s.record (.get url)) := by
  simp [Proxy.download, hget, h200]

theorem ResponseWriter.copy_header (w : ResponseWriter) (data : GoString) :
    (w.copy data).header = w.header := by
  unfold ResponseWriter.copy
  split <;> rfl

theorem sendFile_etag (env : Env) (fs : FS) (w : ResponseWriter) (file : GoString) :
    (sendFile env fs w file).header.get "ETag".toList = w.header.get "ETag".toList := by
  unfold sendFile
  split
  · rfl
  · split
    · simp only [ResponseWriter.call, ResponseWriter.Del, ResponseWriter.copy_header,
        ResponseWriter.Set]
      rw [Map.get_del_of_ne _ _ _ (by decide)]
      exact Map.get_set_of_ne _ _ _ _ (by decide)
    · simp only [ResponseWriter.copy_header, ResponseWriter.Set]
      exact Map.get_set_of_ne _ _ _ _ (by decide)

theorem Handler.back_etag (env : Env) (r : Request) (fp hp hash : GoString) (ex hfe : Bool)
    (s s2 : State) (w : ResponseWriter)
    (hrh : Handler.readHash env s.fs hp = .ok (hfe, hash)) (hpos : 0 < hash.length)
    (hback : Handler.back env r fp hp ex s = (.returned w, s2)) :
    w.header.get "ETag".toList = some hash := by
  have hset : ((ResponseWriter.new.Set "ETag".toList hash).header).get "ETag".toList = some hash :=
    Map.get_set_self _ _ _
  have hcl : ∀ v, ((ResponseWriter.new.Set "ETag".toList hash).Set "Content-Type".toList v).header.get
      "ETag".toList = some hash := fun v => by
    simp only [ResponseWriter.Set]
    rw [Map.get_set_of_ne _ _ _ _ (by decide)]
    exact Map.get_set_self _ _ _
  have hcl2 : ∀ v v2, (((ResponseWriter.new.Set "ETag".toList hash).Set "Content-Length".toList v2).Set
      "Content-Type".toList v).header.get "ETag".toList = some hash := fun v v2 => by
    simp only [ResponseWriter.Set]
    rw [Map.get_set_of_ne _ _ _ _ (by decide), Map.get_set_of_ne _ _ _ _ (by decide)]
    exact Map.get_set_self _ _ _
  unfold Handler.back at hback
  simp only [hrh] at hback
  unfold Handler.serve at hback
  simp only [hpos, if_true] at hback
  split at hback
  · simp only [Prod.mk.injEq, Outcome.returned.injEq] at hback
    rw [← hback.1]; exact hset
  · split at hback
    · split at hback
      · split at hback
        · simp at hback
        · simp only [Prod.mk.injEq, Outcome.returned.injEq] at hback
          rw [← hback.1]; exact hcl2 _ _
      · simp only [Prod.mk.injEq, Outcome.returned.injEq] at hback
        rw [← hback.1]; exact hcl _
    · split at hback
      · split at hback
        · simp only [Prod.mk.injEq, Outcome.returned.injEq] at hback
          rw [← hback.1]; exact hset
        · split at hback
          · simp only [Prod.mk.injEq, Outcome.returned.injEq] at hback
            rw [← hback.1]; exact hset
          · simp only [Prod.mk.injEq, Outcome.returned.injEq] at hback
            rw [← hback.1]; exact hset
      · simp only [Prod.mk.injEq, Outcome.returned.injEq] at hback
        rw [← hback.1, sendFile_etag]; exact hset


theorem Handler.route_two_segments (env : Env) (endp : Endpoint) (r : Request) (s : State)
    (name version : GoString)
    (hmethod : r.Method = MethodGet ∨ r.Method = MethodHead)
    (hsplit : strings.Split '/' (normalize r.Path) = [name, version])
    (hdot : (normalize r.Path).head? ≠ some '.')
    (hsuffix : strings.HasSuffix (normalize r.Path) hashFileSuffix = false) :
    Handler.route env endp r s =
      (match endp.LastTag with
        | .error err => .done (httpErrorWriter env ResponseWriter.new (some err))
        | .ok latestVersion =>
          .done (.returned (ResponseWriter.new.call (.Redirect (path.Join [name, latestVersion]) 307))),
       s.record .LastTag) := by
  have hne : normalize r.Path ≠ [] := by
    intro h
    rw [h] at hsplit
    simp [strings.Split] at hsplit
  have hm : ¬(r.Method ≠ MethodGet ∧ r.Method ≠ MethodHead) := by
    rintro ⟨h1, h2⟩
    rcases hmethod with h | h
    · exact h1 h
    · exact h2 h
  unfold Handler.route
  simp only [hm, if_false, List.length_eq_zero, hne, hdot, hsuffix, false_or, Bool.false_eq_true,
    hsplit, List.length_singleton, if_true]
  cases endp.LastTag <;> rfl

theorem Handler.route_one_segment (env : Env) (endp : Endpoint) (r : Request) (s : State)
    (name : GoString)
    (hmethod : r.Method = MethodGet ∨ r.Method = MethodHead)
    (hsplit : strings.Split '/' (normalize r.Path) = [name])
    (hname : name ≠ [])
    (hdot : (normalize r.Path).head? ≠ some '.')
    (hsuffix : strings.HasSuffix (normalize r.Path) hashFileSuffix = false) :
    Handler.route env endp r s = (.done .panicked, s) := by
  have hne : normalize r.Path ≠ [] := by
    intro h
    rw [h] at hsplit
    simp only [strings.Split, List.cons.injEq, and_true] at hsplit
    exact hname hsplit.symm
  have hm : ¬(r.Method ≠ MethodGet ∧ r.Method ≠ MethodHead) := by
    rintro ⟨h1, h2⟩
    rcases hmethod with h | h
    · exact h1 h
    · exact h2 h
  unfold Handler.route
  simp only [hm, if_false, List.length_eq_zero, hne, hdot, hsuffix, false_or, Bool.false_eq_true,
    hsplit]


theorem dropWhile_append_stop {α : Type} (q : α → Bool) (l r : List α)
    (hl : ∀ x ∈ l, q x = true) (hr : ∀ y ∈ r.head?, q y = false) :
    (l ++ r).dropWhile q = r := by
  induction l with
  | nil =>
    cases r with
    | nil => rfl
    | cons y ys => simp [List.dropWhile, hr y (by simp)]
  | cons x xs ih =>
    have h2 := ih (fun z hz => hl z (List.mem_cons_of_mem _ hz))
    simp [List.dropWhile_cons, hl x (List.mem_cons_self _ _), h2]

theorem path.dirPart_last (front seg : GoString) (hslash : '/' ∉ seg)
    (hfront : front = [] ∨ ∃ pre, front = pre ++ ['/']) :
    path.dirPart (front ++ seg) = front := by
  unfold path.dirPart
  rw [List.reverse_append, dropWhile_append_stop, List.reverse_reverse]
  · intro x hx
    have : x ≠ '/' := fun h => hslash (h ▸ List.mem_reverse.mp hx)
    simpa using this
  · intro y hy
    rcases hfront with h | ⟨pre, h⟩
    · subst h; simp at hy
    · subst h
      simp only [List.reverse_append, List.reverse_cons, List.reverse_nil, List.nil_append,
        List.singleton_append, List.head?_cons, Option.mem_def, Option.some.injEq] at hy
      simp [← hy]

theorem path.Dir_append (front seg tail : GoString) (hslash : '/' ∉ seg) (htail : '/' ∉ tail)
    (hfront : front = [] ∨ ∃ pre, front = pre ++ ['/']) :
    path.Dir ((front ++ seg) ++ tail) = path.Dir (front ++ seg) := by
  unfold path.Dir
  rw [List.append_assoc, path.dirPart_last front (seg ++ tail) ?_ hfront,
    path.dirPart_last front seg hslash hfront]
  intro h
  rcases List.mem_append.mp h with h1 | h1
  · exact hslash h1
  · exact htail h1

theorem path.Dir_last_ne (front seg : GoString) (hne : seg ≠ []) (hslash : '/' ∉ seg)
    (hdot : seg.head? ≠ some '.') (hfront : front = [] ∨ ∃ pre, front = pre ++ ['/']) :
    path.Dir (front ++ seg) ≠ front ++ seg := by
  unfold path.Dir
  rw [path.dirPart_last front seg hslash hfront]
  intro h
  rcases hfront with hf | ⟨pre, hf⟩
  · subst hf
    have : path.Clean [] = ['.'] := by decide
    rw [this] at h
    simp only [List.nil_append] at h
    exact hdot (by rw [← h]; rfl)
  · have hlen := path.Clean_length front
    have hpos : 0 < seg.length := List.length_pos.mpr hne
    have heq := congrArg List.length h
    rw [List.length_append] at heq
    have hfl : front.length = pre.length + 1 := by rw [hf]; simp
    omega

theorem Proxy.filePath_dir (p : Proxy) (filename version : GoString) (hne : filename ≠ [])
    (hslash : '/' ∉ filename) (hdot : filename.head? ≠ some '.') :
    path.Dir (p.filePath filename version ++ hashFileSuffix) = path.Dir (p.filePath filename version) ∧
      path.Dir (p.filePath filename version) ≠ p.filePath filename version := by
  have hsuf : '/' ∉ hashFileSuffix := by decide
  rcases Proxy.filePath_last p filename version hne hslash hdot with h | ⟨pre, h⟩
  · rw [h]
    exact ⟨path.Dir_append [] filename hashFileSuffix hslash hsuf (Or.inl rfl),
      path.Dir_last_ne [] filename hne hslash hdot (Or.inl rfl)⟩
  · rw [h]
    exact ⟨path.Dir_append _ filename hashFileSuffix hslash hsuf (Or.inr ⟨pre, rfl⟩),
      path.Dir_last_ne _ filename hne hslash hdot (Or.inr ⟨pre, rfl⟩)⟩


theorem validateSha256Hash_match (env : Env) (fs : FS) (file content : GoString)
    (hfile : file ≠ [])
    (hopen : env.fault (.Open file) = none) (hread : env.fault (.Read file) = none)
    (hget : fs.get file = some (.file content))
    (hne : hex.EncodeToString (env.Sum256 content) ≠ []) :
    validateSha256Hash env fs file (hex.EncodeToString (env.Sum256 content)) = (true, none) := by
  simp only [validateSha256Hash, sha256Sum_file env fs file content hfile hopen hread hget]
  have h1 : (hex.EncodeToString (env.Sum256 content)).length ≠ 0 := by
    simpa [List.length_eq_zero] using hne
  have h2 : (env.Sum256 content).length ≠ 0 := by
    intro h
    rw [List.length_eq_zero.mp h] at hne
    exact hne rfl
  simp [h1, h2]

theorem Proxy.hashFilePath_base (p : Proxy) (filename version : GoString) (hne : filename ≠ [])
    (hslash : '/' ∉ filename) (hdot : filename.head? ≠ some '.') :
    path.Base (p.filePath filename version ++ hashFileSuffix) = filename ++ hashFileSuffix := by
  have hseg : '/' ∉ filename ++ hashFileSuffix := by
    intro h
    rcases List.mem_append.mp h with h1 | h1
    · exact hslash h1
    · simp [hashFileSuffix] at h1
  have hne2 : filename ++ hashFileSuffix ≠ [] := by simp [hne]
  rcases Proxy.filePath_last p filename version hne hslash hdot with h | ⟨pre, h⟩
  · rw [h]
    exact path.Base_last [] _ hne2 hseg (Or.inl rfl)
  · rw [h, List.append_assoc]
    exact path.Base_last _ _ hne2 hseg (Or.inr ⟨pre, rfl⟩)

theorem os.MkdirAll_ok_files (env : Env) (fs : FS) (name : GoString)
    (hfault : env.fault (.MkdirAll name) = none) (hfree : ∀ c, fs.get name ≠ some (.file c)) :
    ∃ fs2, os.MkdirAll env fs name = .ok fs2 ∧ (∀ q, q ≠ name → fs2.get q = fs.get q) ∧
      ∀ q c, fs2.get q = some (.file c) → fs.get q = some (.file c) := by
  obtain ⟨fs2, h1, h2⟩ := os.MkdirAll_ok env fs name hfault hfree
  refine ⟨fs2, h1, h2, ?_⟩
  intro q c hq
  by_cases hqn : q = name
  · subst hqn
    unfold os.MkdirAll at h1
    rw [hfault] at h1
    cases hget : fs.get q with
    | none =>
      rw [hget] at h1
      simp only [Except.ok.injEq] at h1
      rw [← h1, Map.get_set_self] at hq
      simp at hq
    | some node =>
      cases node with
      | dir =>
        rw [hget] at h1
        simp only [Except.ok.injEq] at h1
        rw [← h1, hget] at hq
        exact hq
      | file c2 => exact absurd hget (hfree c2)
  · rw [← h2 q hqn]; exact hq

theorem Proxy.fetchHash_manifest_miss (env : Env) (url hp : GoString) (s : State) (resp : Upstream)
    (hget : env.get url = .ok resp) (h200 : resp.StatusCode = 200)
    (hbody : resp.BodyErr = none) (hlen : resp.Body.length ≠ 64)
    (hmkdir : env.fault (.MkdirAll (path.Dir hp)) = none)
    (hdir : ∀ c, s.fs.get (path.Dir hp) ≠ some (.file c))
    (hnone : ∀ line ∈ strings.Split '\n' resp.Body, strings.Contains line (path.Base hp) = false) :
    ∃ s1, Proxy.fetchHash env url hp s = (some (.hashsumNotFound (path.Base hp)), s1) ∧
      (∀ q c, s1.fs.get q = some (.file c) → s.fs.get q = some (.file c)) ∧
      s1.sem = s.sem ∧ s1.log = s.log ++ [.get url] := by
  obtain ⟨fs2, hmk, -, hfiles⟩ := os.MkdirAll_ok_files env (s.record (.get url)).fs _ hmkdir hdir
  have hfind : (strings.Split '\n' resp.Body).find?
      (fun line => strings.Contains line (path.Base hp)) = none := by
    rw [List.find?_eq_none]
    intro line hl
    simp [hnone line hl]
  refine ⟨(s.record (.get url)).withFS fs2, ?_, hfiles, rfl, rfl⟩
  simp [Proxy.fetchHash, Proxy.download_ok env url s resp hget h200, hbody, hmk, hlen, hfind]

theorem Handler.route_slot_name (env : Env) (endp : Endpoint) (r : Request) (s s0 : State)
    (reqPath filename version : GoString)
    (h : Handler.route env endp r s = (.slot reqPath filename version, s0)) :
    '/' ∉ filename ∧ filename.head? ≠ some '.' := by
  obtain ⟨-, hreq, -, hne, extra, hsplit⟩ := Handler.route_slot env endp r s s0 reqPath filename
    version h
  refine ⟨strings.Split_not_mem '/' reqPath filename (by rw [hsplit]; simp), ?_⟩
  rw [← strings.Split_head '/' reqPath filename _ hsplit hne]
  unfold Handler.route at h
  simp only at h
  split at h
  · simp at h
  · split at h
    · simp at h
    · rename_i hgate
      rw [hreq]
      intro hdot
      exact hgate (Or.inr (Or.inl hdot))

theorem Semaphore.Release_Acquire (m : List GoString) (key : GoString) (h : key ∉ m) :
    Semaphore.Release (key :: m) key = m := by
  unfold Semaphore.Release
  simp only [List.filter_cons, ne_eq, not_true_eq_false, decide_False, Bool.false_eq_true, if_false]
  rw [List.filter_eq_self]
  intro k hk
  have : k ≠ key := fun heq => h (heq ▸ hk)
  simpa using this


theorem Handler.mismatch_removes_both (env : Env) (p : Proxy) (endp : Endpoint) (r : Request)
    (s s1 : State) (fp hp c h : GoString) (ex : Bool)
    (hmethod : r.Method = MethodGet)
    (hfront : Handler.front env p endp r s = (.check fp hp ex, s1))
    (hpayload : s1.fs.get fp = some (.file c))
    (hchecksum : s1.fs.get hp = some (.file h))
    (hnonempty : h ≠ [])
    (hmismatch : h ≠ hex.EncodeToString (env.Sum256 c))
    (hstat : env.fault (.Stat hp) = none) (hreadFile : env.fault (.ReadFile hp) = none)
    (hopen : env.fault (.Open fp) = none) (hread : env.fault (.Read fp) = none)
    (hrm1 : env.fault (.Remove fp) = none) (hrm2 : env.fault (.Remove hp) = none) :
    ∃ w s2, Handler env p endp r s = (.returned w, s2) ∧
      s2.fs.get fp = none ∧ s2.fs.get hp = none ∧
      w.calls = [.Redirect r.Path 307] ∧ w.status = 307 := by
  obtain ⟨hfp, hhp, -⟩ := Handler.front_check_file env p endp r fp hp ex s s1 hfront
  have hne : fp ≠ hp := by rw [hhp]; exact (hashFilePath_ne fp).symm
  have hlen : 0 < h.length := List.length_pos.mpr hnonempty
  have hget2 : (s1.fs.del fp).get hp = some (.file h) := by
    rw [Map.get_del_of_ne _ _ _ hne]; exact hchecksum
  refine ⟨(ResponseWriter.new.Set "ETag".toList h).call (.Redirect r.Path 307),
    s1.withFS ((s1.fs.del fp).del hp), ?_, ?_, ?_, ?_, ?_⟩
  · simp [Handler, hfront, Handler.back, Handler.serve, Handler.readHash_file env s1.fs hp h hstat hreadFile hchecksum,
      hlen, validateSha256Hash_mismatch env s1.fs fp h c hfp hopen hread hpayload hnonempty hmismatch,
      hmethod, MethodGet_ne_MethodHead, os.Remove, hrm1, hrm2, hpayload, hget2]
  · simp only [State.withFS]
    rw [Map.get_del_of_ne _ _ _ hne.symm, Map.get_del_self]
  · simp only [State.withFS]
    rw [Map.get_del_self]
  · simp [ResponseWriter.call, ResponseWriter.Set, ResponseWriter.new]
  · simp [ResponseWriter.call, ResponseWriter.Set, ResponseWriter.new, ResponseWriter.status]

theorem os.MkdirAll_exists (env : Env) (fs : FS) (name : GoString)
    (hfault : env.fault (.MkdirAll name) = none) (hdir : fs.get name = some .dir) :
    os.MkdirAll env fs name = .ok fs := by
  simp [os.MkdirAll, hfault, hdir]

theorem os.MkdirAll_ok_dir (env : Env) (fs : FS) (name : GoString)
    (hfault : env.fault (.MkdirAll name) = none) (hfree : ∀ c, fs.get name ≠ some (.file c)) :
    ∃ fs2, os.MkdirAll env fs name = .ok fs2 ∧ fs2.get name = some .dir ∧
      ∀ q, q ≠ name → fs2.get q = fs.get q := by
  unfold os.MkdirAll
  rw [hfault]
  cases hget : fs.get name with
  | none =>
    exact ⟨_, rfl, Map.get_set_self _ _ _, fun q hq => Map.get_set_of_ne _ _ _ _ (Ne.symm hq)⟩
  | some node =>
    cases node with
    | dir => exact ⟨_, rfl, hget, fun q _ => rfl⟩
    | file c => exact absurd hget (hfree c)

theorem Proxy.fetchHash_bare_ok (env : Env) (url fp : GoString) (s : State) (resp : Upstream)
    (hget : env.get url = .ok resp) (h200 : resp.StatusCode = 200)
    (hbody : resp.BodyErr = none) (hlen : resp.Body.length = 64)
    (hmkdir : env.fault (.MkdirAll (path.Dir (fp ++ hashFileSuffix))) = none)
    (hopen : env.fault (.OpenFile (fp ++ hashFileSuffix)) = none)
    (hwrite : env.fault (.Write (fp ++ hashFileSuffix)) = none)
    (hdir : ∀ c, s.fs.get (path.Dir (fp ++ hashFileSuffix)) ≠ some (.file c))
    (hfree : s.fs.get (fp ++ hashFileSuffix) ≠ some .dir) :
    ∃ s1, Proxy.fetchHash env url (fp ++ hashFileSuffix) s = (none, s1) ∧
      s1.fs.get (fp ++ hashFileSuffix) = some (.file resp.Body) ∧
      s1.fs.get (path.Dir (fp ++ hashFileSuffix)) = some .dir ∧
      (∀ q, q ≠ fp ++ hashFileSuffix → q ≠ path.Dir (fp ++ hashFileSuffix) →
        s1.fs.get q = s.fs.get q) ∧
      s1.sem = s.sem ∧ s1.log = s.log ++ [.get url] := by
  obtain ⟨fs2, hmk, hisdir, hsame⟩ := os.MkdirAll_ok_dir env (s.record (.get url)).fs _ hmkdir hdir
  have hfree2 : fs2.get (fp ++ hashFileSuffix) ≠ some .dir := by
    rw [hsame _ (path.Dir_hashFilePath_ne fp).symm]
    exact hfree
  obtain ⟨fs3, hw, hcontent, hsame3⟩ := os.WriteFile_ok env fs2 _ resp.Body hopen hwrite hfree2
  refine ⟨(s.record (.get url)).withFS fs3, ?_, hcontent, ?_, ?_, rfl, rfl⟩
  · simp [Proxy.fetchHash, Proxy.download_ok env url s resp hget h200, hbody, hmk, hlen, hw]
  · show fs3.get _ = _
    rw [hsame3 _ (path.Dir_hashFilePath_ne fp)]
    exact hisdir
  · intro q h1 h2
    show fs3.get q = _
    rw [hsame3 q h1, hsame q h2]
    rfl

theorem Proxy.fetchFile_ok (env : Env) (url fp : GoString) (s : State) (resp : Upstream)
    (hget : env.get url = .ok resp) (h200 : resp.StatusCode = 200)
    (hbody : resp.BodyErr = none)
    (hmkdir : env.fault (.MkdirAll (path.Dir fp)) = none)
    (hopen : env.fault (.OpenFile fp) = none)
    (hwrite : env.fault (.Write fp) = none)
    (hdir : ∀ c, s.fs.get (path.Dir fp) ≠ some (.file c))
    (hfree : s.fs.get fp ≠ some .dir) (hne : path.Dir fp ≠ fp) :
    ∃ s1, Proxy.fetchFile env url fp s = (none, s1) ∧
      s1.fs.get fp = some (.file resp.Body) ∧
      (∀ q, q ≠ fp → q ≠ path.Dir fp → s1.fs.get q = s.fs.get q) ∧
      s1.sem = s.sem ∧ s1.log = s.log ++ [.get url] := by
  obtain ⟨fs2, hmk, hisdir, hsame⟩ := os.MkdirAll_ok_dir env (s.record (.get url)).fs _ hmkdir hdir
  have hmk2 := os.MkdirAll_exists env fs2 _ hmkdir hisdir
  have hfree2 : fs2.get fp ≠ some .dir := by
    rw [hsame _ hne.symm]
    exact hfree
  have hopened : os.OpenFile env fs2 fp = .ok (fs2.set fp (.file [])) := by
    unfold os.OpenFile
    rw [hopen]
    cases hg : fs2.get fp with
    | none => rfl
    | some node =>
      cases node with
      | dir => exact absurd hg hfree2
      | file c => rfl
  refine ⟨(s.record (.get url)).withFS ((fs2.set fp (.file [])).set fp (.file resp.Body)), ?_,
    Map.get_set_self _ _ _, ?_, rfl, rfl⟩
  · simp [Proxy.fetchFile, Proxy.download_ok env url s resp hget h200, hmk, writeToFile, hmk2,
      hopened, os.Write, hwrite, hbody]
  · intro q h1 h2
    show Map.get ((fs2.set fp (.file [])).set fp (.file resp.Body)) q = _
    rw [Map.get_set_of_ne _ _ _ _ (Ne.symm h1), Map.get_set_of_ne _ _ _ _ (Ne.symm h1), hsame q h2]
    rfl

theorem sendFile_ok (env : Env) (fs : FS) (w : ResponseWriter) (file content : GoString)
    (hopen : env.fault (.Open file) = none) (hread : env.fault (.Read file) = none)
    (hget : fs.get file = some (.file content)) :
    sendFile env fs w file = (w.Set "Content-Length".toList (Itoa content.length)).copy content := by
  simp [sendFile, os.Open, os.Read, hopen, hread, hget, Node.Size]

/-- The fill on a miss, for a request that reaches the cache lookup: when
the payload of the slot is not cached, the endpoint resolves both URLs and
upstream answers 200 with a 64-byte checksum body and a payload whose digest
in lower-case hexadecimal is that body, the GET leaves both in the slot and
serves the payload with `Content-Length` and `ETag`. -/
theorem Handler.fill_on_miss (env : Env) (p : Proxy) (endp : Endpoint) (r : Request)
    (s s0 : State) (reqPath filename version hurl furl : GoString) (hresp fresp : Upstream)
    (hmethod : r.Method = MethodGet)
    (hroute : Handler.route env endp r s = (.slot reqPath filename version, s0))
    (hmiss : s.fs.get (p.filePath filename version) = none)
    (hkey : reqPath ∉ s.sem)
    (hhurl : endp.HashFileURL filename version = .ok hurl)
    (hfurl : endp.FileURL filename version = .ok furl)
    (hhget : env.get hurl = .ok hresp) (hh200 : hresp.StatusCode = 200)
    (hhbody : hresp.BodyErr = none) (hhlen : hresp.Body.length = 64)
    (hfget : env.get furl = .ok fresp) (hf200 : fresp.StatusCode = 200)
    (hfbody : fresp.BodyErr = none)
    (hsum : hex.EncodeToString (env.Sum256 fresp.Body) = hresp.Body)
    (hfault : ∀ op, env.fault op = none)
    (hdir : ∀ c, s.fs.get (path.Dir (p.filePath filename version)) ≠ some (.file c))
    (hfree : s.fs.get (p.filePath filename version ++ hashFileSuffix) ≠ some .dir) :
    ∃ s1, Handler env p endp r s =
        (.returned (((ResponseWriter.new.Set "ETag".toList hresp.Body).Set "Content-Length".toList
          (Itoa fresp.Body.length)).copy fresp.Body), s1) ∧
      s1.fs.get (p.filePath filename version) = some (.file fresp.Body) ∧
      s1.fs.get (p.filePath filename version ++ hashFileSuffix) = some (.file hresp.Body) ∧
      s1.sem = s.sem ∧
      s1.log = s.log ++ [.Acquire reqPath, .HashFileURL filename version, .get hurl,
        .FileURL filename version, .get furl, .Release reqPath] := by
  obtain ⟨hs0, -, -, hne, -⟩ := Handler.route_slot env endp r s s0 reqPath filename version hroute
  obtain ⟨hslash, hdot⟩ := Handler.route_slot_name env endp r s s0 reqPath filename version hroute
  rw [hs0] at hroute
  obtain ⟨hdireq, hdirne⟩ := Proxy.filePath_dir p filename version hne hslash hdot
  have hfpne := Proxy.filePath_ne_nil p filename version hne
  generalize hfp : p.filePath filename version = fp at *
  have hhpne : fp ++ hashFileSuffix ≠ fp := hashFilePath_ne fp
  have hexist : fileIsExist env s.fs fp = (false, none) := by
    simp [fileIsExist, os.Stat, hfault, hmiss, Error.IsNotExist]
  obtain ⟨s2, hfh, hhp2, hdir2, hsame2, hsem2, hlog2⟩ := Proxy.fetchHash_bare_ok env hurl fp
    ((⟨s.fs, reqPath :: s.sem, s.log ++ [.Acquire reqPath]⟩ : State).record
      (.HashFileURL filename version)) hresp hhget hh200 hhbody hhlen (hfault _) (hfault _)
    (hfault _) (by rw [hdireq]; exact hdir) hfree
  have hfp2 : s2.fs.get fp = none := by
    rw [hsame2 fp hhpne.symm (by rw [hdireq]; exact hdirne.symm)]
    exact hmiss
  obtain ⟨s4, hff, hfp4, hsame4, hsem4, hlog4⟩ := Proxy.fetchFile_ok env furl fp
    (s2.record (.FileURL filename version)) fresp hfget hf200 hfbody (hfault _) (hfault _)
    (hfault _) (by
      intro c hc
      have : s2.fs.get (path.Dir fp) = some .dir := by rw [← hdireq]; exact hdir2
      simp [State.record, this] at hc)
    (by simp [State.record, hfp2]) hdirne
  have hhp4 : s4.fs.get (fp ++ hashFileSuffix) = some (.file hresp.Body) := by
    rw [hsame4 _ hhpne (by rw [← hdireq]; exact (path.Dir_hashFilePath_ne fp).symm)]
    exact hhp2
  have hpos : 0 < hresp.Body.length := by omega
  have hrh := Handler.readHash_file env s4.fs (fp ++ hashFileSuffix) hresp.Body (hfault _)
    (hfault _) hhp4
  have hval : validateSha256Hash env s4.fs fp hresp.Body = (true, none) := by
    have := validateSha256Hash_match env s4.fs fp fresp.Body hfpne (hfault _) (hfault _) hfp4
      (by rw [hsum]; intro h; rw [h] at hhlen; simp at hhlen)
    rw [hsum] at this
    exact this
  refine ⟨⟨s4.fs, Semaphore.Release s4.sem reqPath, s4.log ++ [.Release reqPath]⟩, ?_, hfp4, hhp4,
    ?_, ?_⟩
  · simp [Handler, Handler.front, hroute, Handler.lookup, hfp, hexist, hmethod, download,
      Semaphore.Acquire, hkey, fill, hhurl, hfh, hfurl, hff, Handler.back, Handler.serve, hrh, hpos, hval,
      MethodGet_ne_MethodHead, sendFile_ok env s4.fs _ fp fresp.Body (hfault _) (hfault _) hfp4]
  · simp only [hsem4, State.record, hsem2]
    exact Semaphore.Release_Acquire s.sem reqPath hkey
  · simp [hlog4, State.record, hlog2]

/-- The re-serve of a cached slot, for a request that reaches the cache
lookup: when the payload is cached and either its checksum file holds its
digest or there is no checksum file, the GET calls nothing on the endpoint,
leaves the state as it was and serves the cached payload. -/
theorem Handler.serve_cached (env : Env) (p : Proxy) (endp : Endpoint) (r : Request)
    (s s0 : State) (reqPath filename version c : GoString)
    (hmethod : r.Method = MethodGet)
    (hroute : Handler.route env endp r s = (.slot reqPath filename version, s0))
    (hpayload : s.fs.get (p.filePath filename version) = some (.file c))
    (hfault : ∀ op, env.fault op = none) :
    (s.fs.get (p.filePath filename version ++ hashFileSuffix) =
        some (.file (hex.EncodeToString (env.Sum256 c))) →
      hex.EncodeToString (env.Sum256 c) ≠ [] →
      Handler env p endp r s =
        (.returned (((ResponseWriter.new.Set "ETag".toList (hex.EncodeToString (env.Sum256 c))).Set
          "Content-Length".toList (Itoa c.length)).copy c), s)) ∧
    (s.fs.get (p.filePath filename version ++ hashFileSuffix) = none →
      Handler env p endp r s =
        (.returned ((ResponseWriter.new.Set "Content-Length".toList (Itoa c.length)).copy c), s)) := by
  obtain ⟨hs0, -, -, hne, -⟩ := Handler.route_slot env endp r s s0 reqPath filename version hroute
  rw [hs0] at hroute
  have hfpne := Proxy.filePath_ne_nil p filename version hne
  generalize hfp : p.filePath filename version = fp at *
  have hexist := fileIsExist_file env s.fs fp c (hfault _) hpayload
  have hsend := fun w => sendFile_ok env s.fs w fp c (hfault _) (hfault _) hpayload
  constructor
  · intro hchecksum hnonempty
    have hrh := Handler.readHash_file env s.fs (fp ++ hashFileSuffix) _ (hfault _) (hfault _)
      hchecksum
    have hval := validateSha256Hash_match env s.fs fp c hfpne (hfault _) (hfault _) hpayload
      hnonempty
    have hpos : 0 < (hex.EncodeToString (env.Sum256 c)).length := List.length_pos.mpr hnonempty
    simp [Handler, Handler.front, hroute, Handler.lookup, hfp, hexist, hmethod, Handler.back, Handler.serve, hrh,
      hpos, hval, MethodGet_ne_MethodHead, hsend]
  · intro hnone
    have hrh : Handler.readHash env s.fs (fp ++ hashFileSuffix) = .ok (false, []) := by
      simp [Handler.readHash, fileIsExist, os.Stat, hfault, hnone, Error.IsNotExist]
    simp [Handler, Handler.front, hroute, Handler.lookup, hfp, hexist, hmethod, Handler.back, Handler.serve, hrh,
      MethodGet_ne_MethodHead, hsend]

/-! ## Frame lemmas: what the parts of the handler leave unchanged -/

theorem Handler.route_state (env : Env) (endp : Endpoint) (r : Request) (s : State) :
    (Handler.route env endp r s).2 = s ∨ (Handler.route env endp r s).2 = s.record .LastTag := by
  unfold Handler.route
  simp only
  split
  · exact Or.inl rfl
  · split
    · exact Or.inl rfl
    · split
      · split
        · split
          · exact Or.inr rfl
          · exact Or.inr rfl
        · split
          · exact Or.inl rfl
          · exact Or.inl rfl
      · exact Or.inl rfl

theorem Handler.route_gate (env : Env) (endp : Endpoint) (r : Request) (s : State)
    (hmethod : r.Method = MethodGet ∨ r.Method = MethodHead)
    (hgate : normalize r.Path = [] ∨ (normalize r.Path).head? = some '.' ∨
      strings.HasSuffix (normalize r.Path) hashFileSuffix = true) :
    Handler.route env endp r s = (.done (.returned (NotFound ResponseWriter.new)), s) := by
  have hm : ¬(r.Method ≠ MethodGet ∧ r.Method ≠ MethodHead) := by
    rintro ⟨h1, h2⟩
    rcases hmethod with h | h
    · exact h1 h
    · exact h2 h
  have hg : (normalize r.Path).length = 0 ∨ (normalize r.Path).head? = some '.' ∨
      strings.HasSuffix (normalize r.Path) hashFileSuffix = true := by
    rcases hgate with h | h | h
    · exact Or.inl (by rw [h]; rfl)
    · exact Or.inr (Or.inl h)
    · exact Or.inr (Or.inr h)
  unfold Handler.route
  simp only [hm, if_false, hg, if_true]

theorem Handler.serve_head (env : Env) (r : Request) (fp hp hash : GoString) (ex hfe : Bool)
    (s : State) (hmethod : r.Method = MethodHead) :
    (Handler.serve env r fp hp ex hfe hash s).2 = s := by
  unfold Handler.serve
  simp only [hmethod, if_true]
  split
  · rfl
  · split
    · split <;> rfl
    · rfl

theorem Handler.back_head (env : Env) (r : Request) (fp hp : GoString) (ex : Bool)
    (s : State) (hmethod : r.Method = MethodHead) :
    (Handler.back env r fp hp ex s).2 = s := by
  unfold Handler.back
  split
  · rfl
  · exact Handler.serve_head env r fp hp _ ex _ s hmethod

theorem Handler.lookup_head (env : Env) (p : Proxy) (endp : Endpoint) (r : Request)
    (reqPath filename version : GoString) (s : State) (hmethod : r.Method = MethodHead) :
    (Handler.lookup env p endp r reqPath filename version s).2 = s := by
  have hne : r.Method ≠ MethodGet := by
    rw [hmethod]; exact fun h => MethodGet_ne_MethodHead h.symm
  unfold Handler.lookup
  simp only [hne, decide_False, Bool.and_false, Bool.false_eq_true, if_false]
  split <;> rfl

theorem Handler.head_state (env : Env) (p : Proxy) (endp : Endpoint) (r : Request) (s : State)
    (hmethod : r.Method = MethodHead) :
    (Handler env p endp r s).2 = (Handler.route env endp r s).2 := by
  unfold Handler Handler.front
  split
  · rename_i out s1 hfront
    split at hfront
    · rename_i out2 s2 hroute
      simp only [Prod.mk.injEq] at hfront
      rw [hroute, ← hfront.2]
    · rename_i reqPath filename version s2 hroute
      have := Handler.lookup_head env p endp r reqPath filename version s2 hmethod
      rw [hfront] at this
      rw [hroute]
      exact this
  · rename_i fp hp ex s1 hfront
    rw [Handler.back_head env r fp hp ex s1 hmethod]
    split at hfront
    · simp at hfront
    · rename_i reqPath filename version s2 hroute
      have := Handler.lookup_head env p endp r reqPath filename version s2 hmethod
      rw [hfront] at this
      rw [hroute]
      exact this

theorem Proxy.download_state (env : Env) (url : GoString) (s : State) :
    (Proxy.download env url s).2 = s.record (.get url) := by
  unfold Proxy.download
  simp only
  split
  · rfl
  · split <;> rfl

theorem Proxy.fetchHash_frame (env : Env) (url hp : GoString) (s : State) :
    (Proxy.fetchHash env url hp s).2.sem = s.sem ∧
      (Proxy.fetchHash env url hp s).2.log = s.log ++ [.get url] := by
  have hd := Proxy.download_state env url s
  unfold Proxy.fetchHash
  split
  · rename_i e s1 h
    rw [h] at hd
    simp only at hd
    subst hd
    exact ⟨rfl, rfl⟩
  · rename_i resp s1 h
    rw [h] at hd
    simp only at hd
    subst hd
    split
    · exact ⟨rfl, rfl⟩
    · split
      · exact ⟨rfl, rfl⟩
      · simp only
        split
        · exact ⟨rfl, rfl⟩
        · split <;> exact ⟨rfl, rfl⟩

theorem Proxy.fetchFile_frame (env : Env) (url fp : GoString) (s : State) :
    (Proxy.fetchFile env url fp s).2.sem = s.sem ∧
      (Proxy.fetchFile env url fp s).2.log = s.log ++ [.get url] := by
  have hd := Proxy.download_state env url s
  unfold Proxy.fetchFile
  split
  · rename_i e s1 h
    rw [h] at hd
    simp only at hd
    subst hd
    exact ⟨rfl, rfl⟩
  · rename_i resp s1 h
    rw [h] at hd
    simp only at hd
    subst hd
    split <;> exact ⟨rfl, rfl⟩

theorem Proxy.fetchFileOpen_frame (env : Env) (url fp : GoString) (s : State) :
    (Proxy.fetchFileOpen env url fp s).2.sem = s.sem ∧
      (Proxy.fetchFileOpen env url fp s).2.log = s.log ++ [.get url] := by
  have hd := Proxy.download_state env url s
  unfold Proxy.fetchFileOpen
  split
  · rename_i e s1 h
    rw [h] at hd
    simp only at hd
    subst hd
    exact ⟨rfl, rfl⟩
  · rename_i resp s1 h
    rw [h] at hd
    simp only at hd
    subst hd
    split
    · exact ⟨rfl, rfl⟩
    · split
      · exact ⟨rfl, rfl⟩
      · split <;> exact ⟨rfl, rfl⟩

theorem Proxy.fetchFileCopy_frame (env : Env) (fp : GoString) (resp : Upstream) (s : State) :
    (Proxy.fetchFileCopy env fp resp s).2.sem = s.sem ∧
      (Proxy.fetchFileCopy env fp resp s).2.log = s.log := by
  unfold Proxy.fetchFileCopy
  split <;> exact ⟨rfl, rfl⟩

/-- The two parts of `fetchFile` one after the other are `fetchFile`. -/
theorem Proxy.fetchFile_eq (env : Env) (url fp : GoString) (s : State) :
    Proxy.fetchFile env url fp s =
      match Proxy.fetchFileOpen env url fp s with
      | (.error e, s1) => (some e, s1)
      | (.ok resp, s1) => Proxy.fetchFileCopy env fp resp s1 := by
  unfold Proxy.fetchFile Proxy.fetchFileOpen
  cases hdl : Proxy.download env url s with
  | mk res s1 =>
    cases res with
    | error e => rfl
    | ok resp =>
      simp only
      cases hmk : os.MkdirAll env s1.fs (path.Dir fp) with
      | error e => rfl
      | ok fs2 =>
        simp only [writeToFile]
        cases hmk2 : os.MkdirAll env fs2 (path.Dir fp) with
        | error e => rfl
        | ok fs3 =>
          simp only
          cases hop : os.OpenFile env fs3 fp with
          | error e => rfl
          | ok fs4 =>
            simp only [Proxy.fetchFileCopy, State.withFS]
            cases hw : os.Write env fs4 fp resp.Body with
            | mk err fs5 =>
              cases err <;> rfl

theorem fill_frame (env : Env) (endp : Endpoint) (filename version fp hp : GoString) (s : State) :
    (fill env endp filename version fp hp s).2.sem = s.sem := by
  unfold fill
  simp only
  split
  · rfl
  · rename_i url hurl
    have h1 := (Proxy.fetchHash_frame env url hp (s.record (.HashFileURL filename version))).1
    split
    · rename_i e s2 hfh
      rw [hfh] at h1
      exact h1
    · rename_i s2 hfh
      rw [hfh] at h1
      split
      · exact h1
      · rename_i url2 hurl2
        rw [(Proxy.fetchFile_frame env url2 fp (s2.record (.FileURL filename version))).1]
        exact h1

theorem Handler.serve_frame (env : Env) (r : Request) (fp hp hash : GoString) (ex hfe : Bool)
    (s : State) :
    (Handler.serve env r fp hp ex hfe hash s).2.sem = s.sem ∧
      (Handler.serve env r fp hp ex hfe hash s).2.log = s.log := by
  unfold Handler.serve
  simp only
  split
  · exact ⟨rfl, rfl⟩
  · split
    · split
      · split <;> exact ⟨rfl, rfl⟩
      · exact ⟨rfl, rfl⟩
    · split
      · split
        · exact ⟨rfl, rfl⟩
        · split <;> exact ⟨rfl, rfl⟩
      · exact ⟨rfl, rfl⟩

theorem Handler.back_frame (env : Env) (r : Request) (fp hp : GoString) (ex : Bool) (s : State) :
    (Handler.back env r fp hp ex s).2.sem = s.sem ∧
      (Handler.back env r fp hp ex s).2.log = s.log := by
  unfold Handler.back
  split
  · exact ⟨rfl, rfl⟩
  · exact Handler.serve_frame env r fp hp _ ex _ s

theorem Semaphore.not_mem_Release (m : List GoString) (key : GoString) :
    key ∉ Semaphore.Release m key := by
  simp [Semaphore.Release]

theorem Semaphore.mem_Release (m : List GoString) (key k : GoString) (hne : k ≠ key) :
    k ∈ Semaphore.Release m key ↔ k ∈ m := by
  simp [Semaphore.Release, hne]

theorem Semaphore.mem_add (m : List GoString) (key k : GoString) (hne : k ≠ key) :
    k ∈ Semaphore.add m key ↔ k ∈ m := by
  unfold Semaphore.add
  split
  · rfl
  · simp [hne]

/-! ## Lemmas on the semaphore in the handler, and on response headers -/

theorem download_some (env : Env) (endp : Endpoint) (reqPath filename version fp hp : GoString)
    (s : State) (res : Option Error) (s1 : State)
    (h : download env endp reqPath filename version fp hp s = some (res, s1)) :
    reqPath ∉ s.sem ∧ s1.sem = Semaphore.Release (reqPath :: s.sem) reqPath := by
  unfold download Semaphore.Acquire at h
  by_cases hk : reqPath ∈ s.sem
  · simp [hk] at h
  · simp only [hk, not_false_eq_true, if_true, Option.some.injEq, Prod.mk.injEq] at h
    refine ⟨hk, ?_⟩
    rw [← h.2]
    simp only
    rw [fill_frame]

theorem download_free (env : Env) (endp : Endpoint) (reqPath filename version fp hp : GoString)
    (s : State) (hfree : reqPath ∉ s.sem) :
    ∃ res s1, download env endp reqPath filename version fp hp s = some (res, s1) := by
  unfold download Semaphore.Acquire
  simp only [hfree, not_false_eq_true, if_true]
  exact ⟨_, _, rfl⟩

theorem Handler.lookup_sem (env : Env) (p : Proxy) (endp : Endpoint) (r : Request)
    (reqPath filename version : GoString) (s : State) (hfree : reqPath ∉ s.sem) :
    (Handler.lookup env p endp r reqPath filename version s).2.sem = s.sem ∧
      (Handler.lookup env p endp r reqPath filename version s).1 ≠ .done .blocked := by
  unfold Handler.lookup
  simp only
  split
  · exact ⟨rfl, by simp [httpErrorWriter_ne_blocked]⟩
  · split
    · obtain ⟨res, s1, hd⟩ := download_free env endp reqPath filename version
        (p.filePath filename version) (p.filePath filename version ++ hashFileSuffix) s hfree
      obtain ⟨-, hsem⟩ := download_some env endp reqPath filename version _ _ s res s1 hd
      rw [Semaphore.Release_Acquire s.sem reqPath hfree] at hsem
      rw [hd]
      cases res with
      | none => exact ⟨hsem, by simp⟩
      | some e => exact ⟨hsem, by simp [httpErrorWriter_ne_blocked]⟩
    · exact ⟨rfl, by simp⟩

theorem Handler.route_sem (env : Env) (endp : Endpoint) (r : Request) (s : State) :
    (Handler.route env endp r s).2.sem = s.sem ∧ (Handler.route env endp r s).1 ≠ .done .blocked := by
  constructor
  · rcases Handler.route_state env endp r s with h | h
    · rw [h]
    · rw [h]; rfl
  · unfold Handler.route
    simp only
    split
    · simp
    · split
      · simp
      · split
        · split
          · split <;> simp [httpErrorWriter_ne_blocked]
          · split <;> simp
        · simp

theorem Handler.serve_not_blocked (env : Env) (r : Request) (fp hp hash : GoString) (ex hfe : Bool)
    (s : State) : (Handler.serve env r fp hp ex hfe hash s).1 ≠ .blocked := by
  unfold Handler.serve
  simp only
  split
  · simp
  · split
    · split
      · split <;> simp
      · simp
    · split
      · split
        · simp
        · split <;> simp
      · simp

theorem Handler.back_not_blocked (env : Env) (r : Request) (fp hp : GoString) (ex : Bool)
    (s : State) : (Handler.back env r fp hp ex s).1 ≠ .blocked := by
  unfold Handler.back
  split
  · dsimp only
    exact httpErrorWriter_ne_blocked _ _ _
  · exact Handler.serve_not_blocked env r fp hp _ ex _ s

theorem Handler.sem_empty (env : Env) (p : Proxy) (endp : Endpoint) (r : Request) (s : State)
    (hempty : s.sem = []) :
    (Handler env p endp r s).2.sem = [] ∧ (Handler env p endp r s).1 ≠ .blocked := by
  obtain ⟨hrs, hrb⟩ := Handler.route_sem env endp r s
  unfold Handler Handler.front
  cases hroute : Handler.route env endp r s with
  | mk rt s0 =>
    rw [hroute] at hrs hrb
    simp only at hrs hrb
    have hs0 : s0.sem = [] := by rw [hrs, hempty]
    cases rt with
    | done out =>
      simp only
      exact ⟨hs0, fun h => hrb (by rw [h])⟩
    | slot reqPath filename version =>
      simp only
      obtain ⟨hls, hlb⟩ := Handler.lookup_sem env p endp r reqPath filename version s0
        (by rw [hs0]; simp)
      cases hlookup : Handler.lookup env p endp r reqPath filename version s0 with
      | mk st s1 =>
        rw [hlookup] at hls hlb
        simp only at hls hlb
        cases st with
        | done out =>
          simp only
          exact ⟨by rw [hls, hs0], fun h => hlb (by rw [h])⟩
        | check fp hp ex =>
          simp only
          exact ⟨by rw [(Handler.back_frame env r fp hp ex s1).1, hls, hs0],
            Handler.back_not_blocked env r fp hp ex s1⟩

theorem httpErrorWriter_header (env : Env) (w w2 : ResponseWriter) (err : Option Error)
    (h : httpErrorWriter env w err = .returned w2) :
    w2.header = w.header.del "Content-Length".toList := by
  obtain ⟨msg, code, hw, -⟩ := httpErrorWriter_returned env w w2 err h
  rw [hw]
  rfl

theorem sendFile_header_of_ne (env : Env) (fs : FS) (w : ResponseWriter) (file key : GoString)
    (hne : "Content-Length".toList ≠ key) :
    (sendFile env fs w file).header.get key = w.header.get key := by
  unfold sendFile
  split
  · rfl
  · split
    · simp only [ResponseWriter.call, ResponseWriter.Del, ResponseWriter.copy_header,
        ResponseWriter.Set]
      rw [Map.get_del_of_ne _ _ _ hne]
      exact Map.get_set_of_ne _ _ _ _ hne
    · simp only [ResponseWriter.copy_header, ResponseWriter.Set]
      exact Map.get_set_of_ne _ _ _ _ hne

/-- Without an expected digest the handler sets no `ETag`. -/
theorem Handler.serve_etag_none (env : Env) (r : Request) (fp hp : GoString) (ex hfe : Bool)
    (s s2 : State) (w : ResponseWriter)
    (h : Handler.serve env r fp hp ex hfe [] s = (.returned w, s2)) :
    w.header.get "ETag".toList = none := by
  have hct : ∀ v, ((ResponseWriter.new.Set "Content-Type".toList v).header).get "ETag".toList = none :=
    fun v => by
      simp only [ResponseWriter.Set]
      rw [Map.get_set_of_ne _ _ _ _ (by decide)]
      rfl
  have hcl : ∀ v v2, (((ResponseWriter.new.Set "Content-Length".toList v2).Set
      "Content-Type".toList v).header).get "ETag".toList = none := fun v v2 => by
    simp only [ResponseWriter.Set]
    rw [Map.get_set_of_ne _ _ _ _ (by decide), Map.get_set_of_ne _ _ _ _ (by decide)]
    rfl
  unfold Handler.serve at h
  simp only [List.length_nil, gt_iff_lt, lt_self_iff_false, if_false] at h
  split at h
  · split at h
    · split at h
      · simp at h
      · simp only [Prod.mk.injEq, Outcome.returned.injEq] at h
        rw [← h.1]; exact hcl _ _
    · simp only [Prod.mk.injEq, Outcome.returned.injEq] at h
      rw [← h.1]; exact hct _
  · split at h
    · rename_i hc
      simp at hc
    · simp only [Prod.mk.injEq, Outcome.returned.injEq] at h
      rw [← h.1, sendFile_header_of_ne _ _ _ _ _ (by decide)]; rfl

/-- The `ETag` of every response of the checksum step: the digest read from
the checksum file when it is not empty, and none otherwise. -/
theorem Handler.back_etag_iff (env : Env) (r : Request) (fp hp : GoString) (ex : Bool)
    (s s2 : State) (w : ResponseWriter)
    (h : Handler.back env r fp hp ex s = (.returned w, s2)) :
    w.header.get "ETag".toList =
      match Handler.readHash env s.fs hp with
      | .ok (_, hash) => if hash = [] then none else some hash
      | .error _ => none := by
  cases hrh : Handler.readHash env s.fs hp with
  | error err =>
    simp only
    unfold Handler.back at h
    rw [hrh] at h
    simp only [Prod.mk.injEq] at h
    rw [httpErrorWriter_header env _ w _ h.1]
    rfl
  | ok res =>
    obtain ⟨hfe, hash⟩ := res
    simp only
    by_cases hh : hash = []
    · subst hh
      simp only [if_true]
      unfold Handler.back at h
      rw [hrh] at h
      exact Handler.serve_etag_none env r fp hp ex hfe s s2 w h
    · simp only [hh, if_false]
      exact Handler.back_etag env r fp hp hash ex hfe s s2 w hrh (List.length_pos.mpr hh) h

theorem Handler.readHash_none (env : Env) (fs : FS) (hp : GoString)
    (hstat : env.fault (.Stat hp) = none) (hget : fs.get hp = none) :
    Handler.readHash env fs hp = .ok (false, []) := by
  simp [Handler.readHash, fileIsExist, os.Stat, hstat, hget, Error.IsNotExist]

/-- A request that has reached the checksum step carries what the cache
lookup found: `reqFileIsExist` is true for a GET, and for a HEAD it is the
answer of `fileIsExist` on the state the request leaves behind. -/
theorem Handler.front_check_exist (env : Env) (p : Proxy) (endp : Endpoint) (r : Request)
    (fp hp : GoString) (ex : Bool) (s s1 : State)
    (h : Handler.front env p endp r s = (.check fp hp ex, s1)) :
    (r.Method = MethodGet → ex = true) ∧
      (r.Method = MethodHead → fileIsExist env s1.fs fp = (ex, none)) := by
  unfold Handler.front at h
  split at h
  · simp at h
  · rename_i reqPath filename version s0 hroute
    unfold Handler.lookup at h
    simp only at h
    split at h
    · simp at h
    · rename_i ex0 hex
      split at h
      · rename_i hcond
        split at h
        · simp at h
        · simp at h
        · simp only [Prod.mk.injEq, Stage.check.injEq] at h
          refine ⟨fun _ => h.1.2.2.symm, ?_⟩
          intro hm
          simp [hm, MethodGet_ne_MethodHead.symm] at hcond
      · rename_i hcond
        simp only [Prod.mk.injEq, Stage.check.injEq] at h
        obtain ⟨⟨h1, -, h3⟩, h4⟩ := h
        subst h3 h4
        constructor
        · intro hm
          simp only [hm, decide_True, Bool.and_true, Bool.not_eq_true', Bool.not_eq_false] at hcond
          exact hcond
        · intro _
          rw [← h1]
          exact hex

theorem fileIsExist_true (env : Env) (fs : FS) (file : GoString)
    (h : fileIsExist env fs file = (true, none)) :
    env.fault (.Stat file) = none ∧ ∃ c, fs.get file = some (.file c) := by
  unfold fileIsExist os.Stat at h
  cases hf : env.fault (.Stat file) with
  | some e =>
    rw [hf] at h
    simp only at h
    split at h <;> simp at h
  | none =>
    rw [hf] at h
    simp only at h
    cases hg : fs.get file with
    | none =>
      rw [hg] at h
      simp only at h
      split at h <;> simp at h
    | some node =>
      cases node with
      | dir =>
        rw [hg] at h
        simp [Node.IsDir] at h
      | file c => exact ⟨rfl, c, rfl⟩

theorem fileIsExist_false (env : Env) (fs : FS) (file : GoString)
    (hstat : env.fault (.Stat file) = none)
    (h : fileIsExist env fs file = (false, none)) : fs.get file = none := by
  unfold fileIsExist os.Stat at h
  rw [hstat] at h
  simp only at h
  cases hg : fs.get file with
  | none => rfl
  | some node =>
    rw [hg] at h
    cases node with
    | dir => simp [Node.IsDir] at h
    | file c => simp [Node.IsDir] at h

theorem Handler.of_front_check (env : Env) (p : Proxy) (endp : Endpoint) (r : Request)
    (fp hp : GoString) (ex : Bool) (s s1 : State)
    (h : Handler.front env p endp r s = (.check fp hp ex, s1)) :
    Handler env p endp r s = Handler.back env r fp hp ex s1 := by
  unfold Handler
  rw [h]

/-- Past the cache lookup the handler returns with a response written: the
`Stat` of a HEAD request succeeds on the file that `fileIsExist` has found. -/
theorem Handler.serve_returns (env : Env) (r : Request) (fp hp hash : GoString) (ex hfe : Bool)
    (s : State) (hex : r.Method = MethodHead → fileIsExist env s.fs fp = (ex, none)) :
    ∃ w s2, Handler.serve env r fp hp ex hfe hash s = (.returned w, s2) := by
  unfold Handler.serve
  simp only
  split
  · exact ⟨_, _, rfl⟩
  · split
    · rename_i hm
      split
      · rename_i hc
        simp only [Bool.and_eq_true] at hc
        have hfe2 := hex hm
        rw [hc.2] at hfe2
        obtain ⟨hstat, c, hget⟩ := fileIsExist_true env s.fs fp hfe2
        have : os.Stat env s.fs fp = .ok (.file c) := by simp [os.Stat, hstat, hget]
        rw [this]
        exact ⟨_, _, rfl⟩
      · exact ⟨_, _, rfl⟩
    · split
      · split
        · exact ⟨_, _, rfl⟩
        · split
          · exact ⟨_, _, rfl⟩
          · exact ⟨_, _, rfl⟩
      · exact ⟨_, _, rfl⟩

theorem os.ReadFile_error (env : Env) (fs : FS) (name : GoString) (e : Error)
    (h : os.ReadFile env fs name = .error e) : ∃ op errno, e = .pathError op name errno := by
  unfold os.ReadFile at h
  split at h
  · simp only [Except.error.injEq] at h
    exact ⟨_, _, h.symm⟩
  · split at h
    · simp only [Except.error.injEq] at h
      exact ⟨_, _, h.symm⟩
    · simp only [Except.error.injEq] at h
      exact ⟨_, _, h.symm⟩
    · simp at h

/-- The errors of the checksum read are errors of file operations or
`ErrIsNotRegularFile`: `httpErrorWriter` answers them. -/
theorem Handler.readHash_answered (env : Env) (fs : FS) (hp : GoString) (e : Error)
    (h : Handler.readHash env fs hp = .error e) :
    ∃ msg code, httpErrorWriter env ResponseWriter.new (some e) =
      .returned ⟨[], [.Error msg code]⟩ := by
  unfold Handler.readHash at h
  split at h
  · rename_i b err hfe
    simp only [Except.error.injEq] at h
    rw [← h]
    exact fileIsExist_answered env fs hp b err hfe
  · split at h
    · split at h
      · rename_i err hrf
        simp only [Except.error.injEq] at h
        obtain ⟨op, errno, he⟩ := os.ReadFile_error env fs hp err hrf
        rw [← h, he]
        exact ⟨_, _, httpErrorWriter_pathError env _ _ _⟩
      · simp at h
    · simp at h

theorem Handler.back_returns (env : Env) (r : Request) (fp hp : GoString) (ex : Bool)
    (s : State) (hex : r.Method = MethodHead → fileIsExist env s.fs fp = (ex, none)) :
    ∃ w s2, Handler.back env r fp hp ex s = (.returned w, s2) := by
  unfold Handler.back
  split
  · rename_i err hrh
    obtain ⟨msg, code, hw⟩ := Handler.readHash_answered env s.fs hp err hrh
    rw [hw]
    exact ⟨_, _, rfl⟩
  · exact Handler.serve_returns env r fp hp _ ex _ s hex

/-- The response of a HEAD request in the serve step. -/
theorem Handler.serve_head_response (env : Env) (r : Request) (fp hp hash : GoString)
    (ex hfe : Bool) (s : State) (hmethod : r.Method = MethodHead)
    (hex : fileIsExist env s.fs fp = (ex, none))
    (hval : 0 < hash.length → (validateSha256Hash env s.fs fp hash).2 = none) :
    ∃ w, Handler.serve env r fp hp ex hfe hash s = (.returned w, s) ∧ w.calls = [] ∧
      w.header.get "Content-Type".toList = some "application/octet-stream".toList ∧
      w.header.get "Content-Length".toList =
        (if ((if 0 < hash.length then (validateSha256Hash env s.fs fp hash).1 else true) && ex) = true
          then (s.fs.get fp).map (fun node => Itoa node.Size) else none) ∧
      w.header.get "ETag".toList = (if 0 < hash.length then some hash else none) := by
  unfold Handler.serve
  simp only [gt_iff_lt, hmethod, if_true]
  by_cases hpos : 0 < hash.length
  · have hv := hval hpos
    simp only [hpos, if_true]
    cases hvd : validateSha256Hash env s.fs fp hash with
    | mk valid err =>
      rw [hvd] at hv
      simp only at hv
      subst hv
      simp only
      by_cases hc : (valid && ex) = true
      · simp only [hc, if_true]
        simp only [Bool.and_eq_true] at hc
        rw [hc.2] at hex
        obtain ⟨hstat, c, hget⟩ := fileIsExist_true env s.fs fp hex
        have : os.Stat env s.fs fp = .ok (.file c) := by simp [os.Stat, hstat, hget]
        rw [this, hget]
        refine ⟨_, rfl, rfl, Map.get_set_self _ _ _, ?_, ?_⟩
        · simp only [ResponseWriter.Set]
          rw [Map.get_set_of_ne _ _ _ _ (by decide)]
          exact Map.get_set_self _ _ _
        · simp only [ResponseWriter.Set]
          rw [Map.get_set_of_ne _ _ _ _ (by decide), Map.get_set_of_ne _ _ _ _ (by decide)]
          exact Map.get_set_self _ _ _
      · simp only [hc, if_false]
        refine ⟨_, rfl, rfl, Map.get_set_self _ _ _, ?_, ?_⟩
        · simp only [ResponseWriter.Set]
          rw [Map.get_set_of_ne _ _ _ _ (by decide), Map.get_set_of_ne _ _ _ _ (by decide)]
          rfl
        · simp only [ResponseWriter.Set]
          rw [Map.get_set_of_ne _ _ _ _ (by decide)]
          exact Map.get_set_self _ _ _
  · simp only [hpos, if_false]
    by_cases hc : ex = true
    · subst hc
      simp only [Bool.and_self, if_true]
      obtain ⟨hstat, c, hget⟩ := fileIsExist_true env s.fs fp hex
      have : os.Stat env s.fs fp = .ok (.file c) := by simp [os.Stat, hstat, hget]
      rw [this, hget]
      refine ⟨_, rfl, rfl, Map.get_set_self _ _ _, ?_, ?_⟩
      · simp only [ResponseWriter.Set]
        rw [Map.get_set_of_ne _ _ _ _ (by decide)]
        exact Map.get_set_self _ _ _
      · simp only [ResponseWriter.Set]
        rw [Map.get_set_of_ne _ _ _ _ (by decide), Map.get_set_of_ne _ _ _ _ (by decide)]
        rfl
    · have hc2 : ex = false := by simpa using hc
      subst hc2
      simp only [Bool.and_false, Bool.false_eq_true, if_false]
      refine ⟨_, rfl, rfl, Map.get_set_self _ _ _, ?_, ?_⟩
      · simp only [ResponseWriter.Set]
        rw [Map.get_set_of_ne _ _ _ _ (by decide)]
        rfl
      · simp only [ResponseWriter.Set]
        rw [Map.get_set_of_ne _ _ _ _ (by decide)]
        rfl

theorem httpErrorWriter_calls (env : Env) (err : Option Error) (w : ResponseWriter)
    (h : httpErrorWriter env ResponseWriter.new err = .returned w) :
    ∃ msg code, w = ⟨[], [.Error msg code]⟩ ∧ 100 ≤ code ∧ code ≤ 999 := by
  obtain ⟨msg, code, hw, hlo, hhi⟩ := httpErrorWriter_returned env _ w err h
  exact ⟨msg, code, by rw [hw]; rfl, hlo, hhi⟩

theorem countFileURL_append (l1 l2 : List Event) :
    countFileURL (l1 ++ l2) = countFileURL l1 + countFileURL l2 := by
  simp [countFileURL, List.countP_append]

theorem countHashFileURL_append (l1 l2 : List Event) :
    countHashFileURL (l1 ++ l2) = countHashFileURL l1 + countHashFileURL l2 := by
  simp [countHashFileURL, List.countP_append]

theorem fill_refines (env : Env) (endp : Endpoint) (filename version fp hp : GoString)
    (s : State) :
    (fill env endp filename version fp hp s).1 = (fillSpec env endp filename version fp hp s).1 ∧
    (fill env endp filename version fp hp s).2.log =
      s.log ++ (fillSpec env endp filename version fp hp s).2 := by
  unfold fill fillSpec
  simp only
  cases hH : endp.HashFileURL filename version with
  | error e => exact ⟨rfl, rfl⟩
  | ok hurl =>
    simp only
    have hfr := (Proxy.fetchHash_frame env hurl hp (s.record (.HashFileURL filename version))).2
    cases hfh : Proxy.fetchHash env hurl hp (s.record (.HashFileURL filename version)) with
    | mk res s2 =>
      rw [hfh] at hfr
      simp only at hfr
      cases res with
      | some e =>
        simp only
        rw [hfr]
        simp [State.record]
      | none =>
        simp only
        cases hF : endp.FileURL filename version with
        | error e =>
          simp only [State.record]
          rw [hfr]
          simp [State.record]
        | ok furl =>
          simp only
          rw [(Proxy.fetchFile_frame env furl fp _).2]
          simp only [State.record]
          rw [hfr]
          simp [State.record]

theorem fillSpec_counts (env : Env) (endp : Endpoint) (filename version fp hp : GoString)
    (s : State) :
    countHashFileURL (fillSpec env endp filename version fp hp s).2 = 1 ∧
      countFileURL (fillSpec env endp filename version fp hp s).2 ≤ 1 := by
  unfold fillSpec
  split
  · exact ⟨rfl, by simp [countFileURL]⟩
  · split
    · exact ⟨rfl, by simp [countFileURL]⟩
    · split
      · exact ⟨rfl, by simp [countFileURL]⟩
      · exact ⟨rfl, by simp [countFileURL]⟩

/-- A GET request routed to a slot whose payload file is missing and whose
key is free: the handler runs the fill between `Acquire` and `Release`, and
ends with the error of the fill, or goes on to the checksum step. -/
theorem Handler.miss_eq (env : Env) (p : Proxy) (endp : Endpoint) (r : Request)
    (s s0 : State) (reqPath filename version : GoString)
    (hmethod : r.Method = MethodGet)
    (hroute : Handler.route env endp r s = (.slot reqPath filename version, s0))
    (hmiss : fileIsExist env s.fs (p.filePath filename version) = (false, none))
    (hfree : reqPath ∉ s.sem) :
    Handler env p endp r s =
      match (fill env endp filename version (p.filePath filename version)
          (p.filePath filename version ++ hashFileSuffix)
          ⟨s.fs, reqPath :: s.sem, s.log ++ [.Acquire reqPath]⟩) with
      | (some e, s2) =>
        (httpErrorWriter env ResponseWriter.new (some e),
          ⟨s2.fs, s.sem, s2.log ++ [.Release reqPath]⟩)
      | (none, s2) =>
        Handler.back env r (p.filePath filename version)
          (p.filePath filename version ++ hashFileSuffix) true
          ⟨s2.fs, s.sem, s2.log ++ [.Release reqPath]⟩ := by
  obtain ⟨hs0, -⟩ := Handler.route_slot env endp r s s0 reqPath filename version hroute
  subst hs0
  have hsem := fill_frame env endp filename version (p.filePath filename version)
    (p.filePath filename version ++ hashFileSuffix)
    ⟨s0.fs, reqPath :: s0.sem, s0.log ++ [.Acquire reqPath]⟩
  unfold Handler Handler.front
  rw [hroute]
  simp only
  unfold Handler.lookup
  simp only [hmiss, hmethod, Bool.not_false, decide_True, Bool.and_self, if_true]
  unfold download
  simp only [Semaphore.Acquire, hfree, not_false_eq_true, if_true]
  cases hf : fill env endp filename version (p.filePath filename version)
    (p.filePath filename version ++ hashFileSuffix)
    ⟨s0.fs, reqPath :: s0.sem, s0.log ++ [.Acquire reqPath]⟩ with
  | mk res s2 =>
    rw [hf] at hsem
    simp only at hsem
    cases res with
    | some e =>
      simp only
      rw [hsem, Semaphore.Release_Acquire s0.sem reqPath hfree]
    | none =>
      simp only
      rw [hsem, Semaphore.Release_Acquire s0.sem reqPath hfree]

/-! ## Lemmas on concurrent requests: the calls a request can still make -/

theorem sum_map_set {α : Type} (f : α → Nat) (l : List α) (i : Nat) (a b : α)
    (h : l[i]? = some a) :
    ((l.set i b).map f).sum + f a = (l.map f).sum + f b := by
  induction l generalizing i with
  | nil => simp at h
  | cons x rest ih =>
    cases i with
    | zero =>
      simp only [List.getElem?_cons_zero, Option.some.injEq] at h
      subst h
      simp only [List.set_cons_zero, List.map_cons, List.sum_cons]
      omega
    | succ j =>
      simp only [List.getElem?_cons_succ] at h
      have := ih j h
      simp only [List.set_cons_succ, List.map_cons, List.sum_cons]
      omega

theorem Thread.step_budgetHashFileURL (env : Env) (p : Proxy) (endp : Endpoint) (r : Request)
    (pc : Thread.Pc) (s : State) :
    countHashFileURL (Thread.step env p endp r pc s).2.log +
        (Thread.step env p endp r pc s).1.budgetHashFileURL ≤
      countHashFileURL s.log + pc.budgetHashFileURL := by
  cases pc with
  | route =>
    unfold Thread.step
    simp only
    split
    · rename_i out s1 h
      have h2 : s1 = (Handler.route env endp r s).2 := by rw [h]
      rcases Handler.route_state env endp r s with h3 | h3
      · rw [h2, h3]
        simp [Thread.Pc.budgetHashFileURL]
      · rw [h2, h3]
        simp [Thread.Pc.budgetHashFileURL, State.record, countHashFileURL_append, countHashFileURL]
    · rename_i reqPath filename version s1 h
      obtain ⟨h2, -⟩ := Handler.route_slot env endp r s s1 reqPath filename version h
      rw [h2]
      simp [Thread.Pc.budgetHashFileURL]
  | lookup k =>
    unfold Thread.step
    simp only
    split
    · simp [Thread.Pc.budgetHashFileURL]
    · split <;> simp [Thread.Pc.budgetHashFileURL]
  | acquire k =>
    unfold Thread.step
    simp only
    split <;> simp [Thread.Pc.budgetHashFileURL]
  | add k =>
    simp [Thread.step, Thread.Pc.budgetHashFileURL, countHashFileURL_append, countHashFileURL]
  | poll k =>
    unfold Thread.step
    simp only
    split
    · simp [Thread.Pc.budgetHashFileURL]
    · simp [Thread.Pc.budgetHashFileURL, countHashFileURL_append, countHashFileURL]
  | hashFileURL k =>
    unfold Thread.step
    simp only
    split <;>
      simp [Thread.Pc.budgetHashFileURL, State.record, countHashFileURL_append, countHashFileURL]
  | fetchHash k url =>
    unfold Thread.step
    simp only
    have hfr := (Proxy.fetchHash_frame env url
      (p.filePath k.filename k.version ++ hashFileSuffix) s).2
    split
    · rename_i e s1 h
      rw [h] at hfr
      simp only at hfr
      simp [hfr, Thread.Pc.budgetHashFileURL, countHashFileURL_append, countHashFileURL]
    · rename_i s1 h
      rw [h] at hfr
      simp only at hfr
      simp [hfr, Thread.Pc.budgetHashFileURL, countHashFileURL_append, countHashFileURL]
  | fileURL k =>
    unfold Thread.step
    simp only
    split <;>
      simp [Thread.Pc.budgetHashFileURL, State.record, countHashFileURL_append, countHashFileURL]
  | fetchFile k url =>
    unfold Thread.step
    simp only
    have hfr := (Proxy.fetchFileOpen_frame env url (p.filePath k.filename k.version) s).2
    split
    · rename_i e s1 h
      rw [h] at hfr
      simp only at hfr
      simp [hfr, Thread.Pc.budgetHashFileURL, countHashFileURL_append, countHashFileURL]
    · rename_i resp s1 h
      rw [h] at hfr
      simp only at hfr
      simp [hfr, Thread.Pc.budgetHashFileURL, countHashFileURL_append, countHashFileURL]
  | copy k resp =>
    unfold Thread.step
    simp only
    rw [(Proxy.fetchFileCopy_frame env (p.filePath k.filename k.version) resp s).2]
    simp [Thread.Pc.budgetHashFileURL]
  | release k err =>
    unfold Thread.step
    simp only
    split <;> simp [Thread.Pc.budgetHashFileURL, countHashFileURL_append, countHashFileURL]
  | check k ex =>
    unfold Thread.step
    simp only
    rw [(Handler.back_frame env r _ _ ex s).2]
    simp [Thread.Pc.budgetHashFileURL]
  | done out =>
    simp [Thread.step]

theorem Thread.step_budgetFileURL (env : Env) (p : Proxy) (endp : Endpoint) (r : Request)
    (pc : Thread.Pc) (s : State) :
    countFileURL (Thread.step env p endp r pc s).2.log +
        (Thread.step env p endp r pc s).1.budgetFileURL ≤
      countFileURL s.log + pc.budgetFileURL := by
  cases pc with
  | route =>
    unfold Thread.step
    simp only
    split
    · rename_i out s1 h
      have h2 : s1 = (Handler.route env endp r s).2 := by rw [h]
      rcases Handler.route_state env endp r s with h3 | h3
      · rw [h2, h3]
        simp [Thread.Pc.budgetFileURL]
      · rw [h2, h3]
        simp [Thread.Pc.budgetFileURL, State.record, countFileURL_append, countFileURL]
    · rename_i reqPath filename version s1 h
      obtain ⟨h2, -⟩ := Handler.route_slot env endp r s s1 reqPath filename version h
      rw [h2]
      simp [Thread.Pc.budgetFileURL]
  | lookup k =>
    unfold Thread.step
    simp only
    split
    · simp [Thread.Pc.budgetFileURL]
    · split <;> simp [Thread.Pc.budgetFileURL]
  | acquire k =>
    unfold Thread.step
    simp only
    split <;> simp [Thread.Pc.budgetFileURL]
  | add k =>
    simp [Thread.step, Thread.Pc.budgetFileURL, countFileURL_append, countFileURL]
  | poll k =>
    unfold Thread.step
    simp only
    split
    · simp [Thread.Pc.budgetFileURL]
    · simp [Thread.Pc.budgetFileURL, countFileURL_append, countFileURL]
  | hashFileURL k =>
    unfold Thread.step
    simp only
    split <;>
      simp [Thread.Pc.budgetFileURL, State.record, countFileURL_append, countFileURL]
  | fetchHash k url =>
    unfold Thread.step
    simp only
    have hfr := (Proxy.fetchHash_frame env url
      (p.filePath k.filename k.version ++ hashFileSuffix) s).2
    split
    · rename_i e s1 h
      rw [h] at hfr
      simp only at hfr
      simp [hfr, Thread.Pc.budgetFileURL, countFileURL_append, countFileURL]
    · rename_i s1 h
      rw [h] at hfr
      simp only at hfr
      simp [hfr, Thread.Pc.budgetFileURL, countFileURL_append, countFileURL]
  | fileURL k =>
    unfold Thread.step
    simp only
    split <;>
      simp [Thread.Pc.budgetFileURL, State.record, countFileURL_append, countFileURL]
  | fetchFile k url =>
    unfold Thread.step
    simp only
    have hfr := (Proxy.fetchFileOpen_frame env url (p.filePath k.filename k.version) s).2
    split
    · rename_i e s1 h
      rw [h] at hfr
      simp only at hfr
      simp [hfr, Thread.Pc.budgetFileURL, countFileURL_append, countFileURL]
    · rename_i resp s1 h
      rw [h] at hfr
      simp only at hfr
      simp [hfr, Thread.Pc.budgetFileURL, countFileURL_append, countFileURL]
  | copy k resp =>
    unfold Thread.step
    simp only
    rw [(Proxy.fetchFileCopy_frame env (p.filePath k.filename k.version) resp s).2]
    simp [Thread.Pc.budgetFileURL]
  | release k err =>
    unfold Thread.step
    simp only
    split <;> simp [Thread.Pc.budgetFileURL, countFileURL_append, countFileURL]
  | check k ex =>
    unfold Thread.step
    simp only
    rw [(Handler.back_frame env r _ _ ex s).2]
    simp [Thread.Pc.budgetFileURL]
  | done out =>
    simp [Thread.step]

theorem System.step_budget (env : Env) (p : Proxy) (endp : Endpoint) (sys : System) (i : Nat) :
    countHashFileURL (System.step env p endp sys i).shared.log +
        (System.step env p endp sys i).budgetHashFileURL ≤
      countHashFileURL sys.shared.log + sys.budgetHashFileURL ∧
    countFileURL (System.step env p endp sys i).shared.log +
        (System.step env p endp sys i).budgetFileURL ≤
      countFileURL sys.shared.log + sys.budgetFileURL := by
  unfold System.step
  cases h : sys.threads[i]? with
  | none => simp
  | some t =>
    simp only [System.budgetHashFileURL, System.budgetFileURL]
    have h1 := sum_map_set (fun t : Thread => t.pc.budgetHashFileURL) sys.threads i t
      ⟨t.r, (Thread.step env p endp t.r t.pc sys.shared).1⟩ h
    have h2 := sum_map_set (fun t : Thread => t.pc.budgetFileURL) sys.threads i t
      ⟨t.r, (Thread.step env p endp t.r t.pc sys.shared).1⟩ h
    have h3 := Thread.step_budgetHashFileURL env p endp t.r t.pc sys.shared
    have h4 := Thread.step_budgetFileURL env p endp t.r t.pc sys.shared
    simp only at h1 h2
    constructor <;> omega

theorem System.run_budget (env : Env) (p : Proxy) (endp : Endpoint) (schedule : List Nat)
    (sys : System) :
    countHashFileURL (System.run env p endp sys schedule).shared.log +
        (System.run env p endp sys schedule).budgetHashFileURL ≤
      countHashFileURL sys.shared.log + sys.budgetHashFileURL ∧
    countFileURL (System.run env p endp sys schedule).shared.log +
        (System.run env p endp sys schedule).budgetFileURL ≤
      countFileURL sys.shared.log + sys.budgetFileURL := by
  induction schedule generalizing sys with
  | nil => simp [System.run]
  | cons i rest ih =>
    have h1 := System.step_budget env p endp sys i
    have h2 := ih (System.step env p endp sys i)
    simp only [System.run, List.foldl_cons] at h2 ⊢
    constructor <;> omega

theorem System.start_budget (s : State) (rs : List Request) :
    (System.start s rs).budgetHashFileURL = rs.length ∧
      (System.start s rs).budgetFileURL = rs.length := by
  induction rs with
  | nil => exact ⟨rfl, rfl⟩
  | cons r rest ih =>
    simp only [System.start, System.budgetHashFileURL, System.budgetFileURL, List.map_cons,
      List.sum_cons, List.length_cons, Thread.Pc.budgetHashFileURL, Thread.Pc.budgetFileURL] at ih ⊢
    constructor <;> omega

/-! ## Lemmas on concurrent requests: one request alone is the sequential handler -/

theorem System.run_alone_succ (env : Env) (p : Proxy) (endp : Endpoint) (r : Request)
    (pc : Thread.Pc) (s : State) (n : Nat) :
    System.run env p endp ⟨s, [⟨r, pc⟩]⟩ (List.replicate (n + 1) 0) =
      System.run env p endp
        ⟨(Thread.step env p endp r pc s).2, [⟨r, (Thread.step env p endp r pc s).1⟩]⟩
        (List.replicate n 0) := by
  simp [System.run, List.replicate_succ, System.step]

theorem System.run_alone_done (env : Env) (p : Proxy) (endp : Endpoint) (r : Request)
    (out : Outcome) (s : State) (n : Nat) :
    System.run env p endp ⟨s, [⟨r, .done out⟩]⟩ (List.replicate n 0) =
      ⟨s, [⟨r, .done out⟩]⟩ := by
  induction n with
  | zero => rfl
  | succ n ih =>
    rw [System.run_alone_succ]
    simpa [Thread.step] using ih

theorem System.run_alone_check (env : Env) (p : Proxy) (endp : Endpoint) (r : Request)
    (k : Slot) (ex : Bool) (s : State) (n : Nat) :
    System.run env p endp ⟨s, [⟨r, .check k ex⟩]⟩ (List.replicate (n + 1) 0) =
      ⟨(Handler.back env r (p.filePath k.filename k.version)
          (p.filePath k.filename k.version ++ hashFileSuffix) ex s).2,
        [⟨r, .done (Handler.back env r (p.filePath k.filename k.version)
          (p.filePath k.filename k.version ++ hashFileSuffix) ex s).1⟩]⟩ := by
  rw [System.run_alone_succ]
  simp only [Thread.step]
  exact System.run_alone_done env p endp r _ _ n

/-- A request alone, from the deferred `Release` on. -/
theorem System.run_alone_release (env : Env) (p : Proxy) (endp : Endpoint) (r : Request)
    (k : Slot) (err : Option Error) (s : State) (n : Nat) :
    System.run env p endp ⟨s, [⟨r, .release k err⟩]⟩ (List.replicate (n + 2) 0) =
      match err with
      | some e =>
        ⟨⟨s.fs, Semaphore.Release s.sem k.reqPath, s.log ++ [.Release k.reqPath]⟩,
          [⟨r, .done (httpErrorWriter env ResponseWriter.new (some e))⟩]⟩
      | none =>
        ⟨(Handler.back env r (p.filePath k.filename k.version)
            (p.filePath k.filename k.version ++ hashFileSuffix) true
            ⟨s.fs, Semaphore.Release s.sem k.reqPath, s.log ++ [.Release k.reqPath]⟩).2,
          [⟨r, .done (Handler.back env r (p.filePath k.filename k.version)
            (p.filePath k.filename k.version ++ hashFileSuffix) true
            ⟨s.fs, Semaphore.Release s.sem k.reqPath, s.log ++ [.Release k.reqPath]⟩).1⟩]⟩ := by
  rw [System.run_alone_succ]
  cases err with
  | some e =>
    simp only [Thread.step]
    exact System.run_alone_done env p endp r _ _ (n + 1)
  | none =>
    simp only [Thread.step]
    exact System.run_alone_check env p endp r k true _ n

theorem System.run_alone_release_two (env : Env) (p : Proxy) (endp : Endpoint) (r : Request)
    (k : Slot) (err : Option Error) (s : State) (n : Nat) :
    System.run env p endp ⟨s, [⟨r, .release k err⟩]⟩ (List.replicate (n + 2) 0) =
      System.run env p endp ⟨s, [⟨r, .release k err⟩]⟩ (List.replicate 2 0) := by
  rw [System.run_alone_release env p endp r k err s n,
    System.run_alone_release env p endp r k err s 0]

/-- A request alone, from the call of `HashFileURL` to the deferred
`Release`: the steps of the fill are those of `fill`. -/
theorem System.run_alone_fill (env : Env) (p : Proxy) (endp : Endpoint) (r : Request)
    (k : Slot) (s : State) (n : Nat) :
    System.run env p endp ⟨s, [⟨r, .hashFileURL k⟩]⟩ (List.replicate (n + 7) 0) =
      System.run env p endp
        ⟨(fill env endp k.filename k.version (p.filePath k.filename k.version)
            (p.filePath k.filename k.version ++ hashFileSuffix) s).2,
          [⟨r, .release k (fill env endp k.filename k.version (p.filePath k.filename k.version)
            (p.filePath k.filename k.version ++ hashFileSuffix) s).1⟩]⟩
        (List.replicate 2 0) := by
  rw [System.run_alone_succ]
  unfold fill
  simp only [Thread.step]
  cases hH : endp.HashFileURL k.filename k.version with
  | error e =>
    simp only
    exact System.run_alone_release_two env p endp r k _ _ (n + 4)
  | ok hurl =>
    simp only
    rw [System.run_alone_succ]
    simp only [Thread.step]
    cases hfh : Proxy.fetchHash env hurl (p.filePath k.filename k.version ++ hashFileSuffix)
        (s.record (.HashFileURL k.filename k.version)) with
    | mk res s2 =>
      cases res with
      | some e =>
        simp only
        exact System.run_alone_release_two env p endp r k _ _ (n + 3)
      | none =>
        simp only
        rw [System.run_alone_succ]
        simp only [Thread.step]
        cases hF : endp.FileURL k.filename k.version with
        | error e =>
          simp only
          exact System.run_alone_release_two env p endp r k _ _ (n + 2)
        | ok furl =>
          simp only
          rw [System.run_alone_succ, Proxy.fetchFile_eq]
          simp only [Thread.step]
          cases hfo : Proxy.fetchFileOpen env furl (p.filePath k.filename k.version)
              (s2.record (.FileURL k.filename k.version)) with
          | mk res3 s3 =>
            cases res3 with
            | error e =>
              simp only
              exact System.run_alone_release_two env p endp r k _ _ (n + 1)
            | ok resp =>
              simp only
              rw [System.run_alone_succ]
              simp only [Thread.step]
              exact System.run_alone_release_two env p endp r k _ _ n

/-- A request that runs alone, with its key free, ends as `Handler` does:
the steps of the interleaving model compose to the sequential handler. -/
theorem System.run_alone (env : Env) (p : Proxy) (endp : Endpoint) (r : Request) (s : State)
    (hfree : normalize r.Path ∉ s.sem) (n : Nat) :
    System.run env p endp (System.start s [r]) (List.replicate (n + 11) 0) =
      ⟨(Handler env p endp r s).2, [⟨r, .done (Handler env p endp r s).1⟩]⟩ := by
  unfold System.start
  simp only [List.map_cons, List.map_nil]
  rw [System.run_alone_succ]
  unfold Handler Handler.front
  simp only [Thread.step]
  cases hr : Handler.route env endp r s with
  | mk route s0 =>
    cases route with
    | done out =>
      simp only
      exact System.run_alone_done env p endp r _ _ (n + 10)
    | slot reqPath filename version =>
      obtain ⟨hs0, hreq, -⟩ := Handler.route_slot env endp r s s0 reqPath filename version hr
      subst hs0
      rw [← hreq] at hfree
      simp only
      rw [System.run_alone_succ]
      unfold Handler.lookup
      simp only [Thread.step]
      cases hfe : fileIsExist env s0.fs (p.filePath filename version) with
      | mk ex err =>
        cases err with
        | some e =>
          simp only
          exact System.run_alone_done env p endp r _ _ (n + 9)
        | none =>
          simp only
          by_cases hc : (!ex && decide (r.Method = MethodGet)) = true
          · simp only [hc, if_true]
            rw [System.run_alone_succ]
            simp only [Thread.step, hfree, if_false]
            rw [System.run_alone_succ]
            have hadd : Semaphore.add s0.sem reqPath = reqPath :: s0.sem := by
              simp [Semaphore.add, hfree]
            simp only [Thread.step, hadd]
            rw [System.run_alone_fill env p endp r ⟨reqPath, filename, version⟩ _ n,
              System.run_alone_release env p endp r ⟨reqPath, filename, version⟩ _ _ 0]
            unfold download
            simp only [Semaphore.Acquire, hfree, not_false_eq_true, if_true]
            cases hf : fill env endp filename version (p.filePath filename version)
              (p.filePath filename version ++ hashFileSuffix)
              ⟨s0.fs, reqPath :: s0.sem, s0.log ++ [.Acquire reqPath]⟩ with
            | mk res s2 =>
              cases res with
              | some e => rfl
              | none => rfl
          · simp only [hc, if_false]
            exact System.run_alone_check env p endp r ⟨reqPath, filename, version⟩ ex s0 (n + 8)

/-! ## Lemmas on the resolvers, on upstream errors and on the files a fetch touches -/

theorem os.MkdirAll_get (env : Env) (fs fs2 : FS) (name q : GoString)
    (h : os.MkdirAll env fs name = .ok fs2) (hq : q ≠ name) : fs2.get q = fs.get q := by
  unfold os.MkdirAll at h
  split at h
  · simp at h
  · split at h
    · simp only [Except.ok.injEq] at h
      rw [← h]
      exact Map.get_set_of_ne _ _ _ _ (Ne.symm hq)
    · simp only [Except.ok.injEq] at h
      rw [h]
    · simp at h

theorem os.Write_get (env : Env) (fs : FS) (name data q : GoString) (hq : q ≠ name) :
    (os.Write env fs name data).2.get q = fs.get q := by
  unfold os.Write
  split
  · exact Map.get_set_of_ne _ _ _ _ (Ne.symm hq)
  · exact Map.get_set_of_ne _ _ _ _ (Ne.symm hq)

theorem os.OpenFile_get (env : Env) (fs fs2 : FS) (name q : GoString)
    (h : os.OpenFile env fs name = .ok fs2) (hq : q ≠ name) : fs2.get q = fs.get q := by
  unfold os.OpenFile at h
  split at h
  · simp at h
  · split at h
    · simp at h
    · simp only [Except.ok.injEq] at h
      rw [← h]
      exact Map.get_set_of_ne _ _ _ _ (Ne.symm hq)

theorem os.WriteFile_get (env : Env) (fs : FS) (name data q : GoString) (hq : q ≠ name) :
    (os.WriteFile env fs name data).2.get q = fs.get q := by
  unfold os.WriteFile
  split
  · rfl
  · rename_i fs1 h
    rw [os.Write_get env fs1 name data q hq]
    exact os.OpenFile_get env fs fs1 name q h hq

/-- The checksum fetch touches the checksum file and its directory only. -/
theorem Proxy.fetchHash_get (env : Env) (url hp q : GoString) (s : State)
    (hq : q ≠ hp) (hdir : q ≠ path.Dir hp) :
    (Proxy.fetchHash env url hp s).2.fs.get q = s.fs.get q := by
  unfold Proxy.fetchHash
  have hd := Proxy.download_state env url s
  cases hdl : Proxy.download env url s with
  | mk res s1 =>
    rw [hdl] at hd
    simp only at hd
    subst hd
    cases res with
    | error e => rfl
    | ok resp =>
      simp only
      split
      · rfl
      · split
        · rfl
        · rename_i fs2 hmk
          have h2 : fs2.get q = s.fs.get q := os.MkdirAll_get env _ fs2 _ q hmk hdir
          split
          · simp only [State.withFS]
            rw [os.WriteFile_get env fs2 hp _ q hq]
            exact h2
          · split
            · simp only [State.withFS]
              rw [os.WriteFile_get env fs2 hp _ q hq]
              exact h2
            · exact h2

theorem Github.scan_find (filename : GoString) (assets : List github.ReleaseAsset) :
    Github.scan filename assets =
      match assets.find? (fun asset => decide (asset.Name = filename)) with
      | some asset => .ok asset.BrowserDownloadURL
      | none => .error .ErrFileNotFound := by
  induction assets with
  | nil => rfl
  | cons a rest ih =>
    by_cases h : a.Name = filename
    · simp [Github.scan, List.find?_cons, h]
    · simp only [Github.scan, h, if_false, List.find?_cons, decide_False]
      exact ih

theorem Github.scan_first (filename : GoString) (pre post : List github.ReleaseAsset)
    (a : github.ReleaseAsset) (ha : a.Name = filename) (hpre : ∀ b ∈ pre, b.Name ≠ filename) :
    Github.scan filename (pre ++ a :: post) = .ok a.BrowserDownloadURL := by
  induction pre with
  | nil => simp [Github.scan, ha]
  | cons b rest ih =>
    have hb : b.Name ≠ filename := hpre b (List.mem_cons_self _ _)
    simp only [List.cons_append, Github.scan, hb, if_false]
    exact ih (fun c hc => hpre c (List.mem_cons_of_mem _ hc))

theorem Github.scan_none (filename : GoString) (assets : List github.ReleaseAsset) :
    Github.scan filename assets = .error .ErrFileNotFound ↔ ∀ a ∈ assets, a.Name ≠ filename := by
  induction assets with
  | nil => simp [Github.scan]
  | cons a rest ih =>
    by_cases h : a.Name = filename
    · simp [Github.scan, h]
    · simp only [Github.scan, h, if_false, List.mem_cons, forall_eq_or_imp, ne_eq,
        not_false_eq_true, true_and]
      exact ih

theorem Github.scan_ok (filename url : GoString) (assets : List github.ReleaseAsset)
    (h : Github.scan filename assets = .ok url) :
    ∃ pre a post, assets = pre ++ a :: post ∧ a.Name = filename ∧
      a.BrowserDownloadURL = url ∧ ∀ b ∈ pre, b.Name ≠ filename := by
  induction assets with
  | nil => simp [Github.scan] at h
  | cons a rest ih =>
    by_cases ha : a.Name = filename
    · simp only [Github.scan, ha, if_true, Except.ok.injEq] at h
      exact ⟨[], a, rest, rfl, ha, h, by simp⟩
    · simp only [Github.scan, ha, if_false] at h
      obtain ⟨pre, b, post, h1, h2, h3, h4⟩ := ih h
      refine ⟨a :: pre, b, post, by rw [h1]; rfl, h2, h3, ?_⟩
      intro c hc
      rcases List.mem_cons.mp hc with hc | hc
      · rw [hc]; exact ha
      · exact h4 c hc

theorem Proxy.download_not_ok (env : Env) (url : GoString) (s : State) (resp : Upstream)
    (hget : env.get url = .ok resp) (hstatus : resp.StatusCode ≠ 200) :
    Proxy.download env url s =
      (.error (.httpError resp.StatusCode
        (if resp.Body.length > 0 then resp.Body else env.StatusText resp.StatusCode)),
        s.record (.get url)) := by
  simp [Proxy.download, hget, hstatus]

theorem httpErrorWriter_httpError (env : Env) (w : ResponseWriter) (status : Nat)
    (msg : GoString) :
    httpErrorWriter env w (some (.httpError status msg)) = http.Error w msg status := by
  simp [httpErrorWriter, Error.Is, Error.AsHttpError]

theorem Handler.lookup_dir (env : Env) (p : Proxy) (endp : Endpoint) (r : Request)
    (reqPath filename version : GoString) (s : State)
    (hdir : s.fs.get (p.filePath filename version) = some .dir)
    (hstat : env.fault (.Stat (p.filePath filename version)) = none) :
    Handler.lookup env p endp r reqPath filename version s =
      (.done (.returned ⟨[], [.Error notFoundText 404]⟩), s) := by
  have h : fileIsExist env s.fs (p.filePath filename version) =
      (false, some .ErrIsNotRegularFile) := by
    simp [fileIsExist, os.Stat, hstat, hdir, Node.IsDir]
  unfold Handler.lookup
  simp only [h]
  rfl

/-! ## Lemmas on the elements of a cleaned path -/

/-- The stack of `path.Clean`, in the order of the path: `..` elements
first, and only for a path that is not rooted, then normal elements. -/
theorem path.cleanStep_shape (rooted : Bool) (stack : List GoString) (elem : GoString)
    (he : '/' ∉ elem)
    (h : ∃ normals dd, stack = normals ++ dd ∧ (∀ e ∈ normals, path.Normal e) ∧
      (∀ e ∈ dd, e = ['.', '.']) ∧ (rooted = true → dd = [])) :
    ∃ normals dd, path.cleanStep rooted stack elem = normals ++ dd ∧
      (∀ e ∈ normals, path.Normal e) ∧ (∀ e ∈ dd, e = ['.', '.']) ∧ (rooted = true → dd = []) := by
  obtain ⟨normals, dd, hst, hn, hd, hr⟩ := h
  unfold path.cleanStep
  by_cases h1 : elem = [] ∨ elem = ['.']
  · simp only [h1, if_true]
    exact ⟨normals, dd, hst, hn, hd, hr⟩
  · simp only [h1, if_false]
    by_cases h2 : elem = ['.', '.']
    · simp only [h2, if_true]
      cases normals with
      | nil =>
        simp only [List.nil_append] at hst
        subst hst
        cases stack with
        | nil =>
          cases rooted with
          | true => exact ⟨[], [], by simp, by simp, by simp, by simp⟩
          | false => exact ⟨[], [['.', '.']], by simp, by simp, by simp, by simp⟩
        | cons top below =>
          have htop : top = ['.', '.'] := hd top (List.mem_cons_self _ _)
          subst htop
          simp only [if_true]
          refine ⟨[], ['.', '.'] :: ['.', '.'] :: below, by simp, by simp, ?_, ?_⟩
          · intro e hem
            rcases List.mem_cons.mp hem with hem | hem
            · exact hem
            · exact hd e hem
          · intro hroot
            have := hr hroot
            simp at this
      | cons n ns =>
        subst hst
        have hnn : n ≠ ['.', '.'] := (hn n (List.mem_cons_self _ _)).2.2.1
        simp only [List.cons_append, hnn, if_false]
        exact ⟨ns, dd, rfl, fun e hem => hn e (List.mem_cons_of_mem _ hem), hd, hr⟩
    · simp only [h2, if_false]
      refine ⟨elem :: normals, dd, by rw [hst]; rfl, ?_, hd, hr⟩
      intro e hem
      rcases List.mem_cons.mp hem with hem | hem
      · rw [hem]
        exact ⟨fun h => h1 (Or.inl h), fun h => h1 (Or.inr h), h2, he⟩
      · exact hn e hem

theorem path.foldl_cleanStep_shape (rooted : Bool) (elems stack : List GoString)
    (he : ∀ e ∈ elems, '/' ∉ e)
    (h : ∃ normals dd, stack = normals ++ dd ∧ (∀ e ∈ normals, path.Normal e) ∧
      (∀ e ∈ dd, e = ['.', '.']) ∧ (rooted = true → dd = [])) :
    ∃ normals dd, elems.foldl (path.cleanStep rooted) stack = normals ++ dd ∧
      (∀ e ∈ normals, path.Normal e) ∧ (∀ e ∈ dd, e = ['.', '.']) ∧ (rooted = true → dd = []) := by
  induction elems generalizing stack with
  | nil => exact h
  | cons e rest ih =>
    simp only [List.foldl_cons]
    exact ih _ (fun x hx => he x (List.mem_cons_of_mem _ hx))
      (path.cleanStep_shape rooted stack e (he e (List.mem_cons_self _ _)) h)

/-- The elements `path.Clean` keeps, in the order of the path: `..` elements
first, and only for a path that is not rooted, then normal elements. -/
theorem path.kept_shape (p : GoString) (rooted : Bool) :
    ∃ dd normals, ((strings.Split '/' p).foldl (path.cleanStep rooted) []).reverse = dd ++ normals ∧
      (∀ e ∈ dd, e = ['.', '.']) ∧ (∀ e ∈ normals, path.Normal e) ∧ (rooted = true → dd = []) := by
  obtain ⟨normals, dd, h, hn, hd, hr⟩ := path.foldl_cleanStep_shape rooted (strings.Split '/' p) []
    (strings.Split_not_mem '/' p) ⟨[], [], rfl, by simp, by simp, by simp⟩
  refine ⟨dd.reverse, normals.reverse, by rw [h]; simp, ?_, ?_, ?_⟩
  · intro e hem
    exact hd e (List.mem_reverse.mp hem)
  · intro e hem
    exact hn e (List.mem_reverse.mp hem)
  · intro hroot
    rw [hr hroot]
    rfl

theorem strings.Split_JoinSlash (l : List GoString) (hl : l ≠ []) (hs : path.Segments l) :
    strings.Split '/' (strings.JoinSlash l) = l := by
  induction l with
  | nil => exact absurd rfl hl
  | cons a rest ih =>
    cases rest with
    | nil =>
      simp only [strings.JoinSlash]
      exact strings.Split_of_not_mem '/' a (hs a (List.mem_cons_self _ _)).2
    | cons b rest2 =>
      simp only [strings.JoinSlash]
      rw [strings.Split_append, strings.Split_of_not_mem '/' a (hs a (List.mem_cons_self _ _)).2,
        ih (by simp) (fun e hem => hs e (List.mem_cons_of_mem _ hem))]
      rfl

theorem path.Normal.segment (e : GoString) (h : path.Normal e) : e ≠ [] ∧ '/' ∉ e :=
  ⟨h.1, h.2.2.2⟩

theorem path.foldl_cleanStep_normal (rooted : Bool) (l stack : List GoString)
    (hn : ∀ e ∈ l, path.Normal e) :
    l.foldl (path.cleanStep rooted) stack = l.reverse ++ stack := by
  induction l generalizing stack with
  | nil => rfl
  | cons e rest ih =>
    have he := hn e (List.mem_cons_self _ _)
    have hstep : path.cleanStep rooted stack e = e :: stack := by
      unfold path.cleanStep
      simp [he.1, he.2.1, he.2.2.1]
    simp only [List.foldl_cons, hstep, List.reverse_cons, List.append_assoc, List.singleton_append]
    exact ih _ (fun x hx => hn x (List.mem_cons_of_mem _ hx))

theorem strings.JoinSlash_append (k l : List GoString) (hk : k ≠ []) (hl : l ≠ []) :
    strings.JoinSlash (k ++ l) = strings.JoinSlash k ++ '/' :: strings.JoinSlash l := by
  induction k with
  | nil => exact absurd rfl hk
  | cons a rest ih =>
    cases rest with
    | nil =>
      cases l with
      | nil => exact absurd rfl hl
      | cons b l2 => rfl
    | cons b rest2 =>
      have := ih (by simp)
      show a ++ '/' :: strings.JoinSlash ((b :: rest2) ++ l) = _
      rw [this]
      simp [strings.JoinSlash]

theorem strings.JoinSlash_dotdot_head (rest : List GoString) :
    (strings.JoinSlash (['.', '.'] :: rest)).head? = some '.' := by
  cases rest <;> rfl

theorem path.Segments_of_shape (dd normals : List GoString)
    (hd : ∀ e ∈ dd, e = ['.', '.']) (hn : ∀ e ∈ normals, path.Normal e) :
    path.Segments (dd ++ normals) := by
  intro e hem
  rcases List.mem_append.mp hem with h | h
  · rw [hd e h]
    exact ⟨by simp, by decide⟩
  · exact (hn e h).segment

theorem normalize_rooted (p q : GoString) (h : path.Clean p = '/' :: q) : normalize p = q := by
  unfold normalize
  rw [h]
  rfl

theorem normalize_relative (p rest : GoString) (c : Char) (h : path.Clean p = c :: rest)
    (hc : c ≠ '/') : normalize p = c :: rest := by
  unfold normalize
  rw [h]
  split
  · rename_i heq
    simp only [List.cons.injEq] at heq
    exact absurd heq.1 hc
  · rfl

/-- The elements of a normalized request path that passes the path check of
`Handler` are normal. -/
theorem normalize_split (urlPath : GoString) (hne : normalize urlPath ≠ [])
    (hdot : (normalize urlPath).head? ≠ some '.') :
    ∀ e ∈ strings.Split '/' (normalize urlPath), path.Normal e := by
  obtain ⟨dd, normals, hk, hd, hn, hr⟩ :=
    path.kept_shape urlPath (strings.HasPrefix urlPath ['/'])
  have hseg := path.Segments_of_shape dd normals hd hn
  cases hroot : strings.HasPrefix urlPath ['/'] with
  | true =>
    have hdd := hr hroot
    subst hdd
    rw [hroot] at hk
    simp only [List.nil_append] at hk hseg
    have hC : path.Clean urlPath = '/' :: strings.JoinSlash normals := by
      unfold path.Clean
      simp only [hk, hroot, if_true]
    have hN := normalize_rooted urlPath _ hC
    rw [hN] at hne ⊢
    have hnn : normals ≠ [] := by
      intro h
      rw [h] at hne
      exact hne rfl
    rw [strings.Split_JoinSlash normals hnn hseg]
    exact hn
  | false =>
    rw [hroot] at hk
    by_cases hempty : dd ++ normals = []
    · have hC : path.Clean urlPath = ['.'] := by
        unfold path.Clean
        simp only [hk, hroot, Bool.false_eq_true, if_false, hempty, if_true]
      have hN := normalize_relative urlPath [] '.' hC (by decide)
      rw [hN] at hdot
      exact absurd rfl hdot
    · have hC : path.Clean urlPath = strings.JoinSlash (dd ++ normals) := by
        unfold path.Clean
        simp only [hk, hroot, Bool.false_eq_true, if_false, hempty]
      obtain ⟨c, rest, hj, hc⟩ := strings.JoinSlash_head (dd ++ normals) hempty hseg
      have hN := normalize_relative urlPath rest c (hC.trans hj) hc
      rw [hN, ← hj] at hdot ⊢
      cases dd with
      | nil =>
        simp only [List.nil_append] at hempty hseg ⊢
        rw [strings.Split_JoinSlash normals hempty hseg]
        exact hn
      | cons d rest2 =>
        have hdv : d = ['.', '.'] := hd d (List.mem_cons_self _ _)
        subst hdv
        exact absurd (strings.JoinSlash_dotdot_head _) hdot

theorem Handler.route_slot_gate (env : Env) (endp : Endpoint) (r : Request) (s s0 : State)
    (reqPath filename version : GoString)
    (h : Handler.route env endp r s = (.slot reqPath filename version, s0)) :
    normalize r.Path ≠ [] ∧ (normalize r.Path).head? ≠ some '.' ∧
      strings.HasSuffix (normalize r.Path) hashFileSuffix = false := by
  unfold Handler.route at h
  simp only at h
  split at h
  · simp at h
  · split at h
    · simp at h
    · rename_i hgate
      simp only [not_or] at hgate
      refine ⟨?_, hgate.2.1, by simpa using hgate.2.2⟩
      intro hnil
      exact hgate.1 (by rw [hnil]; rfl)

/-- The segments of a request that reaches the cache lookup are normal. -/
theorem Handler.route_slot_normal (env : Env) (endp : Endpoint) (r : Request) (s s0 : State)
    (reqPath filename version : GoString)
    (h : Handler.route env endp r s = (.slot reqPath filename version, s0)) :
    path.Normal filename ∧ path.Normal version := by
  obtain ⟨hne, hdot, -⟩ := Handler.route_slot_gate env endp r s s0 reqPath filename version h
  obtain ⟨-, hreq, -, -, extra, hsplit⟩ :=
    Handler.route_slot env endp r s s0 reqPath filename version h
  have hall := normalize_split r.Path hne hdot
  rw [← hreq, hsplit] at hall
  exact ⟨hall filename (by simp), hall version (by simp)⟩

theorem strings.HasPrefix_nil (s : GoString) : strings.HasPrefix s [] = true := by
  cases s <;> rfl

theorem strings.HasPrefix_slash_append (a b : GoString) (ha : a ≠ []) :
    strings.HasPrefix (a ++ b) ['/'] = strings.HasPrefix a ['/'] := by
  cases a with
  | nil => exact absurd rfl ha
  | cons c cs =>
    simp [strings.HasPrefix, strings.HasPrefix_nil]

theorem path.Clean_JoinSlash_normal (l : List GoString) (hl : l ≠ [])
    (hn : ∀ e ∈ l, path.Normal e) :
    path.Clean (strings.JoinSlash l) = strings.JoinSlash l := by
  have hseg : path.Segments l := fun e he => (hn e he).segment
  obtain ⟨c, rest, hj, hc⟩ := strings.JoinSlash_head l hl hseg
  have hroot : strings.HasPrefix (strings.JoinSlash l) ['/'] = false := by
    rw [hj]
    simp [strings.HasPrefix, hc]
  unfold path.Clean
  simp only [hroot, Bool.false_eq_true, if_false, strings.Split_JoinSlash l hl hseg,
    path.foldl_cleanStep_normal false l [] hn, List.append_nil, List.reverse_reverse, hl]

theorem strings.JoinSlash_ne_dot (k : List GoString) (hk : k ≠ [])
    (hs : ∀ e ∈ k, e ≠ [] ∧ e ≠ ['.']) : strings.JoinSlash k ≠ ['.'] := by
  cases k with
  | nil => exact absurd rfl hk
  | cons a rest =>
    cases rest with
    | nil => exact (hs a (List.mem_cons_self _ _)).2
    | cons b rest2 =>
      intro h
      have hlen := congrArg List.length h
      have ha : 0 < a.length := List.length_pos.mpr (hs a (List.mem_cons_self _ _)).1
      simp only [strings.JoinSlash, List.length_append, List.length_cons, List.length_nil] at hlen
      omega

/-- A path of normal elements joined below a directory: the cleaned
directory, a slash, and the elements. -/
theorem path.Clean_under (dir : GoString) (hdir : dir ≠ []) (l : List GoString) (hl : l ≠ [])
    (hn : ∀ e ∈ l, path.Normal e) :
    path.Clean (dir ++ '/' :: strings.JoinSlash l) =
      (if path.Clean dir = ['.'] then [] else if path.Clean dir = ['/'] then ['/']
        else path.Clean dir ++ ['/']) ++ strings.JoinSlash l := by
  obtain ⟨dd, normals, hk, hd, hnn, hr⟩ := path.kept_shape dir (strings.HasPrefix dir ['/'])
  have hseg := path.Segments_of_shape dd normals hd hnn
  have hsegl : path.Segments l := fun e he => (hn e he).segment
  have hroot := strings.HasPrefix_slash_append dir ('/' :: strings.JoinSlash l) hdir
  have hfold : ((strings.Split '/' (dir ++ '/' :: strings.JoinSlash l)).foldl
      (path.cleanStep (strings.HasPrefix dir ['/'])) []).reverse = (dd ++ normals) ++ l := by
    rw [strings.Split_append, strings.Split_JoinSlash l hl hsegl, List.foldl_append,
      path.foldl_cleanStep_normal _ l _ hn, List.reverse_append, List.reverse_reverse, hk]
  have hC1 : path.Clean (dir ++ '/' :: strings.JoinSlash l) =
      if strings.HasPrefix dir ['/'] then '/' :: strings.JoinSlash ((dd ++ normals) ++ l)
      else strings.JoinSlash ((dd ++ normals) ++ l) := by
    unfold path.Clean
    simp only [hroot, hfold]
    split
    · rfl
    · have : (dd ++ normals) ++ l ≠ [] := by simp [hl]
      simp only [this, if_false]
  have hC2 : path.Clean dir =
      if strings.HasPrefix dir ['/'] then '/' :: strings.JoinSlash (dd ++ normals)
      else if dd ++ normals = [] then ['.'] else strings.JoinSlash (dd ++ normals) := by
    unfold path.Clean
    simp only [hk]
  rw [hC1, hC2]
  by_cases hempty : dd ++ normals = []
  · rw [hempty]
    cases strings.HasPrefix dir ['/'] with
    | true => simp [strings.JoinSlash]
    | false => simp
  · obtain ⟨c, rest, hj, hc⟩ := strings.JoinSlash_head (dd ++ normals) hempty hseg
    have hnd : strings.JoinSlash (dd ++ normals) ≠ ['.'] := by
      apply strings.JoinSlash_ne_dot _ hempty
      intro e he
      rcases List.mem_append.mp he with h | h
      · rw [hd e h]
        exact ⟨by simp, by decide⟩
      · exact ⟨(hnn e h).1, (hnn e h).2.1⟩
    rw [strings.JoinSlash_append (dd ++ normals) l hempty hl]
    cases strings.HasPrefix dir ['/'] with
    | true =>
      have h1 : ('/' :: strings.JoinSlash (dd ++ normals)) ≠ ['.'] := by simp
      have h2 : ('/' :: strings.JoinSlash (dd ++ normals)) ≠ ['/'] := by
        rw [hj]; simp
      simp only [if_true, h1, h2, if_false]
      simp
    | false =>
      have h2 : strings.JoinSlash (dd ++ normals) ≠ ['/'] := by
        rw [hj]
        intro h
        simp only [List.cons.injEq] at h
        exact hc h.1
      simp only [Bool.false_eq_true, if_false, hempty, hnd, h2]
      simp

/-- The payload path of a slot with normal segments: the cleaned assets
directory, then the version, then the name. -/
theorem Proxy.filePath_inside (p : Proxy) (filename version : GoString)
    (hf : path.Normal filename) (hv : path.Normal version) :
    p.filePath filename version =
      (if path.Clean p.dir = ['.'] then [] else if path.Clean p.dir = ['/'] then ['/']
        else path.Clean p.dir ++ ['/']) ++ version ++ '/' :: filename := by
  have hl : ∀ e ∈ [version, filename], path.Normal e := by
    intro e he
    simp only [List.mem_cons, List.mem_singleton, List.not_mem_nil, or_false] at he
    rcases he with h | h
    · rw [h]; exact hv
    · rw [h]; exact hf
  have hvf : path.Join [version, filename] = version ++ '/' :: filename := by
    rw [path.Join_pair version filename hv.1 hf.1]
    exact path.Clean_JoinSlash_normal [version, filename] (by simp) hl
  have hne : version ++ '/' :: filename ≠ [] := by simp
  unfold Proxy.filePath
  rw [hvf]
  by_cases hdir : p.dir = []
  · rw [hdir, path.Join_pair_nil _ hne]
    have hc : path.Clean [] = ['.'] := by decide
    rw [hc]
    simp only [if_true, List.nil_append]
    exact path.Clean_JoinSlash_normal [version, filename] (by simp) hl
  · rw [path.Join_pair p.dir _ hdir hne]
    have := path.Clean_under p.dir hdir [version, filename] (by simp) hl
    simp only [strings.JoinSlash] at this
    rw [this, List.append_assoc]

theorem Handler.route_many_segments (env : Env) (endp : Endpoint) (r : Request) (s : State)
    (a b c d : GoString) (rest : List GoString)
    (hmethod : r.Method = MethodGet ∨ r.Method = MethodHead)
    (hsplit : strings.Split '/' (normalize r.Path) = a :: b :: c :: d :: rest) :
    Handler.route env endp r s = (.done (.returned (NotFound ResponseWriter.new)), s) := by
  have hm : ¬(r.Method ≠ MethodGet ∧ r.Method ≠ MethodHead) := by
    rintro ⟨h1, h2⟩
    rcases hmethod with h | h
    · exact h1 h
    · exact h2 h
  unfold Handler.route
  simp only [hm, if_false, hsplit]
  split
  · rfl
  · have h1 : ¬((b :: c :: d :: rest).length = 1) := by simp
    have h2 : (b :: c :: d :: rest).length > 2 := by simp
    simp only [h1, if_false, h2, if_true]

theorem Handler.route_same_key (env : Env) (endp : Endpoint) (r1 r2 : Request)
    (s1 s2 t1 t2 : State) (key f1 v1 f2 v2 : GoString)
    (h1 : Handler.route env endp r1 s1 = (.slot key f1 v1, t1))
    (h2 : Handler.route env endp r2 s2 = (.slot key f2 v2, t2)) :
    f1 = f2 ∧ v1 = v2 := by
  obtain ⟨-, -, -, -, e1, hs1⟩ := Handler.route_slot env endp r1 s1 t1 key f1 v1 h1
  obtain ⟨-, -, -, -, e2, hs2⟩ := Handler.route_slot env endp r2 s2 t2 key f2 v2 h2
  rw [hs1] at hs2
  simp only [List.cons.injEq, and_true] at hs2
  exact ⟨hs2.1, hs2.2.1⟩

theorem cmd.corednsFile_some (v : GoString) (hv : v ≠ []) :
    ∃ name, cmd.corednsFile v = some name ∧
      cmd.corednsHashFile v = some (name ++ hashFileSuffix) := by
  cases v with
  | nil => exact absurd rfl hv
  | cons c rest =>
    refine ⟨_, rfl, ?_⟩
    simp [cmd.corednsHashFile, hashFileSuffix]

/-! ## The claims -/

/-- C1: at a GET for the key (`etcd`, `v3.5.16`) whose payload is not in the
cache, with an endpoint that resolves both URLs and an upstream that serves
the payload and its 64-byte digest, the handler does not fill the cache: it
asks the endpoint for the latest tag and answers with a 307 redirect, and
neither the payload file nor the checksum file exists afterwards. -/
theorem Handler_get_name_version_does_not_fill :
    Handler (Sample.env Sample.getBare Sample.noFault) Sample.proxy Sample.endp
        ⟨MethodGet, "/etcd/v3.5.16".toList⟩ Sample.empty =
      (.returned ⟨[], [.Redirect "etcd/v3.5.16".toList 307]⟩, ⟨[], [], [.LastTag]⟩) := by
  decide

/-- C2: for a GET or HEAD request whose normalized path has exactly the two
segments `name/version`, the handler does call `Endpoint.LastTag` and does
answer with the version-resolution redirect to `name/<latest tag>` (or with
the error of `LastTag`); it never reaches the cache lookup, and the cache is
left as it was. -/
theorem Handler_two_segments_resolves_version (env : Env) (p : Proxy) (endp : Endpoint)
    (r : Request) (s : State) (name version : GoString)
    (hmethod : r.Method = MethodGet ∨ r.Method = MethodHead)
    (hsplit : strings.Split '/' (normalize r.Path) = [name, version])
    (hdot : (normalize r.Path).head? ≠ some '.')
    (hsuffix : strings.HasSuffix (normalize r.Path) hashFileSuffix = false) :
    Handler env p endp r s =
      (match endp.LastTag with
        | .error err => httpErrorWriter env ResponseWriter.new (some err)
        | .ok latestVersion =>
          .returned (ResponseWriter.new.call (.Redirect (path.Join [name, latestVersion]) 307)),
       s.record .LastTag) := by
  unfold Handler Handler.front
  rw [Handler.route_two_segments env endp r s name version hmethod hsplit hdot hsuffix]
  cases endp.LastTag <;> rfl


/-- The witness of C2: the request `GET /kubectl/v1.31.1`. -/
theorem Handler_two_segments_resolves_version_witness :
    Handler (Sample.env Sample.getBare Sample.noFault) Sample.proxy Sample.endp
        ⟨MethodGet, "/kubectl/v1.31.1".toList⟩ Sample.cached =
      (.returned ⟨[], [.Redirect "kubectl/v3.5.16".toList 307]⟩, Sample.cached.record .LastTag) :=
  Handler_two_segments_resolves_version (Sample.env Sample.getBare Sample.noFault) Sample.proxy
    Sample.endp ⟨MethodGet, "/kubectl/v1.31.1".toList⟩ Sample.cached "kubectl".toList
    "v1.31.1".toList (Or.inl rfl) (by decide) (by decide) (by decide)


/-- C3: for a GET or HEAD request whose normalized path is the single segment
`name`, the handler panics at `reqPathParts[1]`: it returns no response, it
does not call `Endpoint.LastTag`, and it leaves the state as it was. -/
theorem Handler_one_segment_panics (env : Env) (p : Proxy) (endp : Endpoint)
    (r : Request) (s : State) (name : GoString)
    (hmethod : r.Method = MethodGet ∨ r.Method = MethodHead)
    (hsplit : strings.Split '/' (normalize r.Path) = [name])
    (hname : name ≠ [])
    (hdot : (normalize r.Path).head? ≠ some '.')
    (hsuffix : strings.HasSuffix (normalize r.Path) hashFileSuffix = false) :
    Handler env p endp r s = (.panicked, s) := by
  unfold Handler Handler.front
  rw [Handler.route_one_segment env endp r s name hmethod hsplit hname hdot hsuffix]


/-- The witness of C3: the request `GET /etcd/` with `LastTag` returning `v3.5.16`. -/
theorem Handler_one_segment_panics_witness :
    Handler (Sample.env Sample.getBare Sample.noFault) Sample.proxy Sample.endp
        ⟨MethodGet, "/etcd/".toList⟩ Sample.empty = (.panicked, Sample.empty) :=
  Handler_one_segment_panics (Sample.env Sample.getBare Sample.noFault) Sample.proxy
    Sample.endp ⟨MethodGet, "/etcd/".toList⟩ Sample.empty "etcd".toList
    (Or.inl rfl) (by decide) (by decide) (by decide) (by decide)

/-- C4: a GET request that reaches validation with a non-empty expected
digest `h` different from the lower-case hexadecimal SHA-256 of the cached
payload `c`, and whose two removals succeed, ends with neither the payload
file nor the checksum file in the cache and with a 307 redirect to the
original request path; the status is not an error status. -/
theorem Handler_mismatch_invalidates (env : Env) (p : Proxy) (endp : Endpoint) (r : Request)
    (s s1 : State) (fp hp c h : GoString) (ex : Bool)
    (hmethod : r.Method = MethodGet)
    (hfront : Handler.front env p endp r s = (.check fp hp ex, s1))
    (hpayload : s1.fs.get fp = some (.file c))
    (hchecksum : s1.fs.get hp = some (.file h))
    (hnonempty : h ≠ [])
    (hmismatch : h ≠ hex.EncodeToString (env.Sum256 c))
    (hstat : env.fault (.Stat hp) = none) (hreadFile : env.fault (.ReadFile hp) = none)
    (hopen : env.fault (.Open fp) = none) (hread : env.fault (.Read fp) = none)
    (hrm1 : env.fault (.Remove fp) = none) (hrm2 : env.fault (.Remove hp) = none) :
    ∃ w s2, Handler env p endp r s = (.returned w, s2) ∧
      s2.fs.get fp = none ∧ s2.fs.get hp = none ∧
      w.calls = [.Redirect r.Path 307] ∧ w.status = 307 :=
  Handler.mismatch_removes_both env p endp r s s1 fp hp c h ex hmethod hfront hpayload hchecksum
    hnonempty hmismatch hstat hreadFile hopen hread hrm1 hrm2

/-- The witness of C4: the request `GET /etcd/v3.5.16/x` on a corrupt slot. -/
theorem Handler_mismatch_invalidates_witness :
    ∃ w s2, Handler (Sample.env Sample.getBare Sample.noFault) Sample.proxy Sample.endp
        ⟨MethodGet, "/etcd/v3.5.16/x".toList⟩ Sample.corrupt = (.returned w, s2) ∧
      s2.fs.get Sample.filePath = none ∧ s2.fs.get Sample.hashFilePath = none ∧
      w.calls = [.Redirect "/etcd/v3.5.16/x".toList 307] ∧ w.status = 307 :=
  Handler_mismatch_invalidates (Sample.env Sample.getBare Sample.noFault) Sample.proxy Sample.endp
    ⟨MethodGet, "/etcd/v3.5.16/x".toList⟩ Sample.corrupt Sample.corrupt Sample.filePath
    Sample.hashFilePath "damaged".toList Sample.digest true rfl (by decide) (by decide) (by decide)
    (by decide) (by decide) rfl rfl rfl rfl rfl rfl

/-- C5 (counterexample): on the corrupt slot (`etcd`, `v3.5.16`), when the
removal of the checksum file fails, the handler returns with the payload
file removed and the checksum file still present: exactly one of the two
files has been removed. -/
theorem Handler_invalidation_half_deleted :
    (Handler (Sample.env Sample.getBare Sample.removeFails) Sample.proxy Sample.endp
        ⟨MethodGet, "/etcd/v3.5.16/x".toList⟩ Sample.corrupt).2.fs.get Sample.filePath = none ∧
    (Handler (Sample.env Sample.getBare Sample.removeFails) Sample.proxy Sample.endp
        ⟨MethodGet, "/etcd/v3.5.16/x".toList⟩ Sample.corrupt).2.fs.get Sample.hashFilePath =
      some (.file Sample.digest) ∧
    (Handler (Sample.env Sample.getBare Sample.removeFails) Sample.proxy Sample.endp
        ⟨MethodGet, "/etcd/v3.5.16/x".toList⟩ Sample.corrupt).1.status = some 500 ∧
    Sample.corrupt.fs.get Sample.filePath = some (.file "damaged".toList) ∧
    Sample.corrupt.fs.get Sample.hashFilePath = some (.file Sample.digest) ∧
    Sample.digest ≠ hex.EncodeToString (Sample.Sum256 "damaged".toList) := by
  decide

/-- C5 (as amended): on a corrupt slot that a request has reached with its
payload and checksum readable, the handler leaves both files in place when
the request is a HEAD or the removal of the payload fails (500), removes
both when both removals succeed (307), and, when the removal of the payload
succeeds and that of the checksum file fails, leaves the slot with the
payload removed and the checksum file in place, answering 500. -/
theorem Handler_invalidation_outcomes (env : Env) (p : Proxy) (endp : Endpoint) (r : Request)
    (s s1 : State) (fp hp c h : GoString) (ex : Bool)
    (hfront : Handler.front env p endp r s = (.check fp hp ex, s1))
    (hpayload : s1.fs.get fp = some (.file c))
    (hchecksum : s1.fs.get hp = some (.file h))
    (hnonempty : h ≠ [])
    (hmismatch : h ≠ hex.EncodeToString (env.Sum256 c))
    (hstat : env.fault (.Stat hp) = none) (hreadFile : env.fault (.ReadFile hp) = none)
    (hopen : env.fault (.Open fp) = none) (hread : env.fault (.Read fp) = none) :
    (r.Method = MethodHead → (Handler env p endp r s).2 = s1) ∧
    (r.Method = MethodGet → ∀ e, env.fault (.Remove fp) = some e →
      ∃ w, Handler env p endp r s = (.returned w, s1) ∧ w.status = 500) ∧
    (r.Method = MethodGet → env.fault (.Remove fp) = none → ∀ e, env.fault (.Remove hp) = some e →
      ∃ w s2, Handler env p endp r s = (.returned w, s2) ∧ w.status = 500 ∧
        s2.fs.get fp = none ∧ s2.fs.get hp = some (.file h)) ∧
    (r.Method = MethodGet → env.fault (.Remove fp) = none → env.fault (.Remove hp) = none →
      ∃ w s2, Handler env p endp r s = (.returned w, s2) ∧ w.status = 307 ∧
        s2.fs.get fp = none ∧ s2.fs.get hp = none) := by
  obtain ⟨hfp, hhp, -⟩ := Handler.front_check_file env p endp r fp hp ex s s1 hfront
  have hne : fp ≠ hp := by rw [hhp]; exact (hashFilePath_ne fp).symm
  have hlen : 0 < h.length := List.length_pos.mpr hnonempty
  have hget2 : (s1.fs.del fp).get hp = some (.file h) := by
    rw [Map.get_del_of_ne _ _ _ hne]; exact hchecksum
  have hrh := Handler.readHash_file env s1.fs hp h hstat hreadFile hchecksum
  have hval := validateSha256Hash_mismatch env s1.fs fp h c hfp hopen hread hpayload hnonempty
    hmismatch
  refine ⟨?_, ?_, ?_, ?_⟩
  · intro hm
    simp [Handler, hfront, Handler.back, Handler.serve, hrh, hlen, hval, hm]
  · intro hm e he
    refine ⟨(ResponseWriter.new.Set "ETag".toList h).call
      (.Error ((Error.pathError "remove".toList fp e).Error env.quote) 500), ?_, ?_⟩
    · simp [Handler, hfront, Handler.back, Handler.serve, hrh, hlen, hval, hm, MethodGet_ne_MethodHead,
        os.Remove, he]
    · simp [ResponseWriter.call, ResponseWriter.Set, ResponseWriter.new, ResponseWriter.status]
  · intro hm h1 e he
    refine ⟨(ResponseWriter.new.Set "ETag".toList h).call
        (.Error ((Error.pathError "remove".toList hp e).Error env.quote) 500),
      s1.withFS (s1.fs.del fp), ?_, ?_, ?_, ?_⟩
    · simp [Handler, hfront, Handler.back, Handler.serve, hrh, hlen, hval, hm, MethodGet_ne_MethodHead,
        os.Remove, h1, he, hpayload]
    · simp [ResponseWriter.call, ResponseWriter.Set, ResponseWriter.new, ResponseWriter.status]
    · exact Map.get_del_self _ _
    · exact hget2
  · intro hm h1 h2
    obtain ⟨w, s2, hres, hf, hh, hcalls, hst⟩ := Handler.mismatch_removes_both env p endp r s s1 fp hp
      c h ex hm hfront hpayload hchecksum hnonempty hmismatch hstat hreadFile hopen hread h1 h2
    exact ⟨w, s2, hres, hst, hf, hh⟩

/-- The witness of C5 as amended: the removal of the checksum file fails. -/
theorem Handler_invalidation_outcomes_witness :
    ∃ w s2, Handler (Sample.env Sample.getBare Sample.removeFails) Sample.proxy Sample.endp
        ⟨MethodGet, "/etcd/v3.5.16/x".toList⟩ Sample.corrupt = (.returned w, s2) ∧
      w.status = 500 ∧ s2.fs.get Sample.filePath = none ∧
      s2.fs.get Sample.hashFilePath = some (.file Sample.digest) :=
  (Handler_invalidation_outcomes (Sample.env Sample.getBare Sample.removeFails) Sample.proxy
    Sample.endp ⟨MethodGet, "/etcd/v3.5.16/x".toList⟩ Sample.corrupt Sample.corrupt Sample.filePath
    Sample.hashFilePath "damaged".toList Sample.digest true (by decide) (by decide) (by decide)
    (by decide) (by decide) rfl rfl rfl rfl).2.2.1 rfl rfl
    (.EOTHER "operation not permitted".toList) (by decide)

/-- C6: at a GET for the key (`etcd`, `v3.5.16`) whose payload is cached and
valid, the handler does not serve the payload: it asks the endpoint for the
latest tag and answers with a 307 redirect; it calls neither `FileURL` nor
`HashFileURL` and leaves the files as they are. -/
theorem Handler_get_cached_name_version_redirects :
    Handler (Sample.env Sample.getBare Sample.noFault) Sample.proxy Sample.endp
        ⟨MethodGet, "/etcd/v3.5.16".toList⟩ Sample.cached =
      (.returned ⟨[], [.Redirect "etcd/v3.5.16".toList 307]⟩,
        ⟨Sample.cached.fs, [], [.LastTag]⟩) ∧
    Sample.cached.fs.get Sample.filePath = some (.file Sample.payload) ∧
    Sample.cached.fs.get Sample.hashFilePath =
      some (.file (hex.EncodeToString (Sample.Sum256 Sample.payload))) := by
  decide

/-- C7: `validateSha256Hash(file, hash)` returns true exactly when `hash` is
not empty, the file exists and can be read, and the lower-case hexadecimal
encoding of the digest of its whole content is equal to `hash` byte for
byte; a `hash` with a byte that is no lower-case hexadecimal digit (an
upper-case letter, white space) is a mismatch; and a missing file gives
false without an error. -/
theorem validateSha256Hash_spec (env : Env) (fs : FS) (file hash : GoString) :
    ((validateSha256Hash env fs file hash).1 = true ↔
      hash ≠ [] ∧ file ≠ [] ∧ env.fault (.Open file) = none ∧ env.fault (.Read file) = none ∧
        ∃ content, fs.get file = some (.file content) ∧
          hex.EncodeToString (env.Sum256 content) = hash) ∧
    ((∃ c ∈ hash, c ∉ hex.hextable) → (validateSha256Hash env fs file hash).1 = false) ∧
    (file ≠ [] → env.fault (.Open file) = none → fs.get file = none →
      validateSha256Hash env fs file hash = (false, none)) := by
  refine ⟨?_, ?_, ?_⟩
  · by_cases hh : hash = []
    · simp [validateSha256Hash, hh]
    by_cases hf : file = []
    · simp [validateSha256Hash, sha256Sum, hh, hf]
    cases hopen : env.fault (.Open file) with
    | some e =>
      cases e <;>
        simp [validateSha256Hash, sha256Sum, os.Open, hh, hf, hopen, Error.IsNotExist]
    | none =>
      cases hget : fs.get file with
      | none => simp [validateSha256Hash, sha256Sum, os.Open, hh, hf, hopen, hget, Error.IsNotExist]
      | some node =>
        cases node with
        | dir => simp [validateSha256Hash, sha256Sum, os.Open, os.Read, hh, hf, hopen, hget]
        | file content =>
          cases hread : env.fault (.Read file) with
          | some e => simp [validateSha256Hash, sha256Sum, os.Open, os.Read, hh, hf, hopen, hget, hread]
          | none =>
            simp only [validateSha256Hash, sha256Sum_file env fs file content hf hopen hread hget]
            by_cases hlen : (env.Sum256 content).length = 0
            · have hnil : env.Sum256 content = [] := List.length_eq_zero.mp hlen
              simp [hh, hnil, hex.EncodeToString, Ne.symm hh]
            · simp [hh, hlen, hf]
  · rintro ⟨c, hc, hnot⟩
    by_contra hne
    have htrue : (validateSha256Hash env fs file hash).1 = true := by simpa using hne
    unfold validateSha256Hash at htrue
    split at htrue
    · simp at htrue
    · simp only at htrue
      split at htrue
      · simp at htrue
      · have heq : hex.EncodeToString (sha256Sum env fs file).1 = hash := by simpa using htrue
        exact hnot (hex.EncodeToString_mem _ c (heq ▸ hc))
  · intro hf hopen hget
    by_cases hh : hash = []
    · simp [validateSha256Hash, hh]
    · simp [validateSha256Hash, sha256Sum, os.Open, hh, hf, hopen, hget, Error.IsNotExist]


/-- The witness of C7: a digest in upper case is a mismatch. -/
theorem validateSha256Hash_spec_witness :
    (validateSha256Hash (Sample.env Sample.getBare Sample.noFault) Sample.cached.fs Sample.filePath
      (Sample.digest.map Char.toUpper)).1 = false :=
  (validateSha256Hash_spec (Sample.env Sample.getBare Sample.noFault) Sample.cached.fs
    Sample.filePath (Sample.digest.map Char.toUpper)).2.1 ⟨'B', by decide, by decide⟩

/-- C8: for the manifest of the specification's example and the artifact
`etcd-v3.5.16-linux-amd64.tar.gz`, `fetchHash` does not find the line of the
artifact, although the first line of the manifest contains its name: it
looks for the name of the checksum file,
`etcd-v3.5.16-linux-amd64.tar.gz.sha256`, returns the error that no hashsum
was found for it, and writes no checksum file.  The same happens when the
artifact is requested under the name `etcd`. -/
theorem fetchHash_manifest_example_not_found :
    Proxy.fetchHash (Sample.env Sample.getManifest Sample.noFault) "up/SHA256SUMS".toList
        ("/srv/v3.5.16/etcd-v3.5.16-linux-amd64.tar.gz".toList ++ hashFileSuffix) Sample.empty =
      (some (.hashsumNotFound "etcd-v3.5.16-linux-amd64.tar.gz.sha256".toList),
        ⟨[("/srv/v3.5.16".toList, .dir)], [], [.get "up/SHA256SUMS".toList]⟩) ∧
    Proxy.fetchHash (Sample.env Sample.getManifest Sample.noFault) "up/SHA256SUMS".toList
        (Sample.filePath ++ hashFileSuffix) Sample.empty =
      (some (.hashsumNotFound "etcd.sha256".toList),
        ⟨[("/srv/v3.5.16".toList, .dir)], [], [.get "up/SHA256SUMS".toList]⟩) ∧
    Sample.manifest.length ≠ 64 ∧
    (strings.Split '\n' Sample.manifest).find?
        (fun line => strings.Contains line "etcd-v3.5.16-linux-amd64.tar.gz".toList) =
      some "aa  etcd-v3.5.16-linux-amd64.tar.gz".toList := by
  decide

/-- C9 (counterexample): with a checksum content of a length other than 64
in which no line contains the requested filename `etcd`, the GET does not
serve the payload as trusted: the response is 500 with the text of the
error of `fetchHash`, `FileURL` is never called and there is no payload
file. -/
theorem Handler_manifest_without_entry_fails :
    (strings.Split '\n' "aa  kubectl".toList).all
        (fun line => !strings.Contains line "etcd".toList) = true ∧
    Handler (Sample.env Sample.getOther Sample.noFault) Sample.proxy Sample.endp
        ⟨MethodGet, "/etcd/v3.5.16/x".toList⟩ Sample.empty =
      (.returned ⟨[], [.Error ((Error.hashsumNotFound "etcd.sha256".toList).Error Sample.quote) 500]⟩,
        ⟨[("/srv/v3.5.16".toList, .dir)], [],
          [.Acquire "etcd/v3.5.16/x".toList, .HashFileURL "etcd".toList "v3.5.16".toList,
            .get "up/v3.5.16/etcd.sha256".toList, .Release "etcd/v3.5.16/x".toList]⟩) := by
  decide

/-- C9 (as amended): when the checksum content has a length other than 64 and
no line of it contains the requested filename, the fill of a GET request
fails: `fetchHash` returns the error `hashsum for File "<name>.sha256" not
found`, `FileURL` is not called, the payload is not fetched, no file is
written, the semaphore key is released, and the client receives status 500
with the text of that error. -/
theorem Handler_manifest_without_entry (env : Env) (p : Proxy) (endp : Endpoint) (r : Request)
    (s s0 : State) (reqPath filename version url : GoString) (resp : Upstream)
    (hmethod : r.Method = MethodGet)
    (hroute : Handler.route env endp r s = (.slot reqPath filename version, s0))
    (hmiss : s.fs.get (p.filePath filename version) = none)
    (hstat : env.fault (.Stat (p.filePath filename version)) = none)
    (hfree : reqPath ∉ s.sem)
    (hurl : endp.HashFileURL filename version = .ok url)
    (hget : env.get url = .ok resp) (h200 : resp.StatusCode = 200)
    (hbody : resp.BodyErr = none) (hlen : resp.Body.length ≠ 64)
    (hnone : ∀ line ∈ strings.Split '\n' resp.Body, strings.Contains line filename = false)
    (hmkdir : env.fault (.MkdirAll (path.Dir (p.filePath filename version ++ hashFileSuffix))) = none)
    (hdir : ∀ c, s.fs.get (path.Dir (p.filePath filename version ++ hashFileSuffix)) ≠ some (.file c)) :
    ∃ w s1, Handler env p endp r s = (.returned w, s1) ∧
      w.calls = [.Error ((Error.hashsumNotFound (filename ++ hashFileSuffix)).Error env.quote) 500] ∧
      w.status = 500 ∧
      (∀ q c, s1.fs.get q = some (.file c) → s.fs.get q = some (.file c)) ∧
      s1.sem = s.sem ∧
      s1.log = s.log ++ [.Acquire reqPath, .HashFileURL filename version, .get url, .Release reqPath] := by
  obtain ⟨hs0, -, -, hne, -⟩ := Handler.route_slot env endp r s s0 reqPath filename version hroute
  obtain ⟨hslash, hdot⟩ := Handler.route_slot_name env endp r s s0 reqPath filename version hroute
  rw [hs0] at hroute
  have hbase := Proxy.hashFilePath_base p filename version hne hslash hdot
  have hnone2 : ∀ line ∈ strings.Split '\n' resp.Body,
      strings.Contains line (path.Base (p.filePath filename version ++ hashFileSuffix)) = false := by
    intro line hl
    rw [hbase]
    cases hc : strings.Contains line (filename ++ hashFileSuffix) with
    | false => rfl
    | true =>
      have := strings.Contains_append line filename hashFileSuffix hc
      rw [hnone line hl] at this
      exact absurd this (by simp)
  obtain ⟨s1, hfh, hfiles, hsem, hlog⟩ := Proxy.fetchHash_manifest_miss env url
    (p.filePath filename version ++ hashFileSuffix)
    ((⟨s.fs, reqPath :: s.sem, s.log ++ [.Acquire reqPath]⟩ : State).record
      (.HashFileURL filename version)) resp hget h200 hbody hlen hmkdir hdir hnone2
  rw [hbase] at hfh
  have hexist : fileIsExist env s.fs (p.filePath filename version) = (false, none) := by
    simp [fileIsExist, os.Stat, hstat, hmiss, Error.IsNotExist]
  refine ⟨ResponseWriter.new.call
      (.Error ((Error.hashsumNotFound (filename ++ hashFileSuffix)).Error env.quote) 500),
    ⟨s1.fs, Semaphore.Release s1.sem reqPath, s1.log ++ [.Release reqPath]⟩, ?_, rfl, rfl, hfiles,
    ?_, ?_⟩
  · simp [Handler, Handler.front, hroute, Handler.lookup, hexist, hmethod, download,
      Semaphore.Acquire, hfree, fill, hurl, hfh, httpErrorWriter, Error.Is, Error.AsHttpError,
      http.Error, ResponseWriter.Del, ResponseWriter.call, ResponseWriter.new, Map.del]
  · simp only [hsem, State.record]
    exact Semaphore.Release_Acquire s.sem reqPath hfree
  · simp [hlog, State.record]

/-- The witness of C9 as amended: the request `GET /etcd/v3.5.16/x` with the
checksum content `aa  kubectl`. -/
theorem Handler_manifest_without_entry_witness :
    ∃ w s1, Handler (Sample.env Sample.getOther Sample.noFault) Sample.proxy Sample.endp
        ⟨MethodGet, "/etcd/v3.5.16/x".toList⟩ Sample.empty = (.returned w, s1) ∧
      w.calls = [.Error ((Error.hashsumNotFound ("etcd".toList ++ hashFileSuffix)).Error
        Sample.quote) 500] ∧
      w.status = 500 ∧
      (∀ q c, s1.fs.get q = some (.file c) → Sample.empty.fs.get q = some (.file c)) ∧
      s1.sem = [] ∧
      s1.log = [.Acquire "etcd/v3.5.16/x".toList, .HashFileURL "etcd".toList "v3.5.16".toList,
        .get "up/v3.5.16/etcd.sha256".toList, .Release "etcd/v3.5.16/x".toList] :=
  Handler_manifest_without_entry (Sample.env Sample.getOther Sample.noFault) Sample.proxy
    Sample.endp ⟨MethodGet, "/etcd/v3.5.16/x".toList⟩ Sample.empty Sample.empty
    "etcd/v3.5.16/x".toList "etcd".toList "v3.5.16".toList "up/v3.5.16/etcd.sha256".toList
    ⟨200, "aa  kubectl".toList, none⟩ rfl (by decide) (by decide) rfl (by decide) rfl
    rfl rfl rfl (by decide) (by decide) rfl (fun _ h => Option.noConfusion h)

/-- C10: a checksum body of exactly 64 bytes is taken verbatim as the
expected digest, whatever the bytes are: `fetchHash` stores it unchanged in
the checksum file without scanning lines, and the handler then reads it back
unchanged as the digest `hash` that it validates the payload against and
announces as `ETag`. -/
theorem fetchHash_bare_digest (env : Env) (url fp : GoString) (s : State) (resp : Upstream)
    (hget : env.get url = .ok resp) (h200 : resp.StatusCode = 200)
    (hbody : resp.BodyErr = none) (hlen : resp.Body.length = 64)
    (hmkdir : env.fault (.MkdirAll (path.Dir (fp ++ hashFileSuffix))) = none)
    (hopen : env.fault (.OpenFile (fp ++ hashFileSuffix)) = none)
    (hwrite : env.fault (.Write (fp ++ hashFileSuffix)) = none)
    (hdir : ∀ c, s.fs.get (path.Dir (fp ++ hashFileSuffix)) ≠ some (.file c))
    (hfree : s.fs.get (fp ++ hashFileSuffix) ≠ some .dir) :
    ∃ s1, Proxy.fetchHash env url (fp ++ hashFileSuffix) s = (none, s1) ∧
      s1.fs.get (fp ++ hashFileSuffix) = some (.file resp.Body) ∧
      (env.fault (.Stat (fp ++ hashFileSuffix)) = none →
        env.fault (.ReadFile (fp ++ hashFileSuffix)) = none →
        Handler.readHash env s1.fs (fp ++ hashFileSuffix) = .ok (true, resp.Body) ∧
        (∀ r ex, Handler.back env r fp (fp ++ hashFileSuffix) ex s1 =
          Handler.serve env r fp (fp ++ hashFileSuffix) ex true resp.Body s1) ∧
        ∀ r ex w s2, Handler.back env r fp (fp ++ hashFileSuffix) ex s1 = (.returned w, s2) →
          w.header.get "ETag".toList = some resp.Body) := by
  obtain ⟨s1, hfh, hcontent, -⟩ := Proxy.fetchHash_bare_ok env url fp s resp hget h200 hbody hlen
    hmkdir hopen hwrite hdir hfree
  refine ⟨s1, hfh, hcontent, ?_⟩
  intro hstat hread
  have hrh := Handler.readHash_file env s1.fs _ resp.Body hstat hread hcontent
  refine ⟨hrh, ?_, ?_⟩
  · intro r ex
    simp [Handler.back, hrh]
  · intro r ex w s2 hback
    exact Handler.back_etag env r fp _ resp.Body ex true _ s2 w hrh (by omega) hback

/-- The witness of C10: the bare digest of the sample payload. -/
theorem fetchHash_bare_digest_witness :
    ∃ s1, Proxy.fetchHash (Sample.env Sample.getBare Sample.noFault)
        "up/v3.5.16/etcd.sha256".toList (Sample.filePath ++ hashFileSuffix) Sample.empty =
        (none, s1) ∧
      s1.fs.get (Sample.filePath ++ hashFileSuffix) = some (.file Sample.digest) :=
  have h := fetchHash_bare_digest (Sample.env Sample.getBare Sample.noFault)
    "up/v3.5.16/etcd.sha256".toList Sample.filePath Sample.empty ⟨200, Sample.digest, none⟩
    rfl rfl rfl (by decide) rfl rfl rfl (fun _ h => Option.noConfusion h) (by decide)
  h.elim fun s1 hs => ⟨s1, hs.1, hs.2.1⟩

/-- C11: for a request that has reached the checksum step, with the payload
path `fp`, the checksum path `hp` and the state `s1` of the cache, the handler
returns with a response, and the `ETag` of that response is the expected
digest `hash` that `Handler.readHash` has read from the checksum file when
that digest is not empty, and is not set otherwise.  The digest of the `ETag`
is the one the payload is validated against: the handler then ends as
`Handler.serve` does with `hash`.  A checksum file with the content `h` that
can be read makes `h` the expected digest; with no checksum file there is no
expected digest, and so no `ETag`. -/
theorem Handler_etag (env : Env) (p : Proxy) (endp : Endpoint) (r : Request)
    (fp hp : GoString) (ex : Bool) (s s1 : State)
    (hfront : Handler.front env p endp r s = (.check fp hp ex, s1)) :
    (∃ w s2, Handler env p endp r s = (.returned w, s2) ∧
      w.header.get "ETag".toList =
        match Handler.readHash env s1.fs hp with
        | .ok (_, hash) => if hash = [] then none else some hash
        | .error _ => none) ∧
    (∀ hfe hash, Handler.readHash env s1.fs hp = .ok (hfe, hash) →
      Handler env p endp r s = Handler.serve env r fp hp ex hfe hash s1) ∧
    (∀ h, s1.fs.get hp = some (.file h) → env.fault (.Stat hp) = none →
      env.fault (.ReadFile hp) = none → Handler.readHash env s1.fs hp = .ok (true, h)) ∧
    (s1.fs.get hp = none → env.fault (.Stat hp) = none →
      Handler.readHash env s1.fs hp = .ok (false, [])) := by
  have hH := Handler.of_front_check env p endp r fp hp ex s s1 hfront
  have hex := (Handler.front_check_exist env p endp r fp hp ex s s1 hfront).2
  refine ⟨?_, ?_, ?_, ?_⟩
  · obtain ⟨w, s2, hw⟩ := Handler.back_returns env r fp hp ex s1 hex
    exact ⟨w, s2, hH ▸ hw, Handler.back_etag_iff env r fp hp ex s1 s2 w hw⟩
  · intro hfe hash hrh
    rw [hH]
    unfold Handler.back
    rw [hrh]
  · intro h hget hstat hread
    exact Handler.readHash_file env s1.fs hp h hstat hread hget
  · intro hget hstat
    exact Handler.readHash_none env s1.fs hp hstat hget

/-- The witness of C11: the request `GET /etcd/v3.5.16/x` on the valid slot
is answered with the digest of the checksum file as its `ETag`. -/
theorem Handler_etag_witness :
    ∃ w s2, Handler (Sample.env Sample.getBare Sample.noFault) Sample.proxy Sample.endp
        ⟨MethodGet, "/etcd/v3.5.16/x".toList⟩ Sample.cached = (.returned w, s2) ∧
      w.header.get "ETag".toList = some Sample.digest :=
  (Handler_etag (Sample.env Sample.getBare Sample.noFault) Sample.proxy Sample.endp
    ⟨MethodGet, "/etcd/v3.5.16/x".toList⟩ Sample.filePath Sample.hashFilePath true Sample.cached
    Sample.cached rfl).1

/-- C12 (counterexample): two concurrent requests `GET /etcd/v3.5.16/x` on
the empty cache.  When request 1 finds the key held and waits until request
0 has filled the slot, it fills the slot again: `HashFileURL` and `FileURL`
are called twice each, and both requests are answered 200.  When request 1
has opened the payload file, which truncates it, before request 0 validates,
request 0 is answered with the redirect 307 and no bytes of the payload. -/
theorem System_second_request_fills_again :
    countHashFileURL (System.run (Sample.env Sample.getBare Sample.noFault) Sample.proxy
      Sample.endp (System.start Sample.empty [Sample.req, Sample.req])
      Sample.waitThenFill).shared.log = 2 ∧
    countFileURL (System.run (Sample.env Sample.getBare Sample.noFault) Sample.proxy
      Sample.endp (System.start Sample.empty [Sample.req, Sample.req])
      Sample.waitThenFill).shared.log = 2 ∧
    ((System.run (Sample.env Sample.getBare Sample.noFault) Sample.proxy
      Sample.endp (System.start Sample.empty [Sample.req, Sample.req])
      Sample.waitThenFill).outcome 0).map Outcome.status = some (some 200) ∧
    ((System.run (Sample.env Sample.getBare Sample.noFault) Sample.proxy
      Sample.endp (System.start Sample.empty [Sample.req, Sample.req])
      Sample.waitThenFill).outcome 1).map Outcome.status = some (some 200) ∧
    ((System.run (Sample.env Sample.getBare Sample.noFault) Sample.proxy
      Sample.endp (System.start Sample.empty [Sample.req, Sample.req])
      Sample.truncated).outcome 0) =
        some (.returned ⟨[("ETag".toList, Sample.digest)],
          [.Redirect "/etcd/v3.5.16/x".toList 307]⟩) := by
  decide

/-- C12 (as amended): for every number of concurrent requests on any state
of the cache and every interleaving of their steps, each request calls
`HashFileURL` at most once and `FileURL` at most once: the calls of either
made in the run are at most as many as the requests. -/
theorem System_calls_at_most_requests (env : Env) (p : Proxy) (endp : Endpoint) (s : State)
    (rs : List Request) (schedule : List Nat) :
    countHashFileURL (System.run env p endp (System.start s rs) schedule).shared.log ≤
      countHashFileURL s.log + rs.length ∧
    countFileURL (System.run env p endp (System.start s rs) schedule).shared.log ≤
      countFileURL s.log + rs.length := by
  obtain ⟨h1, h2⟩ := System.run_budget env p endp schedule (System.start s rs)
  obtain ⟨h3, h4⟩ := System.start_budget s rs
  have h5 : (System.start s rs).shared = s := rfl
  rw [h3, h5] at h1
  rw [h4, h5] at h2
  constructor <;> omega

/-- The witness of C12 as amended: two concurrent requests
`GET /etcd/v3.5.16/x` on the empty cache, the second waiting for the first. -/
theorem System_calls_at_most_requests_witness :
    countHashFileURL (System.run (Sample.env Sample.getBare Sample.noFault) Sample.proxy
      Sample.endp (System.start Sample.empty [Sample.req, Sample.req])
      Sample.waitThenFill).shared.log ≤ countHashFileURL Sample.empty.log + 2 ∧
    countFileURL (System.run (Sample.env Sample.getBare Sample.noFault) Sample.proxy
      Sample.endp (System.start Sample.empty [Sample.req, Sample.req])
      Sample.waitThenFill).shared.log ≤ countFileURL Sample.empty.log + 2 :=
  System_calls_at_most_requests (Sample.env Sample.getBare Sample.noFault) Sample.proxy
    Sample.endp Sample.empty [Sample.req, Sample.req] Sample.waitThenFill

/-- C13: mutual exclusion per key does not hold.  With two callers of
`Acquire(key)` on a semaphore that holds nothing, when both read `s.m[key]`
before either calls `add`, both calls return and both callers are between
`Acquire(key)` and `Release(key)`.  With three callers, when two of them wait
for the third to release the key, both leave the polling loop once the key
is released, and both are between `Acquire(key)` and `Release(key)`. -/
theorem Semaphore_two_holders :
    ((Sample.twoCallers.run Sample.bothFree).holders Sample.key).length = 2 ∧
    (Sample.twoCallers.run Sample.bothFree).callers =
      [⟨Sample.key, .critical⟩, ⟨Sample.key, .critical⟩] ∧
    ((Sample.threeCallers.run Sample.twoWaiters).holders Sample.key).length = 2 ∧
    (Sample.threeCallers.run Sample.twoWaiters).callers =
      [⟨Sample.key, .released⟩, ⟨Sample.key, .critical⟩, ⟨Sample.key, .critical⟩] := by
  decide

/-- C14: a call of `Acquire(key)` that had to wait returns with the key not
in the held set.  The polling loop of `Acquire` never changes the set; and
with two callers, when caller 1 waits for caller 0 to release the key,
caller 1 is between `Acquire(key)` and `Release(key)` while the held set is
empty. -/
theorem Semaphore_Acquire_after_wait (key : GoString) (m : List GoString) :
    (Semaphore.Caller.step ⟨key, .poll⟩ m).2 = m ∧
    ((Semaphore.Caller.step ⟨key, .poll⟩ m).1.pc = .critical ↔ key ∉ m) ∧
    (Sample.twoCallers.run Sample.oneWaiter).callers =
      [⟨Sample.key, .released⟩, ⟨Sample.key, .critical⟩] ∧
    (Sample.twoCallers.run Sample.oneWaiter).m = [] ∧
    Sample.key ∉ (Sample.twoCallers.run Sample.oneWaiter).m := by
  refine ⟨?_, ?_, by decide, by decide, by decide⟩
  · unfold Semaphore.Caller.step
    simp only
    split <;> rfl
  · unfold Semaphore.Caller.step Semaphore.isIn
    simp only
    by_cases h : key ∈ m
    · simp [h]
    · simp [h]

/-- C15: every fill attempt, whatever its result, ends with the request key
out of the in-flight set and with the membership of every other key as it
was; the attempt does run when the key is free; and a handler invocation
that starts with an empty in-flight set returns with an empty in-flight
set. -/
theorem download_releases_key (env : Env) (endp : Endpoint)
    (reqPath filename version fp hp : GoString) (s : State) :
    (∀ res s1, download env endp reqPath filename version fp hp s = some (res, s1) →
      reqPath ∉ s1.sem ∧ ∀ k, k ≠ reqPath → (k ∈ s1.sem ↔ k ∈ s.sem)) ∧
    (reqPath ∉ s.sem →
      ∃ res s1, download env endp reqPath filename version fp hp s = some (res, s1)) ∧
    (∀ p r, s.sem = [] →
      (Handler env p endp r s).2.sem = [] ∧ (Handler env p endp r s).1 ≠ .blocked) := by
  refine ⟨?_, download_free env endp reqPath filename version fp hp s, ?_⟩
  · intro res s1 h
    obtain ⟨-, hsem⟩ := download_some env endp reqPath filename version fp hp s res s1 h
    rw [hsem]
    refine ⟨Semaphore.not_mem_Release _ _, ?_⟩
    intro k hk
    rw [Semaphore.mem_Release _ _ _ hk]
    simp [hk]
  · intro p r hempty
    exact Handler.sem_empty env p endp r s hempty

/-- The witness of C15: the request `GET /etcd/v3.5.16/x` on the empty cache
leaves the in-flight set empty, whether the fill succeeds or not. -/
theorem download_releases_key_witness :
    (Handler (Sample.env Sample.getBare Sample.noFault) Sample.proxy Sample.endp
        ⟨MethodGet, "/etcd/v3.5.16/x".toList⟩ Sample.empty).2.sem = [] ∧
    (Handler (Sample.env Sample.getOther Sample.noFault) Sample.proxy Sample.endp
        ⟨MethodGet, "/etcd/v3.5.16/x".toList⟩ Sample.empty).2.sem = [] :=
  ⟨((download_releases_key (Sample.env Sample.getBare Sample.noFault) Sample.endp
      "etcd/v3.5.16/x".toList "etcd".toList "v3.5.16".toList Sample.filePath Sample.hashFilePath
      Sample.empty).2.2 Sample.proxy ⟨MethodGet, "/etcd/v3.5.16/x".toList⟩ rfl).1,
   ((download_releases_key (Sample.env Sample.getOther Sample.noFault) Sample.endp
      "etcd/v3.5.16/x".toList "etcd".toList "v3.5.16".toList Sample.filePath Sample.hashFilePath
      Sample.empty).2.2 Sample.proxy ⟨MethodGet, "/etcd/v3.5.16/x".toList⟩ rfl).1⟩

/-- C16: a key that is not held is acquired at once, whichever other keys
are held, and the held set becomes the old one with the key added;
`Acquire(k)` and `Release(k)` leave the membership of every other key as it
was, also step by step under concurrent callers. -/
theorem Semaphore_key_independence (m : List GoString) (k : GoString) :
    (k ∉ m → Semaphore.Acquire m k = some (k :: m)) ∧
    (k ∉ m → (Semaphore.Caller.step ⟨k, .acquire⟩ m) = (⟨k, .add⟩, m) ∧
      (Semaphore.Caller.step ⟨k, .add⟩ m) = (⟨k, .critical⟩, k :: m)) ∧
    (∀ held, Semaphore.Acquire m k = some held → ∀ k2, k2 ≠ k → (k2 ∈ held ↔ k2 ∈ m)) ∧
    (∀ k2, k2 ≠ k → (k2 ∈ Semaphore.Release m k ↔ k2 ∈ m)) ∧
    (∀ pc k2, k2 ≠ k → (k2 ∈ (Semaphore.Caller.step ⟨k, pc⟩ m).2 ↔ k2 ∈ m)) := by
  refine ⟨?_, ?_, ?_, ?_, ?_⟩
  · intro h
    simp [Semaphore.Acquire, h]
  · intro h
    simp [Semaphore.Caller.step, Semaphore.add, h]
  · intro held h k2 hk2
    unfold Semaphore.Acquire at h
    split at h
    · simp only [Option.some.injEq] at h
      rw [← h]
      simp [hk2]
    · simp at h
  · intro k2 hk2
    exact Semaphore.mem_Release m k k2 hk2
  · intro pc k2 hk2
    cases pc with
    | acquire =>
      unfold Semaphore.Caller.step
      simp only
      split <;> rfl
    | add => exact Semaphore.mem_add m k k2 hk2
    | poll =>
      unfold Semaphore.Caller.step
      simp only
      split <;> rfl
    | critical => exact Semaphore.mem_Release m k k2 hk2
    | released => rfl

/-- The witness of C16: with the key `etcd/v3.5.16/x` held, the key
`kubectl/v1.31.1/x` is acquired at once. -/
theorem Semaphore_key_independence_witness :
    Semaphore.Acquire ["etcd/v3.5.16/x".toList] "kubectl/v1.31.1/x".toList =
      some ["kubectl/v1.31.1/x".toList, "etcd/v3.5.16/x".toList] :=
  (Semaphore_key_independence ["etcd/v3.5.16/x".toList] "kubectl/v1.31.1/x".toList).1 (by decide)

/-- C17: a GET request routed to the slot (`filename`, `version`) whose
payload file is missing and whose key is free runs one fill between `Acquire`
and `Release`.  The calls of the fill are those of `fillSpec`, in its order:
`HashFileURL`, the checksum fetch, `FileURL`, the payload fetch, and none
after the first step that fails; the error of that step is the result of the
fill, and the handler ends with `httpErrorWriter` of it: a response of one
`http.Error` call whose status code is in 100..999, or, when the error is
an `httpError` whose status code is outside 100..999, the panic of
`WriteHeader`, and then no response is written.  The request calls
`HashFileURL` once and `FileURL` at most once. -/
theorem Handler_fill_order (env : Env) (p : Proxy) (endp : Endpoint) (r : Request)
    (s s0 : State) (reqPath filename version : GoString)
    (hmethod : r.Method = MethodGet)
    (hroute : Handler.route env endp r s = (.slot reqPath filename version, s0))
    (hmiss : fileIsExist env s.fs (p.filePath filename version) = (false, none))
    (hfree : reqPath ∉ s.sem) :
    (fill env endp filename version (p.filePath filename version)
        (p.filePath filename version ++ hashFileSuffix)
        ⟨s.fs, reqPath :: s.sem, s.log ++ [.Acquire reqPath]⟩).1 =
      (fillSpec env endp filename version (p.filePath filename version)
        (p.filePath filename version ++ hashFileSuffix)
        ⟨s.fs, reqPath :: s.sem, s.log ++ [.Acquire reqPath]⟩).1 ∧
    (Handler env p endp r s).2.log =
      s.log ++ [.Acquire reqPath] ++
        (fillSpec env endp filename version (p.filePath filename version)
          (p.filePath filename version ++ hashFileSuffix)
          ⟨s.fs, reqPath :: s.sem, s.log ++ [.Acquire reqPath]⟩).2 ++ [.Release reqPath] ∧
    (∀ e, (fillSpec env endp filename version (p.filePath filename version)
          (p.filePath filename version ++ hashFileSuffix)
          ⟨s.fs, reqPath :: s.sem, s.log ++ [.Acquire reqPath]⟩).1 = some e →
      (Handler env p endp r s).1 = httpErrorWriter env ResponseWriter.new (some e) ∧
      ((∃ msg code, 100 ≤ code ∧ code ≤ 999 ∧
          (Handler env p endp r s).1 = .returned ⟨[], [.Error msg code]⟩) ∨
        (∃ status msg, e.AsHttpError = some (status, msg) ∧
          ¬(100 ≤ status ∧ status ≤ 999) ∧ (Handler env p endp r s).1 = .panicked))) ∧
    countHashFileURL (Handler env p endp r s).2.log = countHashFileURL s.log + 1 ∧
    countFileURL (Handler env p endp r s).2.log ≤ countFileURL s.log + 1 := by
  have heq := Handler.miss_eq env p endp r s s0 reqPath filename version hmethod hroute hmiss hfree
  obtain ⟨hres, hlog⟩ := fill_refines env endp filename version (p.filePath filename version)
    (p.filePath filename version ++ hashFileSuffix)
    ⟨s.fs, reqPath :: s.sem, s.log ++ [.Acquire reqPath]⟩
  obtain ⟨hcH, hcF⟩ := fillSpec_counts env endp filename version (p.filePath filename version)
    (p.filePath filename version ++ hashFileSuffix)
    ⟨s.fs, reqPath :: s.sem, s.log ++ [.Acquire reqPath]⟩
  have hl : (Handler env p endp r s).2.log =
      s.log ++ [.Acquire reqPath] ++
        (fillSpec env endp filename version (p.filePath filename version)
          (p.filePath filename version ++ hashFileSuffix)
          ⟨s.fs, reqPath :: s.sem, s.log ++ [.Acquire reqPath]⟩).2 ++ [.Release reqPath] := by
    rw [heq, ← hlog]
    cases hf : fill env endp filename version (p.filePath filename version)
      (p.filePath filename version ++ hashFileSuffix)
      ⟨s.fs, reqPath :: s.sem, s.log ++ [.Acquire reqPath]⟩ with
    | mk res s2 =>
      cases res with
      | some e => rfl
      | none =>
        simp only
        rw [(Handler.back_frame env r _ _ true _).2]
  refine ⟨hres, hl, ?_, ?_, ?_⟩
  · intro e he
    have hout : (Handler env p endp r s).1 = httpErrorWriter env ResponseWriter.new (some e) := by
      rw [← hres] at he
      rw [heq]
      cases hf : fill env endp filename version (p.filePath filename version)
        (p.filePath filename version ++ hashFileSuffix)
        ⟨s.fs, reqPath :: s.sem, s.log ++ [.Acquire reqPath]⟩ with
      | mk res s2 =>
        rw [hf] at he
        simp only at he
        subst he
        rfl
    refine ⟨hout, ?_⟩
    rcases httpErrorWriter_outcome env e with
      ⟨msg, code, hlo, hhi, hw⟩ | ⟨status, msg, -, -, has, hr, hw⟩
    · exact Or.inl ⟨msg, code, hlo, hhi, hout.trans hw⟩
    · exact Or.inr ⟨status, msg, has, hr, hout.trans hw⟩
  · rw [hl]
    simp only [countHashFileURL_append, hcH]
    simp [countHashFileURL]
  · rw [hl]
    simp only [countFileURL_append]
    have h1 : countFileURL [Event.Acquire reqPath] = 0 := rfl
    have h2 : countFileURL [Event.Release reqPath] = 0 := rfl
    omega

/-- The witness of C17: the request `GET /etcd/v3.5.16/x` on the empty cache
with an upstream that answers the checksum fetch with the status 099: the
fill ends after the checksum fetch with the `httpError` of status 99,
`FileURL` is not called, and the handler ends in the panic of `WriteHeader`
on that status, after `Release`. -/
theorem Handler_fill_order_witness :
    (Handler (Sample.env Sample.getInvalid Sample.noFault) Sample.proxy Sample.endp
        ⟨MethodGet, "/etcd/v3.5.16/x".toList⟩ Sample.empty).2.log =
      [.Acquire "etcd/v3.5.16/x".toList, .HashFileURL "etcd".toList "v3.5.16".toList,
        .get "up/v3.5.16/etcd.sha256".toList, .Release "etcd/v3.5.16/x".toList] ∧
    (Handler (Sample.env Sample.getInvalid Sample.noFault) Sample.proxy Sample.endp
        ⟨MethodGet, "/etcd/v3.5.16/x".toList⟩ Sample.empty).1 = .panicked :=
  have h := Handler_fill_order (Sample.env Sample.getInvalid Sample.noFault) Sample.proxy
    Sample.endp ⟨MethodGet, "/etcd/v3.5.16/x".toList⟩ Sample.empty Sample.empty
    "etcd/v3.5.16/x".toList "etcd".toList "v3.5.16".toList rfl rfl rfl (by decide)
  ⟨h.2.1, ((h.2.2.1 (.httpError 99 "odd".toList) rfl).1).trans rfl⟩

/-- C18: a HEAD request, whatever its path and the state of the cache, leaves
the files and the in-flight set as they are, and calls nothing but, at
most, `LastTag`: neither `FileURL` nor `HashFileURL` nor `Acquire`. -/
theorem Handler_head_never_fills (env : Env) (p : Proxy) (endp : Endpoint) (urlPath : GoString)
    (s : State) :
    (Handler env p endp ⟨MethodHead, urlPath⟩ s).2.fs = s.fs ∧
    (Handler env p endp ⟨MethodHead, urlPath⟩ s).2.sem = s.sem ∧
    ((Handler env p endp ⟨MethodHead, urlPath⟩ s).2.log = s.log ∨
      (Handler env p endp ⟨MethodHead, urlPath⟩ s).2.log = s.log ++ [.LastTag]) := by
  rw [Handler.head_state env p endp ⟨MethodHead, urlPath⟩ s rfl]
  rcases Handler.route_state env endp ⟨MethodHead, urlPath⟩ s with h | h
  · rw [h]; exact ⟨rfl, rfl, Or.inl rfl⟩
  · rw [h]; exact ⟨rfl, rfl, Or.inr rfl⟩

/-- The witness of C18: the request `HEAD /etcd/v3.5.16/x` on a corrupt slot
leaves both files in place. -/
theorem Handler_head_never_fills_witness :
    (Handler (Sample.env Sample.getBare Sample.noFault) Sample.proxy Sample.endp
        ⟨MethodHead, "/etcd/v3.5.16/x".toList⟩ Sample.corrupt).2.fs = Sample.corrupt.fs :=
  (Handler_head_never_fills (Sample.env Sample.getBare Sample.noFault) Sample.proxy Sample.endp
    "/etcd/v3.5.16/x".toList Sample.corrupt).1

/-- C19: a HEAD request that has reached the checksum step, with the payload
path `fp` and the checksum path `hp`, for which the checksum file is read and
the validation ends without an error, is answered with status 200, without a
body (the handler writes nothing), with `Content-Type`
`application/octet-stream`, and with `Content-Length` equal to the size of
the payload file exactly when the payload is valid (`fileIsValid`: there is
no expected digest, or the validation against it succeeds) and the payload
file exists (`reqFileIsExist`, the answer of `fileIsExist`); the state of the
cache is left as it is.  For a slot without a payload file and without a
checksum file the response is exactly the header `Content-Type`. -/
theorem Handler_head_serve (env : Env) (p : Proxy) (endp : Endpoint) (r : Request)
    (fp hp : GoString) (ex : Bool) (s s1 : State)
    (hmethod : r.Method = MethodHead)
    (hfront : Handler.front env p endp r s = (.check fp hp ex, s1)) :
    (∀ hfe hash, Handler.readHash env s1.fs hp = .ok (hfe, hash) →
      (0 < hash.length → (validateSha256Hash env s1.fs fp hash).2 = none) →
      ∃ w, Handler env p endp r s = (.returned w, s1) ∧ w.calls = [] ∧ w.written = [] ∧
        w.status = 200 ∧
        w.header.get "Content-Type".toList = some "application/octet-stream".toList ∧
        w.header.get "Content-Length".toList =
          (if ((if 0 < hash.length then (validateSha256Hash env s1.fs fp hash).1 else true)
              && ex) = true
            then (s1.fs.get fp).map (fun node => Itoa node.Size) else none)) ∧
    fileIsExist env s1.fs fp = (ex, none) ∧
    (ex = true → ∃ content, s1.fs.get fp = some (.file content)) ∧
    (env.fault (.Stat fp) = none → ex = false → s1.fs.get fp = none) ∧
    (s1.fs.get fp = none → s1.fs.get hp = none → env.fault (.Stat hp) = none →
      Handler env p endp r s =
        (.returned ⟨[("Content-Type".toList, "application/octet-stream".toList)], []⟩, s1)) := by
  have hH := Handler.of_front_check env p endp r fp hp ex s s1 hfront
  have hex := (Handler.front_check_exist env p endp r fp hp ex s s1 hfront).2 hmethod
  refine ⟨?_, hex, ?_, ?_, ?_⟩
  · intro hfe hash hrh hval
    obtain ⟨w, hw, hcalls, hct, hcl, -⟩ :=
      Handler.serve_head_response env r fp hp hash ex hfe s1 hmethod hex hval
    refine ⟨w, ?_, hcalls, ?_, ?_, hct, hcl⟩
    · rw [hH]
      unfold Handler.back
      rw [hrh]
      exact hw
    · simp [ResponseWriter.written, hcalls]
    · simp [ResponseWriter.status, hcalls]
  · intro he
    rw [he] at hex
    exact (fileIsExist_true env s1.fs fp hex).2
  · intro hstat he
    rw [he] at hex
    exact fileIsExist_false env s1.fs fp hstat hex
  · intro hfp hhp hstat
    have hex0 : ex = false := by
      cases ex with
      | false => rfl
      | true =>
        obtain ⟨-, c, hc⟩ := fileIsExist_true env s1.fs fp hex
        rw [hfp] at hc
        exact Option.noConfusion hc
    subst hex0
    rw [hH]
    unfold Handler.back
    rw [Handler.readHash_none env s1.fs hp hstat hhp]
    simp only
    unfold Handler.serve
    simp [hmethod]
    rfl

/-- The witness of C19: the request `HEAD /etcd/v3.5.16/x` on the empty cache. -/
theorem Handler_head_serve_witness :
    Handler (Sample.env Sample.getBare Sample.noFault) Sample.proxy Sample.endp
        ⟨MethodHead, "/etcd/v3.5.16/x".toList⟩ Sample.empty =
      (.returned ⟨[("Content-Type".toList, "application/octet-stream".toList)], []⟩,
        Sample.empty) :=
  (Handler_head_serve (Sample.env Sample.getBare Sample.noFault) Sample.proxy Sample.endp
    ⟨MethodHead, "/etcd/v3.5.16/x".toList⟩ Sample.filePath Sample.hashFilePath false Sample.empty
    Sample.empty rfl rfl).2.2.2.2 rfl rfl rfl

/-- C20: a GET or HEAD request whose normalized path is empty, starts with a
dot or ends in `.sha256` is answered 404 (`http.NotFound`), with no call on
the endpoint and the state left as it was. -/
theorem Handler_gate_not_found (env : Env) (p : Proxy) (endp : Endpoint) (r : Request)
    (s : State)
    (hmethod : r.Method = MethodGet ∨ r.Method = MethodHead)
    (hgate : normalize r.Path = [] ∨ (normalize r.Path).head? = some '.' ∨
      strings.HasSuffix (normalize r.Path) hashFileSuffix = true) :
    Handler env p endp r s = (.returned (NotFound ResponseWriter.new), s) ∧
      (NotFound ResponseWriter.new).status = 404 := by
  refine ⟨?_, rfl⟩
  unfold Handler Handler.front
  rw [Handler.route_gate env endp r s hmethod hgate]

/-- The witness of C20: the request `GET /etcd/v3.5.16/etcd.sha256` on a
valid slot is answered 404, although the checksum file is in the cache. -/
theorem Handler_gate_not_found_witness :
    Handler (Sample.env Sample.getBare Sample.noFault) Sample.proxy Sample.endp
        ⟨MethodGet, "/etcd/v3.5.16/etcd.sha256".toList⟩ Sample.cached =
      (.returned (NotFound ResponseWriter.new), Sample.cached) ∧
    (NotFound ResponseWriter.new).status = 404 :=
  Handler_gate_not_found (Sample.env Sample.getBare Sample.noFault) Sample.proxy Sample.endp
    ⟨MethodGet, "/etcd/v3.5.16/etcd.sha256".toList⟩ Sample.cached (Or.inl rfl)
    (Or.inr (Or.inr (by decide)))

/-- C21: a checksum file is served directly.  The request
`GET /etcd.sha256/v3.5.16/x` passes the path check, because the normalized path
does not end in `.sha256`; its payload name is the first segment,
`etcd.sha256`, and its payload path is the checksum file of the slot
(`etcd`, `v3.5.16`).  On a cache that holds that slot the handler streams
the checksum file as the body of the response, with the status 200. -/
theorem Handler_serves_checksum_file :
    Handler.route (Sample.env Sample.getBare Sample.noFault) Sample.endp
        ⟨MethodGet, "/etcd.sha256/v3.5.16/x".toList⟩ Sample.cached =
      (.slot "etcd.sha256/v3.5.16/x".toList "etcd.sha256".toList "v3.5.16".toList,
        Sample.cached) ∧
    Sample.proxy.filePath "etcd.sha256".toList "v3.5.16".toList = Sample.hashFilePath ∧
    strings.HasSuffix (Sample.proxy.filePath "etcd.sha256".toList "v3.5.16".toList)
      hashFileSuffix = true ∧
    Sample.cached.fs.get Sample.hashFilePath = some (.file Sample.digest) ∧
    Handler (Sample.env Sample.getBare Sample.noFault) Sample.proxy Sample.endp
        ⟨MethodGet, "/etcd.sha256/v3.5.16/x".toList⟩ Sample.cached =
      (.returned ⟨[("Content-Length".toList, "64".toList)], [.Write Sample.digest]⟩,
        Sample.cached) ∧
    (Handler (Sample.env Sample.getBare Sample.noFault) Sample.proxy Sample.endp
        ⟨MethodGet, "/etcd.sha256/v3.5.16/x".toList⟩ Sample.cached).1.status = some 200 := by
  decide

/-- C22: a request whose normalized path has three segments is not answered
404: the request `GET /etcd/v3.5.16/x` on the empty cache is routed to the
slot (`etcd`, `v3.5.16`), calls `HashFileURL` and `FileURL`, writes both
files of the slot and is answered 200 with the payload.  The answer 404 is
given from four segments on: then no call is made and the state is left as
it was. -/
theorem Handler_three_segments_reach_cache :
    Handler (Sample.env Sample.getBare Sample.noFault) Sample.proxy Sample.endp
        ⟨MethodGet, "/etcd/v3.5.16/x".toList⟩ Sample.empty =
      (.returned ⟨[("Content-Length".toList, "11".toList), ("ETag".toList, Sample.digest)],
          [.Write Sample.payload]⟩,
        ⟨Sample.cached.fs, [],
          [.Acquire "etcd/v3.5.16/x".toList, .HashFileURL "etcd".toList "v3.5.16".toList,
            .get "up/v3.5.16/etcd.sha256".toList, .FileURL "etcd".toList "v3.5.16".toList,
            .get "up/v3.5.16/etcd".toList, .Release "etcd/v3.5.16/x".toList]⟩) ∧
    strings.Split '/' (normalize "/etcd/v3.5.16/x".toList) =
      ["etcd".toList, "v3.5.16".toList, "x".toList] ∧
    (∀ (env : Env) (p : Proxy) (endp : Endpoint) (r : Request) (s : State) (a b c d : GoString)
      (rest : List GoString), (r.Method = MethodGet ∨ r.Method = MethodHead) →
      strings.Split '/' (normalize r.Path) = a :: b :: c :: d :: rest →
      Handler env p endp r s = (.returned ⟨[], [.Error notFoundText 404]⟩, s)) := by
  refine ⟨by decide, by decide, ?_⟩
  intro env p endp r s a b c d rest hmethod hsplit
  unfold Handler Handler.front
  rw [Handler.route_many_segments env endp r s a b c d rest hmethod hsplit]
  rfl

/-- The witness of C22: the request `GET /etcd/v3.5.16/x/y`, of four
segments, is answered 404. -/
theorem Handler_three_segments_reach_cache_witness :
    Handler (Sample.env Sample.getBare Sample.noFault) Sample.proxy Sample.endp
        ⟨MethodGet, "/etcd/v3.5.16/x/y".toList⟩ Sample.empty =
      (.returned ⟨[], [.Error notFoundText 404]⟩, Sample.empty) :=
  Handler_three_segments_reach_cache.2.2 (Sample.env Sample.getBare Sample.noFault)
    Sample.proxy Sample.endp ⟨MethodGet, "/etcd/v3.5.16/x/y".toList⟩ Sample.empty
    "etcd".toList "v3.5.16".toList "x".toList "y".toList [] (Or.inl rfl) (by decide)

/-- C23: a request whose method is neither GET nor HEAD is answered 405 with
the status text of 405, whatever its path; the files, the in-flight set and
the log of calls are left as they were. -/
theorem Handler_method_gate (env : Env) (p : Proxy) (endp : Endpoint) (r : Request) (s : State)
    (hget : r.Method ≠ MethodGet) (hhead : r.Method ≠ MethodHead) :
    Handler env p endp r s =
      (.returned ⟨[], [.Error (env.StatusText 405) 405]⟩, s) ∧
    (Handler env p endp r s).1.status = some 405 := by
  have h : Handler env p endp r s =
      (.returned ⟨[], [.Error (env.StatusText 405) 405]⟩, s) := by
    unfold Handler Handler.front Handler.route
    simp only [hget, hhead, ne_eq, not_false_eq_true, and_self, if_true]
    rfl
  exact ⟨h, by rw [h]; rfl⟩

/-- The witness of C23: the request `POST /etcd/v3.5.16/x` on a valid slot. -/
theorem Handler_method_gate_witness :
    Handler (Sample.env Sample.getBare Sample.noFault) Sample.proxy Sample.endp
        ⟨"POST".toList, "/etcd/v3.5.16/x".toList⟩ Sample.cached =
      (.returned ⟨[], [.Error "Method Not Allowed".toList 405]⟩, Sample.cached) ∧
    (Handler (Sample.env Sample.getBare Sample.noFault) Sample.proxy Sample.endp
        ⟨"POST".toList, "/etcd/v3.5.16/x".toList⟩ Sample.cached).1.status = some 405 :=
  Handler_method_gate (Sample.env Sample.getBare Sample.noFault) Sample.proxy Sample.endp
    ⟨"POST".toList, "/etcd/v3.5.16/x".toList⟩ Sample.cached (by decide) (by decide)

/-- C24: in a fill (a GET request routed to a slot whose payload file is
missing and whose key is free, `HashFileURL` giving `hurl`), when the
upstream answers the checksum fetch with a status other than 200, the
handler calls `http.Error` with that status and with the upstream body, or
with the status text when the body is empty: for a status in 100..999 this
is the response, for a status outside 100..999 `WriteHeader` panics and
no response is written; in both cases the files are left as they were.
When the checksum fetch succeeds and the upstream answers the payload fetch
with a status other than 200, the handler ends the same way and the files
are those the checksum fetch has left.  `fetch.WithContext` returns an
`HttpError` with the status and that text and leaves the state of the sink
as it was, whatever the sink is; for the status 200 its result is the result
of the sink on the response. -/
theorem Handler_upstream_status (env : Env) (p : Proxy) (endp : Endpoint) (r : Request)
    (s s0 : State) (reqPath filename version hurl : GoString)
    (hmethod : r.Method = MethodGet)
    (hroute : Handler.route env endp r s = (.slot reqPath filename version, s0))
    (hmiss : fileIsExist env s.fs (p.filePath filename version) = (false, none))
    (hfree : reqPath ∉ s.sem)
    (hhurl : endp.HashFileURL filename version = .ok hurl) :
    (∀ resp, env.get hurl = .ok resp → resp.StatusCode ≠ 200 →
      Handler env p endp r s =
        (if 100 ≤ resp.StatusCode ∧ resp.StatusCode ≤ 999 then
            .returned ⟨[], [.Error
              (if resp.Body.length > 0 then resp.Body else env.StatusText resp.StatusCode)
              resp.StatusCode]⟩
          else .panicked,
          ⟨s.fs, s.sem, s.log ++ [.Acquire reqPath, .HashFileURL filename version, .get hurl,
            .Release reqPath]⟩)) ∧
    (∀ s2 furl resp,
      Proxy.fetchHash env hurl (p.filePath filename version ++ hashFileSuffix)
        ⟨s.fs, reqPath :: s.sem,
          s.log ++ [.Acquire reqPath, .HashFileURL filename version]⟩ = (none, s2) →
      endp.FileURL filename version = .ok furl →
      env.get furl = .ok resp → resp.StatusCode ≠ 200 →
      Handler env p endp r s =
        (if 100 ≤ resp.StatusCode ∧ resp.StatusCode ≤ 999 then
            .returned ⟨[], [.Error
              (if resp.Body.length > 0 then resp.Body else env.StatusText resp.StatusCode)
              resp.StatusCode]⟩
          else .panicked,
          ⟨s2.fs, s.sem, s.log ++ [.Acquire reqPath, .HashFileURL filename version, .get hurl,
            .FileURL filename version, .get furl, .Release reqPath]⟩)) ∧
    (∀ (σ : Type) (dst : Upstream → σ → Option fetch.Error × σ) (url : GoString) (st : σ)
      (resp : Upstream), env.get url = .ok resp →
      (resp.StatusCode ≠ 200 →
        fetch.WithContext env dst url st =
          (some (.HttpError resp.StatusCode
            (if resp.Body.length > 0 then resp.Body else env.StatusText resp.StatusCode)), st)) ∧
      (resp.StatusCode = 200 → fetch.WithContext env dst url st = dst resp st)) := by
  have heq := Handler.miss_eq env p endp r s s0 reqPath filename version hmethod hroute hmiss hfree
  refine ⟨?_, ?_, ?_⟩
  · intro resp hget hstatus
    rw [heq]
    unfold fill
    simp only [hhurl, Proxy.fetchHash,
      Proxy.download_not_ok env hurl _ resp hget hstatus, httpErrorWriter_httpError]
    rw [http.Error_eq_new]
    simp [State.record]
  · intro s2 furl resp hfh hfurl hget hstatus
    have hlog := (Proxy.fetchHash_frame env hurl (p.filePath filename version ++ hashFileSuffix)
        ⟨s.fs, reqPath :: s.sem,
          s.log ++ [.Acquire reqPath, .HashFileURL filename version]⟩).2
    rw [hfh] at hlog
    simp only at hlog
    rw [heq]
    unfold fill
    have hrec : (State.record ⟨s.fs, reqPath :: s.sem, s.log ++ [.Acquire reqPath]⟩
        (.HashFileURL filename version)) =
        ⟨s.fs, reqPath :: s.sem, s.log ++ [.Acquire reqPath, .HashFileURL filename version]⟩ := by
      simp [State.record]
    simp only [hhurl, hrec, hfh, hfurl, Proxy.fetchFile,
      Proxy.download_not_ok env furl _ resp hget hstatus, httpErrorWriter_httpError]
    rw [http.Error_eq_new]
    simp [State.record, hlog]
  · intro σ dst url st resp hget
    constructor
    · intro hstatus
      simp [fetch.WithContext, hget, hstatus]
    · intro hstatus
      simp [fetch.WithContext, hget, hstatus]

/-- The witness of C24: the request `GET /etcd/v3.5.16/x` on the empty cache
with an upstream that answers the checksum fetch with the status 099 and the
body `odd`: the handler panics in `http.Error` after `Release`, and no
file is written. -/
theorem Handler_upstream_status_witness :
    Handler (Sample.env Sample.getInvalid Sample.noFault) Sample.proxy Sample.endp
        ⟨MethodGet, "/etcd/v3.5.16/x".toList⟩ Sample.empty =
      (.panicked,
        ⟨[], [], [.Acquire "etcd/v3.5.16/x".toList,
          .HashFileURL "etcd".toList "v3.5.16".toList, .get "up/v3.5.16/etcd.sha256".toList,
          .Release "etcd/v3.5.16/x".toList]⟩) :=
  ((Handler_upstream_status (Sample.env Sample.getInvalid Sample.noFault) Sample.proxy
    Sample.endp ⟨MethodGet, "/etcd/v3.5.16/x".toList⟩ Sample.empty Sample.empty
    "etcd/v3.5.16/x".toList "etcd".toList "v3.5.16".toList "up/v3.5.16/etcd.sha256".toList
    rfl rfl rfl (by decide) rfl).1 ⟨99, "odd".toList, none⟩ rfl (by decide)).trans rfl

/-- C25: `httpErrorWriter` ends on every error in one of two ways: one
`http.Error` call with a status code in 100..999, which is the response, or
the panic of `WriteHeader`, and this only for an error that wraps an
`httpError` whose status code is outside 100..999.  An error that is
`ErrIsNotRegularFile` gives 404 with the generic not-found text; otherwise
one that is `ErrNotImplemented` gives 501 with the error text; otherwise one
that wraps an `httpError` gives the status and the message of that
`httpError` when the status is in 100..999, and the panic when it is not;
every other error gives 500 with the error text.  A request routed to a slot
whose payload path is a directory is answered 404 with the not-found text,
and the state is left as it was. -/
theorem httpErrorWriter_mapping (env : Env) (e : Error) :
    ((∃ msg code, 100 ≤ code ∧ code ≤ 999 ∧
        httpErrorWriter env ResponseWriter.new (some e) = .returned ⟨[], [.Error msg code]⟩) ∨
      (∃ status msg, e.Is .ErrIsNotRegularFile = false ∧ e.Is .ErrNotImplemented = false ∧
        e.AsHttpError = some (status, msg) ∧ ¬(100 ≤ status ∧ status ≤ 999) ∧
        httpErrorWriter env ResponseWriter.new (some e) = .panicked)) ∧
    (e.Is .ErrIsNotRegularFile = true →
      httpErrorWriter env ResponseWriter.new (some e) =
        .returned ⟨[], [.Error notFoundText 404]⟩) ∧
    (e.Is .ErrIsNotRegularFile = false → e.Is .ErrNotImplemented = true →
      httpErrorWriter env ResponseWriter.new (some e) =
        .returned ⟨[], [.Error (e.Error env.quote) 501]⟩) ∧
    (e.Is .ErrIsNotRegularFile = false → e.Is .ErrNotImplemented = false →
      ∀ status msg, e.AsHttpError = some (status, msg) →
        httpErrorWriter env ResponseWriter.new (some e) =
          if 100 ≤ status ∧ status ≤ 999 then .returned ⟨[], [.Error msg status]⟩
          else .panicked) ∧
    (e.Is .ErrIsNotRegularFile = false → e.Is .ErrNotImplemented = false →
      e.AsHttpError = none →
      httpErrorWriter env ResponseWriter.new (some e) =
        .returned ⟨[], [.Error (e.Error env.quote) 500]⟩) ∧
    (∀ text status msg,
      httpErrorWriter env ResponseWriter.new (some (.wrap text (.httpError status msg))) =
        if 100 ≤ status ∧ status ≤ 999 then .returned ⟨[], [.Error msg status]⟩
        else .panicked) ∧
    (∀ (p : Proxy) (endp : Endpoint) (r : Request) (s s0 : State)
      (reqPath filename version : GoString),
      Handler.route env endp r s = (.slot reqPath filename version, s0) →
      s.fs.get (p.filePath filename version) = some .dir →
      env.fault (.Stat (p.filePath filename version)) = none →
      Handler env p endp r s = (.returned ⟨[], [.Error notFoundText 404]⟩, s)) := by
  refine ⟨httpErrorWriter_outcome env e, ?_, ?_, ?_, ?_, ?_, ?_⟩
  · intro h
    simp [httpErrorWriter, h, http.Error_new]
  · intro h1 h2
    simp [httpErrorWriter, h1, h2, http.Error_new]
  · intro h1 h2 status msg h3
    simp only [httpErrorWriter, h1, h2, h3]
    exact http.Error_eq_new msg status
  · intro h1 h2 h3
    simp [httpErrorWriter, h1, h2, h3, http.Error_new]
  · intro text status msg
    simp only [httpErrorWriter, Error.Is, Error.AsHttpError]
    exact http.Error_eq_new msg status
  · intro p endp r s s0 reqPath filename version hroute hdir hstat
    obtain ⟨hs0, -⟩ := Handler.route_slot env endp r s s0 reqPath filename version hroute
    subst hs0
    unfold Handler Handler.front
    rw [hroute]
    simp only
    rw [Handler.lookup_dir env p endp r reqPath filename version s0 hdir hstat]

/-- The witness of C25: the `httpError` of status 99 that `download` makes of
an upstream answer with the status 099 and the body `odd`: `httpErrorWriter`
panics in `http.Error`. -/
theorem httpErrorWriter_mapping_witness :
    httpErrorWriter (Sample.env Sample.getInvalid Sample.noFault) ResponseWriter.new
        (some (.httpError 99 "odd".toList)) = .panicked :=
  ((httpErrorWriter_mapping (Sample.env Sample.getInvalid Sample.noFault)
    (.httpError 99 "odd".toList)).2.2.2.1 rfl rfl 99 "odd".toList rfl).trans rfl

/-- C26 (counterexample): with the etcd resolver and a release `v3.5.17`
that has no asset named `SHA256SUMS`, the request `GET /etcd/v3.5.17/x` on
the empty cache is answered with the status 500 and the text
`file not found`, not with 404; the resolver has failed with
`ErrFileNotFound`. -/
theorem Handler_asset_not_found_is_500 :
    Handler (Sample.env Sample.getBare Sample.noFault) Sample.proxy
        (cmd.etcd.toEndpoint Sample.quote Sample.client)
        ⟨MethodGet, "/etcd/v3.5.17/x".toList⟩ Sample.empty =
      (.returned ⟨[], [.Error "file not found".toList 500]⟩,
        ⟨[], [], [.Acquire "etcd/v3.5.17/x".toList,
          .HashFileURL "etcd".toList "v3.5.17".toList, .Release "etcd/v3.5.17/x".toList]⟩) ∧
    (cmd.etcd.toEndpoint Sample.quote Sample.client).HashFileURL "etcd".toList "v3.5.17".toList =
      .error .ErrFileNotFound ∧
    (Handler (Sample.env Sample.getBare Sample.noFault) Sample.proxy
        (cmd.etcd.toEndpoint Sample.quote Sample.client)
        ⟨MethodGet, "/etcd/v3.5.17/x".toList⟩ Sample.empty).1.status ≠ some 404 :=
  ⟨by decide, rfl, by decide⟩

/-- C26 (as amended): in a fill with a GitHub resolver (a GET request routed
to a slot whose payload file is missing and whose key is free, the release
of the tag being fetched), when the release has no asset with the name of
the checksum file, or, after a checksum fetch that succeeds, none with the
name of the payload, the handler answers with the status 500 and the text
`file not found`, and the payload file is not written: the resolver fails
with `ErrFileNotFound`, which `httpErrorWriter` treats as any other error. -/
theorem Handler_asset_not_found (env : Env) (p : Proxy) (cl : github.Client) (gh : Github)
    (r : Request) (s s0 : State) (reqPath filename version : GoString)
    (rel : github.RepositoryRelease)
    (hmethod : r.Method = MethodGet)
    (hroute : Handler.route env (gh.toEndpoint env.quote cl) r s =
      (.slot reqPath filename version, s0))
    (hmiss : fileIsExist env s.fs (p.filePath filename version) = (false, none))
    (hfree : reqPath ∉ s.sem)
    (hrel : cl.GetReleaseByTag gh.Owner gh.Repo version = .ok rel) :
    ((∀ a ∈ rel.Assets, a.Name ≠ gh.HashFile version) →
      Handler env p (gh.toEndpoint env.quote cl) r s =
        (.returned ⟨[], [.Error "file not found".toList 500]⟩,
          ⟨s.fs, s.sem, s.log ++ [.Acquire reqPath, .HashFileURL filename version,
            .Release reqPath]⟩)) ∧
    (∀ hurl s2, gh.getUrl env.quote cl version (gh.HashFile version) = .ok hurl →
      Proxy.fetchHash env hurl (p.filePath filename version ++ hashFileSuffix)
        ⟨s.fs, reqPath :: s.sem,
          s.log ++ [.Acquire reqPath, .HashFileURL filename version]⟩ = (none, s2) →
      (∀ a ∈ rel.Assets, a.Name ≠ gh.File version) →
      Handler env p (gh.toEndpoint env.quote cl) r s =
        (.returned ⟨[], [.Error "file not found".toList 500]⟩,
          ⟨s2.fs, s.sem, s.log ++ [.Acquire reqPath, .HashFileURL filename version, .get hurl,
            .FileURL filename version, .Release reqPath]⟩) ∧
      s2.fs.get (p.filePath filename version) = s.fs.get (p.filePath filename version)) := by
  have heq := Handler.miss_eq env p (gh.toEndpoint env.quote cl) r s s0 reqPath filename version
    hmethod hroute hmiss hfree
  have hscan : ∀ f, gh.getUrl env.quote cl version f = Github.scan f rel.Assets := by
    intro f
    simp [Github.getUrl, hrel, wrapper]
  have hw : httpErrorWriter env ResponseWriter.new (some .ErrFileNotFound) =
      .returned ⟨[], [.Error "file not found".toList 500]⟩ := by
    simp [httpErrorWriter, Error.Is, Error.AsHttpError, Error.Error, http.Error_new]
  refine ⟨?_, ?_⟩
  · intro hno
    have hH : (gh.toEndpoint env.quote cl).HashFileURL filename version =
        .error .ErrFileNotFound := by
      show gh.getUrl env.quote cl version (gh.HashFile version) = _
      rw [hscan]
      exact (Github.scan_none _ _).mpr hno
    rw [heq]
    unfold fill
    simp only [hH, hw]
    simp [State.record]
  · intro hurl s2 hH hfh hno
    have hH2 : (gh.toEndpoint env.quote cl).HashFileURL filename version = .ok hurl := hH
    have hF : (gh.toEndpoint env.quote cl).FileURL filename version =
        .error .ErrFileNotFound := by
      show gh.getUrl env.quote cl version (gh.File version) = _
      rw [hscan]
      exact (Github.scan_none _ _).mpr hno
    have hlog := (Proxy.fetchHash_frame env hurl (p.filePath filename version ++ hashFileSuffix)
        ⟨s.fs, reqPath :: s.sem,
          s.log ++ [.Acquire reqPath, .HashFileURL filename version]⟩).2
    rw [hfh] at hlog
    simp only at hlog
    have hrec : (State.record ⟨s.fs, reqPath :: s.sem, s.log ++ [.Acquire reqPath]⟩
        (.HashFileURL filename version)) =
        ⟨s.fs, reqPath :: s.sem, s.log ++ [.Acquire reqPath, .HashFileURL filename version]⟩ := by
      simp [State.record]
    constructor
    · rw [heq]
      unfold fill
      simp only [hH2, hrec, hfh, hF, hw]
      simp [State.record, hlog]
    · obtain ⟨-, -, -, hne, -⟩ := Handler.route_slot env _ r s s0 reqPath filename version hroute
      obtain ⟨hsl, hdot⟩ := Handler.route_slot_name env _ r s s0 reqPath filename version hroute
      have hget := Proxy.fetchHash_get env hurl (p.filePath filename version ++ hashFileSuffix)
        (p.filePath filename version)
        ⟨s.fs, reqPath :: s.sem, s.log ++ [.Acquire reqPath, .HashFileURL filename version]⟩
        (hashFilePath_ne _).symm
        (by
          rw [(Proxy.filePath_dir p filename version hne hsl hdot).1]
          exact (Proxy.filePath_dir p filename version hne hsl hdot).2.symm)
      rw [hfh] at hget
      exact hget

/-- The witness of C26 as amended: the request `GET /etcd/v3.5.17/x` with the
etcd resolver, whose release `v3.5.17` has no asset named `SHA256SUMS`. -/
theorem Handler_asset_not_found_witness :
    Handler (Sample.env Sample.getBare Sample.noFault) Sample.proxy
        (cmd.etcd.toEndpoint Sample.quote Sample.client)
        ⟨MethodGet, "/etcd/v3.5.17/x".toList⟩ Sample.empty =
      (.returned ⟨[], [.Error "file not found".toList 500]⟩,
        ⟨[], [], [.Acquire "etcd/v3.5.17/x".toList,
          .HashFileURL "etcd".toList "v3.5.17".toList, .Release "etcd/v3.5.17/x".toList]⟩) :=
  (Handler_asset_not_found (Sample.env Sample.getBare Sample.noFault) Sample.proxy Sample.client
    cmd.etcd ⟨MethodGet, "/etcd/v3.5.17/x".toList⟩ Sample.empty Sample.empty
    "etcd/v3.5.17/x".toList "etcd".toList "v3.5.17".toList Sample.bareRelease rfl rfl rfl
    (by decide) rfl).1 (by decide)

/-- C27: when the release of the tag is fetched, `getUrl` returns the
download URL of the first asset whose name is equal to the filename, and
fails with `ErrFileNotFound` exactly when no asset has that name; a name
that is equal gives a match however the assets before it are named, as long
as none of them is equal.  `FileURL` and `HashFileURL` look for `File(tag)`
and `HashFile(tag)`: the file hint does not matter. -/
theorem Github_getUrl_exact_match (quote : GoString → GoString) (cl : github.Client)
    (gh : Github) (tag f : GoString) (rel : github.RepositoryRelease)
    (hrel : cl.GetReleaseByTag gh.Owner gh.Repo tag = .ok rel) :
    (gh.getUrl quote cl tag f =
      match rel.Assets.find? (fun asset => decide (asset.Name = f)) with
      | some asset => .ok asset.BrowserDownloadURL
      | none => .error .ErrFileNotFound) ∧
    (∀ pre a post, rel.Assets = pre ++ a :: post → a.Name = f → (∀ b ∈ pre, b.Name ≠ f) →
      gh.getUrl quote cl tag f = .ok a.BrowserDownloadURL) ∧
    (∀ url, gh.getUrl quote cl tag f = .ok url →
      ∃ pre a post, rel.Assets = pre ++ a :: post ∧ a.Name = f ∧ a.BrowserDownloadURL = url ∧
        ∀ b ∈ pre, b.Name ≠ f) ∧
    (gh.getUrl quote cl tag f = .error .ErrFileNotFound ↔ ∀ a ∈ rel.Assets, a.Name ≠ f) ∧
    (∀ file, gh.FileURL quote cl file tag = gh.getUrl quote cl tag (gh.File tag)) ∧
    (∀ file, gh.HashFileURL quote cl file tag = gh.getUrl quote cl tag (gh.HashFile tag)) := by
  have hg : gh.getUrl quote cl tag f = Github.scan f rel.Assets := by
    simp [Github.getUrl, hrel, wrapper]
  refine ⟨?_, ?_, ?_, ?_, fun _ => rfl, fun _ => rfl⟩
  · rw [hg]; exact Github.scan_find f rel.Assets
  · intro pre a post hsplit ha hpre
    rw [hg, hsplit]
    exact Github.scan_first f pre post a ha hpre
  · intro url hurl
    rw [hg] at hurl
    exact Github.scan_ok f url rel.Assets hurl
  · rw [hg]; exact Github.scan_none f rel.Assets

/-- The witness of C27: in the release `v3.5.16` of etcd the archive is found
under its exact name, after the signature whose name contains it, and the
first of two assets with that name is taken. -/
theorem Github_getUrl_exact_match_witness :
    cmd.etcd.getUrl Sample.quote Sample.client "v3.5.16".toList
        "etcd-v3.5.16-linux-amd64.tar.gz".toList = .ok "gh/2".toList :=
  (Github_getUrl_exact_match Sample.quote Sample.client cmd.etcd "v3.5.16".toList
    "etcd-v3.5.16-linux-amd64.tar.gz".toList Sample.release rfl).2.1
    [⟨"etcd-v3.5.16-linux-amd64.tar.gz.asc".toList, "gh/1".toList⟩]
    ⟨"etcd-v3.5.16-linux-amd64.tar.gz".toList, "gh/2".toList⟩
    [⟨"SHA256SUMS".toList, "gh/3".toList⟩,
      ⟨"etcd-v3.5.16-linux-amd64.tar.gz".toList, "gh/4".toList⟩]
    rfl rfl (by decide)

/-- C28: `kube.FileURL` never fails and gives
`https://dl.k8s.io/<version>/bin/linux/amd64/<file>`, and `kube.HashFileURL`
gives the same URL with `.sha256` appended. -/
theorem kube_FileURL_pattern (file version : GoString) :
    kube.FileURL file version =
      .ok ("https://dl.k8s.io/".toList ++ version ++ "/bin/linux/amd64/".toList ++ file) ∧
    kube.HashFileURL file version =
      .ok ("https://dl.k8s.io/".toList ++ version ++ "/bin/linux/amd64/".toList ++ file ++
        ".sha256".toList) ∧
    kube.HashFileURL file version = (kube.FileURL file version).map (fun url => url ++ hashFileSuffix) := by
  refine ⟨rfl, ?_, ?_⟩
  · simp [kube.HashFileURL, kube.FileURL, k8sUrlPattern, hashFileSuffix]
  · simp [kube.HashFileURL, kube.FileURL, k8sUrlPattern, Except.map]

/-- The witness of C28: `kubectl` at `v1.31.1`. -/
theorem kube_FileURL_pattern_witness :
    kube.FileURL "kubectl".toList "v1.31.1".toList =
      .ok "https://dl.k8s.io/v1.31.1/bin/linux/amd64/kubectl".toList ∧
    kube.HashFileURL "kubectl".toList "v1.31.1".toList =
      .ok "https://dl.k8s.io/v1.31.1/bin/linux/amd64/kubectl.sha256".toList :=
  ⟨(kube_FileURL_pattern "kubectl".toList "v1.31.1".toList).1,
    (kube_FileURL_pattern "kubectl".toList "v1.31.1".toList).2.1⟩

/-- C29: the key of the semaphore is the whole normalized request path, with
its third segment, not the slot.  The requests `GET /etcd/v3.5.16/x` and
`GET /etcd/v3.5.16/y` are routed to the same slot, with the same payload
path, under different keys.  Two requests with the same key do have the same
name and version, and so the same payload path. -/
theorem Handler_same_slot_different_keys :
    Handler.route (Sample.env Sample.getBare Sample.noFault) Sample.endp
        ⟨MethodGet, "/etcd/v3.5.16/x".toList⟩ Sample.empty =
      (.slot "etcd/v3.5.16/x".toList "etcd".toList "v3.5.16".toList, Sample.empty) ∧
    Handler.route (Sample.env Sample.getBare Sample.noFault) Sample.endp
        ⟨MethodGet, "/etcd/v3.5.16/y".toList⟩ Sample.empty =
      (.slot "etcd/v3.5.16/y".toList "etcd".toList "v3.5.16".toList, Sample.empty) ∧
    "etcd/v3.5.16/x".toList ≠ "etcd/v3.5.16/y".toList ∧
    Sample.proxy.filePath "etcd".toList "v3.5.16".toList = Sample.filePath ∧
    (∀ (env : Env) (p : Proxy) (endp : Endpoint) (r1 r2 : Request) (s1 s2 t1 t2 : State)
      (key f1 v1 f2 v2 : GoString),
      Handler.route env endp r1 s1 = (.slot key f1 v1, t1) →
      Handler.route env endp r2 s2 = (.slot key f2 v2, t2) →
      key = normalize r1.Path ∧ key = normalize r2.Path ∧ f1 = f2 ∧ v1 = v2 ∧
        p.filePath f1 v1 = p.filePath f2 v2) := by
  refine ⟨by decide, by decide, by decide, by decide, ?_⟩
  intro env p endp r1 r2 s1 s2 t1 t2 key f1 v1 f2 v2 h1 h2
  obtain ⟨hf, hv⟩ := Handler.route_same_key env endp r1 r2 s1 s2 t1 t2 key f1 v1 f2 v2 h1 h2
  obtain ⟨-, hk, -⟩ := Handler.route_slot env endp r1 s1 t1 key f1 v1 h1
  obtain ⟨-, hk2, -⟩ := Handler.route_slot env endp r2 s2 t2 key f2 v2 h2
  exact ⟨hk, hk2, hf, hv, by rw [hf, hv]⟩

/-- The witness of C29: the requests `GET /etcd/v3.5.16/x` and
`GET /etcd//v3.5.16/x`, with one key, have one payload path. -/
theorem Handler_same_slot_different_keys_witness :
    "etcd/v3.5.16/x".toList = normalize "/etcd/v3.5.16/x".toList ∧
    "etcd/v3.5.16/x".toList = normalize "/etcd//v3.5.16/x".toList ∧
    "etcd".toList = "etcd".toList ∧ "v3.5.16".toList = "v3.5.16".toList ∧
    Sample.proxy.filePath "etcd".toList "v3.5.16".toList =
      Sample.proxy.filePath "etcd".toList "v3.5.16".toList :=
  Handler_same_slot_different_keys.2.2.2.2 (Sample.env Sample.getBare Sample.noFault)
    Sample.proxy Sample.endp
    ⟨MethodGet, "/etcd/v3.5.16/x".toList⟩ ⟨MethodGet, "/etcd//v3.5.16/x".toList⟩
    Sample.empty Sample.empty Sample.empty Sample.empty "etcd/v3.5.16/x".toList
    "etcd".toList "v3.5.16".toList "etcd".toList "v3.5.16".toList rfl rfl

/-- C30: whenever a request reaches the cache lookup, whatever its URL path,
the name and the version it uses are normal path elements: not empty,
neither `.` nor `..`, and without a slash.  The payload path is the cleaned
assets directory followed by the version and the name, and the checksum path
is the same with `.sha256` appended to the name; these are the paths the
lookup, the fill and the invalidation work on. -/
theorem Handler_slot_inside_assetsDir (env : Env) (p : Proxy) (endp : Endpoint) (r : Request)
    (s s0 : State) (reqPath filename version : GoString)
    (hroute : Handler.route env endp r s = (.slot reqPath filename version, s0)) :
    path.Normal filename ∧ path.Normal version ∧ path.Normal (filename ++ hashFileSuffix) ∧
    p.filePath filename version =
      (if path.Clean p.dir = ['.'] then [] else if path.Clean p.dir = ['/'] then ['/']
        else path.Clean p.dir ++ ['/']) ++ version ++ '/' :: filename ∧
    p.filePath filename version ++ hashFileSuffix =
      (if path.Clean p.dir = ['.'] then [] else if path.Clean p.dir = ['/'] then ['/']
        else path.Clean p.dir ++ ['/']) ++ version ++ '/' :: (filename ++ hashFileSuffix) ∧
    (∀ fp hp ex s1, Handler.front env p endp r s = (.check fp hp ex, s1) →
      fp = p.filePath filename version ∧ hp = p.filePath filename version ++ hashFileSuffix) := by
  obtain ⟨hf, hv⟩ := Handler.route_slot_normal env endp r s s0 reqPath filename version hroute
  have hin := Proxy.filePath_inside p filename version hf hv
  refine ⟨hf, hv, ?_, hin, ?_, ?_⟩
  · refine ⟨by simp [hf.1], ?_, ?_, ?_⟩
    · intro h
      have hlen := congrArg List.length h
      simp [hashFileSuffix] at hlen
    · intro h
      have hlen := congrArg List.length h
      simp [hashFileSuffix] at hlen
    · intro h
      rcases List.mem_append.mp h with h1 | h1
      · exact hf.2.2.2 h1
      · simp [hashFileSuffix] at h1
  · rw [hin]
    simp
  · intro fp hp ex s1 hfront
    unfold Handler.front at hfront
    rw [hroute] at hfront
    simp only at hfront
    obtain ⟨h1, h2⟩ := Handler.lookup_check env p endp r reqPath filename version fp hp ex s0 s1
      hfront
    exact ⟨h1, by rw [h2, h1]⟩

/-- The witness of C30: the request `GET /../etcd//./v3.5.16/x/../y` is routed
to the slot (`etcd`, `v3.5.16`), whose payload path is `/srv/v3.5.16/etcd`. -/
theorem Handler_slot_inside_assetsDir_witness :
    Sample.proxy.filePath "etcd".toList "v3.5.16".toList = "/srv/v3.5.16/etcd".toList :=
  (Handler_slot_inside_assetsDir (Sample.env Sample.getBare Sample.noFault) Sample.proxy
    Sample.endp ⟨MethodGet, "/../etcd//./v3.5.16/x/../y".toList⟩ Sample.empty Sample.empty
    "etcd/v3.5.16/y".toList "etcd".toList "v3.5.16".toList rfl).2.2.2.1

end Fileproxy
